import Mathlib

/-!
Verification development for the MusicApp repository (src/MusicApp_main.py).

The Python program is shallowly embedded: Python strings become lists of
characters (a Python str is a sequence of code points, compared
lexicographically), Python lists become Lean lists, in-place mutation becomes
explicit state passing, and code paths that raise exceptions return values of
an Except type. Parent-pointer walks in the red-black and AVL trees are
embedded with zippers: the focused subtree plus the chain of ancestor frames
is exactly the information the Python code reaches through node.parent.
Line numbers in doc comments refer to src/MusicApp_main.py.
-/

namespace MusicApp

/-- Python strings embedded as their sequence of code points. -/
abbrev PyStr := List Char

/-- Python string comparison a < b: lexicographic on code points. Embeds the
comparisons performed by the Song dunder methods when the selected fields are
strings (src lines 42-60). -/
def pyStrLt : PyStr → PyStr → Bool
  | [], [] => false
  | [], _ :: _ => true
  | _ :: _, [] => false
  | a :: as, b :: bs => if a < b then true else if b < a then false else pyStrLt as bs

/-- Python string comparison a <= b, lexicographic on code points. -/
def pyStrLe : PyStr → PyStr → Bool
  | [], _ => true
  | _ :: _, [] => false
  | a :: as, b :: bs => if a < b then true else if b < a then false else pyStrLe as bs

/-- The five comparison keys accepted by Song.set_key (src lines 30-36); a Song
is constructed with key title by default (src line 22). -/
inductive SongKey
  | title
  | artist
  | album
  | genre
  | playtime
  deriving DecidableEq

/-- Song record (src lines 17-28): four string fields, the playtime in seconds
(a non-negative integer in every program path that builds a Song), and the
active comparison key. -/
structure Song where
  title : PyStr
  artist : PyStr
  album : PyStr
  genre : PyStr
  playtime : Nat
  key : SongKey
  deriving DecidableEq

/-- The value getattr(self, self.key) selects in the Song comparison methods:
one of the four string fields or the numeric playtime. -/
inductive FieldVal
  | ofStr (s : PyStr)
  | ofNat (n : Nat)
  deriving DecidableEq

/-- getattr(s, s.key) as used on each side of every Song comparison
(src lines 42-60). -/
def Song.getKeyVal (s : Song) : FieldVal :=
  match s.key with
  | SongKey.title => FieldVal.ofStr s.title
  | SongKey.artist => FieldVal.ofStr s.artist
  | SongKey.album => FieldVal.ofStr s.album
  | SongKey.genre => FieldVal.ofStr s.genre
  | SongKey.playtime => FieldVal.ofNat s.playtime

/-- Python < on two selected field values. A string/number mix raises TypeError
in Python; that mix never occurs when both songs carry the same key, which is
how every program path compares songs, so the mixed branch returns false
here. -/
def fvLt : FieldVal → FieldVal → Bool
  | FieldVal.ofStr a, FieldVal.ofStr b => pyStrLt a b
  | FieldVal.ofNat a, FieldVal.ofNat b => decide (a < b)
  | _, _ => false

/-- Python <= on two selected field values (mixed branch as in fvLt). -/
def fvLe : FieldVal → FieldVal → Bool
  | FieldVal.ofStr a, FieldVal.ofStr b => pyStrLe a b
  | FieldVal.ofNat a, FieldVal.ofNat b => decide (a ≤ b)
  | _, _ => false

/-- Python == on two selected field values; a string/number mix compares
unequal in Python, faithfully giving false here. -/
def fvEq : FieldVal → FieldVal → Bool
  | FieldVal.ofStr a, FieldVal.ofStr b => a == b
  | FieldVal.ofNat a, FieldVal.ofNat b => a == b
  | _, _ => false

/-- Song.__lt__ (src line 44): getattr(self, self.key) < getattr(other, other.key). -/
def songLt (a b : Song) : Bool := fvLt a.getKeyVal b.getKeyVal

/-- Song.__le__ (src line 48). -/
def songLe (a b : Song) : Bool := fvLe a.getKeyVal b.getKeyVal

/-- Song.__gt__ (src line 52): the selected field of self is greater. -/
def songGt (a b : Song) : Bool := fvLt b.getKeyVal a.getKeyVal

/-- Song.__ge__ (src line 55). -/
def songGe (a b : Song) : Bool := fvLe b.getKeyVal a.getKeyVal

/-- Song.__eq__ (src line 60). -/
def songEq (a b : Song) : Bool := fvEq a.getKeyVal b.getKeyVal

/-- Exceptions the embedded code can raise. -/
inductive PyErr
  | typeError
  | indexError
  | attributeError
  | valueNotStored
  deriving DecidableEq

/-- Plain binary search tree built from TreeNode objects (src lines 99-106);
nil embeds the Python None child. -/
inductive BTree
  | nil
  | node (left : BTree) (song : Song) (right : BTree)
  deriving DecidableEq

/-- BinarySearchTree.insert together with _insert_recursive (src lines
120-136): descend left exactly when song < node.song, so ties go right; the
new song becomes a leaf. The nil case covers both the empty-root case of
insert and the leaf-creation cases of the recursion. -/
def BTree.insertRec : BTree → Song → BTree
  | BTree.nil, s => BTree.node BTree.nil s BTree.nil
  | BTree.node l x r, s =>
      if songLt s x then BTree.node (l.insertRec s) x r else BTree.node l x (r.insertRec s)

/-- BinarySearchTree.search together with _search_recursive (src lines
138-149): equality is tested first, then the comparator chooses a side; the
found node is returned as its subtree. -/
def BTree.searchRec : BTree → Song → Option BTree
  | BTree.nil, _ => none
  | BTree.node l x r, s =>
      if songEq x s then some (BTree.node l x r)
      else if songLt s x then l.searchRec s
      else r.searchRec s

/-- In-order traversal of a binary tree. Modelled from the spec: the
OrderedIndex contract names an inOrder() operation (spec section 4.1) that
src does not implement (its only iterator, node_depth_first_iter, is a
pre-order walk used by the DFS search); this is the standard left-node-right
traversal the spec refers to. -/
def BTree.inorder : BTree → List Song
  | BTree.nil => []
  | BTree.node l x r => l.inorder ++ x :: r.inorder

/-- Node colors of the red-black tree (src line 174). -/
inductive RBColor
  | red
  | black
  deriving DecidableEq

/-- Red-black tree shape. nil embeds the shared NIL sentinel, which is always
BLACK and never holds a value (src lines 184-187). -/
inductive RBTree
  | nil
  | node (color : RBColor) (left : RBTree) (song : Song) (right : RBTree)
  deriving DecidableEq

/-- Color of a node, with the sentinel black (src line 186). -/
def RBTree.colorOf : RBTree → RBColor
  | RBTree.nil => RBColor.black
  | RBTree.node c _ _ _ => c

/-- Left child, with the sentinel having no children. -/
def RBTree.leftCh : RBTree → RBTree
  | RBTree.nil => RBTree.nil
  | RBTree.node _ l _ _ => l

/-- Right child, with the sentinel having no children. -/
def RBTree.rightCh : RBTree → RBTree
  | RBTree.nil => RBTree.nil
  | RBTree.node _ _ _ r => r

/-- Recolor the root of a subtree black (node.color = BLACK on a possibly
sentinel node is a no-op, as in the source where the sentinel is repainted
black). -/
def RBTree.paintBlack : RBTree → RBTree
  | RBTree.nil => RBTree.nil
  | RBTree.node _ l s r => RBTree.node RBColor.black l s r

/-- Recolor the root of a subtree red (only ever applied to real nodes on
reachable paths). -/
def RBTree.paintRed : RBTree → RBTree
  | RBTree.nil => RBTree.nil
  | RBTree.node _ l s r => RBTree.node RBColor.red l s r

/-- Which child of its parent the focused subtree is. -/
inductive RBDir
  | left
  | right
  deriving DecidableEq

/-- One ancestor on the parent chain of a focused subtree: the direction the
focus hangs on, and the color, song and other child of the parent. This is
the data the Python code reaches through node.parent. -/
structure RBFrame where
  dir : RBDir
  color : RBColor
  song : Song
  sib : RBTree
  deriving DecidableEq

/-- Parent chain of a focused subtree, innermost parent first. -/
abbrev RBCtx := List RBFrame

/-- Rebuild the parent node from a frame and the focused child. -/
def RBFrame.fillOne (f : RBFrame) (t : RBTree) : RBTree :=
  match f.dir with
  | RBDir.left => RBTree.node f.color t f.song f.sib
  | RBDir.right => RBTree.node f.color f.sib f.song t

/-- Plug a focused subtree back through its whole parent chain, recovering the
complete tree. -/
def RBTree.fill : RBTree → RBCtx → RBTree
  | t, [] => t
  | t, f :: rest => RBTree.fill (f.fillOne t) rest

/-- Head color of a parent chain (black for the empty chain, matching the
parent slot of the root, which behaves as absent). -/
def ctxHeadColor : RBCtx → RBColor
  | [] => RBColor.black
  | f :: _ => f.color

/-- Descent loop of RedBlackTree.insert (src lines 197-205): walk from the
root to the insertion point recording the parent chain; the walk goes left
exactly when new_node.song < current.song, so ties go right. -/
def RBTree.insPoint : RBTree → Song → RBCtx → RBCtx
  | RBTree.nil, _, ctx => ctx
  | RBTree.node c l x r, s, ctx =>
      if songLt s x then l.insPoint s (RBFrame.mk RBDir.left c x r :: ctx)
      else r.insPoint s (RBFrame.mk RBDir.right c x l :: ctx)

/-- Terminal case of RedBlackTree.fix_insert with a black uncle (src lines
228-234 and 242-248): recolorings plus one or two rotations, written out as
the resulting subtree that replaces the grandparent, one case per pair of
directions (parent within grandparent, focus within parent). The focus t is
a real node; in the two inner cases its components are needed and the nil
fallback is unreachable. -/
def rbInsRestructure (t : RBTree) (fp fg : RBFrame) : RBTree :=
  match fg.dir, fp.dir with
  | RBDir.left, RBDir.left =>
      RBTree.node RBColor.black t fp.song (RBTree.node RBColor.red fp.sib fg.song fg.sib)
  | RBDir.left, RBDir.right =>
      match t with
      | RBTree.node _ tl ts tr =>
          RBTree.node RBColor.black (RBTree.node RBColor.red fp.sib fp.song tl) ts
            (RBTree.node RBColor.red tr fg.song fg.sib)
      | RBTree.nil => fg.fillOne (fp.fillOne t)
  | RBDir.right, RBDir.right =>
      RBTree.node RBColor.black (RBTree.node RBColor.red fg.sib fg.song fp.sib) fp.song t
  | RBDir.right, RBDir.left =>
      match t with
      | RBTree.node _ tl ts tr =>
          RBTree.node RBColor.black (RBTree.node RBColor.red fg.sib fg.song tl) ts
            (RBTree.node RBColor.red tr fp.song fp.sib)
      | RBTree.nil => fg.fillOne (fp.fillOne t)

/-- RedBlackTree.fix_insert (src lines 219-250). The focus t is the red node
the while loop calls node; the context is its parent chain. With a red parent
and a red uncle the three recolorings are applied and the loop continues from
the grandparent; with a red parent and a black uncle rbInsRestructure is the
terminal rotation outcome. After the loop the root is painted black (src line
250). A red parent whose own parent is absent cannot occur because the root
is black before every insert; on that unreachable branch the source would
dereference None, and this embedding rebuilds and blackens the tree. -/
def rbFixIns (t : RBTree) : RBCtx → RBTree
  | [] => t.paintBlack
  | fp :: rest =>
      if fp.color = RBColor.red then
        match rest with
        | [] => (t.fill [fp]).paintBlack
        | fg :: rrest =>
            if fg.sib.colorOf = RBColor.red then
              rbFixIns
                ((RBFrame.mk fg.dir RBColor.red fg.song fg.sib.paintBlack).fillOne
                  ((RBFrame.mk fp.dir RBColor.black fp.song fp.sib).fillOne t)) rrest
            else ((rbInsRestructure t fp fg).fill rrest).paintBlack
      else (t.fill (fp :: rest)).paintBlack

/-- RedBlackTree.insert (src lines 192-217): descend to the insertion point,
attach the new song as a red node with sentinel children, then run
fix_insert from it. -/
def rbInsert (t : RBTree) (s : Song) : RBTree :=
  rbFixIns (RBTree.node RBColor.red RBTree.nil s RBTree.nil) (t.insPoint s [])


/-- RedBlackTree.search via _search_recursive (src lines 282-294), recording
the parent chain of the found node so that delete can splice there: equality
is tested first, then the comparator chooses a side; none embeds the None
returned at the sentinel. -/
def RBTree.searchZ : RBTree → Song → RBCtx → Option (RBTree × RBCtx)
  | RBTree.nil, _, _ => none
  | RBTree.node c l x r, s, ctx =>
      if songEq x s then some (RBTree.node c l x r, ctx)
      else if songLt s x then l.searchZ s (RBFrame.mk RBDir.left c x r :: ctx)
      else r.searchZ s (RBFrame.mk RBDir.right c x l :: ctx)

/-- RedBlackTree.minimum (src lines 393-396) on a subtree, recording the
frames walked through: descend left until the left child is the sentinel.
Called only on real nodes; the nil case is unreachable. -/
def RBTree.minZ : RBTree → RBCtx → RBTree × RBCtx
  | RBTree.nil, ctx => (RBTree.nil, ctx)
  | RBTree.node c RBTree.nil x r, ctx => (RBTree.node c RBTree.nil x r, ctx)
  | RBTree.node c (RBTree.node lc ll lx lr) x r, ctx =>
      RBTree.minZ (RBTree.node lc ll lx lr) (RBFrame.mk RBDir.left c x r :: ctx)

/-- Terminal arm of fix_delete for a focus that is a left child (src lines
354-365): the sibling S is black and has at least one red child. If the far
(right) nephew is black the near nephew is red and is first rotated up (src
lines 355-359); the final recolorings plus left rotation of the parent then
produce the subtree below, which replaces the parent and ends the loop with
x = root, after which the root is painted black. pc and ps are the parent
color and song; the nil fallbacks are unreachable under the red-black
invariants. -/
def rbDelArmLeft (x : RBTree) (pc : RBColor) (ps : Song) (S : RBTree) (rest : RBCtx) : RBTree :=
  match S with
  | RBTree.node _ sl ssong sr =>
      if sr.colorOf = RBColor.black then
        match sl with
        | RBTree.node _ sll sls slr =>
            ((RBTree.node pc (RBTree.node RBColor.black x ps sll) sls
              (RBTree.node RBColor.black slr ssong sr)).fill rest).paintBlack
        | RBTree.nil => ((RBTree.node pc x ps S).fill rest).paintBlack
      else
        ((RBTree.node pc (RBTree.node RBColor.black x ps sl) ssong sr.paintBlack).fill
          rest).paintBlack
  | RBTree.nil => ((RBTree.node pc x ps S).fill rest).paintBlack

/-- Terminal arm of fix_delete for a focus that is a right child (src lines
377-388), the exact mirror of rbDelArmLeft. -/
def rbDelArmRight (x : RBTree) (pc : RBColor) (ps : Song) (S : RBTree) (rest : RBCtx) : RBTree :=
  match S with
  | RBTree.node _ sl ssong sr =>
      if sl.colorOf = RBColor.black then
        match sr with
        | RBTree.node _ srl srs srr =>
            ((RBTree.node pc (RBTree.node RBColor.black sl ssong srl) srs
              (RBTree.node RBColor.black srr ps x)).fill rest).paintBlack
        | RBTree.nil => ((RBTree.node pc S ps x).fill rest).paintBlack
      else
        ((RBTree.node pc sl.paintBlack ssong (RBTree.node RBColor.black sr ps x)).fill
          rest).paintBlack
  | RBTree.nil => ((RBTree.node pc S ps x).fill rest).paintBlack

/-- RedBlackTree.fix_delete (src lines 341-390). The focus x is the child
that replaced the physically removed black node (possibly the sentinel); the
context is its parent chain. The loop runs while x is not the root and is
black; each iteration inspects the sibling. A red sibling is first rotated
up (src lines 345-349 and 368-372), which in zipper form pushes two new
frames; the iteration then continues on the same focus exactly as in the
source, where the sibling variable is reassigned and control falls through.
With a black sibling whose children are both black, the sibling is painted
red and the loop moves to the parent (the recursive call); after a red
sibling was rotated up the parent is red, so that same fall-through exits
the loop at the red parent and blackens it, which is written out directly.
Otherwise the terminal arms apply. On exit the final x.color = BLACK of src
line 390 blackens the focus or, in the terminal arms, the root. -/
def rbFixDel : RBTree → RBCtx → RBTree
  | x, [] => x.paintBlack
  | x, fp :: rest =>
      if x.colorOf = RBColor.red then x.paintBlack.fill (fp :: rest)
      else
        match fp.dir with
        | RBDir.left =>
            if fp.sib.colorOf = RBColor.red then
              match fp.sib with
              | RBTree.node _ sl ssong sr =>
                  let rest' := RBFrame.mk RBDir.left RBColor.black ssong sr :: rest
                  if sl.leftCh.colorOf = RBColor.black ∧ sl.rightCh.colorOf = RBColor.black then
                    (RBTree.node RBColor.black x fp.song sl.paintRed).fill rest'
                  else rbDelArmLeft x RBColor.red fp.song sl rest'
              | RBTree.nil => x.paintBlack.fill (fp :: rest)
            else
              if fp.sib.leftCh.colorOf = RBColor.black ∧
                  fp.sib.rightCh.colorOf = RBColor.black then
                rbFixDel (RBTree.node fp.color x fp.song fp.sib.paintRed) rest
              else rbDelArmLeft x fp.color fp.song fp.sib rest
        | RBDir.right =>
            if fp.sib.colorOf = RBColor.red then
              match fp.sib with
              | RBTree.node _ sl ssong sr =>
                  let rest' := RBFrame.mk RBDir.right RBColor.black ssong sl :: rest
                  if sr.rightCh.colorOf = RBColor.black ∧ sr.leftCh.colorOf = RBColor.black then
                    (RBTree.node RBColor.black sr.paintRed fp.song x).fill rest'
                  else rbDelArmRight x RBColor.red fp.song sr rest'
              | RBTree.nil => x.paintBlack.fill (fp :: rest)
            else
              if fp.sib.rightCh.colorOf = RBColor.black ∧
                  fp.sib.leftCh.colorOf = RBColor.black then
                rbFixDel (RBTree.node fp.color fp.sib.paintRed fp.song x) rest
              else rbDelArmRight x fp.color fp.song fp.sib rest

/-- Outcome message of a delete call, embedding the printed report. -/
inductive DelMsg
  | removed
  | notFound
  deriving DecidableEq

/-- RedBlackTree.delete (src lines 297-328). If search finds nothing the
method prints that the song was not found and returns with the tree
unchanged. Otherwise the node is spliced out exactly as in the source: with
a sentinel left child the right child x replaces it; with a sentinel right
child the left child x replaces it; with two children the minimum y of the
right subtree takes the place of the node, keeping the node color, and x is
the right child of y, sitting where y was. If the physically removed node
(y in the two-child case, the node itself otherwise) was black, fix_delete
runs from x. The final fallback is unreachable: minZ of a real node returns
a real node with a sentinel left child. -/
def rbDelete (t : RBTree) (s : Song) : DelMsg × RBTree :=
  match t.searchZ s [] with
  | none => (DelMsg.notFound, t)
  | some (z, ctx) =>
      match z with
      | RBTree.nil => (DelMsg.notFound, t)
      | RBTree.node zc zl _ zr =>
          match zl, zr with
          | RBTree.nil, _ =>
              if zc = RBColor.black then (DelMsg.removed, rbFixDel zr ctx)
              else (DelMsg.removed, zr.fill ctx)
          | RBTree.node lc ll lx lr, RBTree.nil =>
              if zc = RBColor.black then
                (DelMsg.removed, rbFixDel (RBTree.node lc ll lx lr) ctx)
              else (DelMsg.removed, (RBTree.node lc ll lx lr).fill ctx)
          | RBTree.node lc ll lx lr, RBTree.node rc rl rx rr =>
              match (RBTree.node rc rl rx rr).minZ [] with
              | (RBTree.node yc RBTree.nil ys yr, ictx) =>
                  let xctx := ictx ++ (RBFrame.mk RBDir.right zc ys (RBTree.node lc ll lx lr) :: ctx)
                  if yc = RBColor.black then (DelMsg.removed, rbFixDel yr xctx)
                  else (DelMsg.removed, yr.fill xctx)
              | _ => (DelMsg.removed, t)

/-- In-order traversal of a red-black tree; see BTree.inorder for why the
traversal itself is modelled from the spec. -/
def RBTree.inorder : RBTree → List Song
  | RBTree.nil => []
  | RBTree.node _ l x r => l.inorder ++ x :: r.inorder

/-- AVL tree shape (AVLNode, src lines 399-409): each node caches its own
height, 1 at creation; nil embeds None. -/
inductive AVLT
  | nil
  | node (left : AVLT) (song : Song) (right : AVLT) (height : Nat)
  deriving DecidableEq

/-- Cached height of a subtree, 0 for an absent child (AVLNode.left_height
and right_height, src lines 411-417). -/
def avlHeightOf : AVLT → Nat
  | AVLT.nil => 0
  | AVLT.node _ _ _ h => h

/-- AVLNode.balance_factor (src lines 419-421): cached left height minus
cached right height. Only called on real nodes; 0 on the unreachable nil. -/
def avlBF : AVLT → Int
  | AVLT.nil => 0
  | AVLT.node l _ r _ => (avlHeightOf l : Int) - (avlHeightOf r : Int)

/-- Rebuild a node with the height update of AVLNode.update_height (src lines
423-425), as performed by set_left followed by set_right. -/
def avlMk (l : AVLT) (s : Song) (r : AVLT) : AVLT :=
  AVLT.node l s r (1 + max (avlHeightOf l) (avlHeightOf r))

/-- AVLTree.rotate_left (src lines 458-464): a.set_right(b.left) then
b.set_left(a); both set calls recompute the heights written here. The
fallback is unreachable: rotations are only requested for nodes leaning to
the relevant side. -/
def avlRotL : AVLT → AVLT
  | AVLT.node al as (AVLT.node bl bs br _) _ => avlMk (avlMk al as bl) bs br
  | t => t

/-- AVLTree.rotate_right (src lines 466-470), mirror of rotate_left. -/
def avlRotR : AVLT → AVLT
  | AVLT.node (AVLT.node bl bs br _) as ar _ => avlMk bl bs (avlMk br as ar)
  | t => t

/-- AVLTree.rebalance (src lines 472-491): balanced nodes are returned
unchanged (with their cached height); a node leaning to the left with
balance 2 first left-rotates its left child when that child leans right and
then right-rotates; any other imbalance takes the mirrored branch, exactly
as the source falls through to it. The intermediate stale height of the node
handed to the rotation is recomputed inside the rotation before every use. -/
def avlRebalance (t : AVLT) : AVLT :=
  match t with
  | AVLT.nil => AVLT.nil
  | AVLT.node l s r h =>
      let balance : Int := (avlHeightOf l : Int) - (avlHeightOf r : Int)
      if balance.natAbs ≤ 1 then AVLT.node l s r h
      else if balance = 2 then
        let l' := if avlBF l = -1 then avlRotL l else l
        avlRotR (AVLT.node l' s r h)
      else
        let r' := if avlBF r = 1 then avlRotR r else r
        avlRotL (AVLT.node l s r' h)

/-- One ancestor on the parent chain of a focused AVL subtree. No height is
recorded: every ancestor on the chain has its height recomputed by
restore_balance before it is ever read. -/
structure AVLFrame where
  dir : RBDir
  song : Song
  sib : AVLT
  deriving DecidableEq

/-- Rebuild the parent node from a frame and the focused child. The written
height 0 is stale exactly as in the source, where insert and delete_leaf
attach children without updating heights; restore_balance recomputes it
before any read. -/
def avlFillOne (f : AVLFrame) (t : AVLT) : AVLT :=
  match f.dir with
  | RBDir.left => AVLT.node t f.song f.sib 0
  | RBDir.right => AVLT.node f.sib f.song t 0

/-- One iteration body of the restore_balance loop (src lines 523-526): the
current node rebalances both of its children and updates its own height. -/
def avlStep : AVLT → AVLT
  | AVLT.nil => AVLT.nil
  | AVLT.node l s r _ => avlMk (avlRebalance l) s (avlRebalance r)

/-- AVLTree.restore_balance (src lines 520-529): walk from the given node up
to the root, applying the loop body at every level, then rebalance the root
itself. -/
def avlRestore : AVLT → List AVLFrame → AVLT
  | t, [] => avlRebalance (avlStep t)
  | t, f :: rest => avlRestore (avlFillOne f (avlStep t)) rest

/-- Descent loop of AVLTree.insert (src lines 496-504): left exactly when the
value is below the node song, so ties go right; the parent chain is the
recorded context. -/
def avlInsPoint : AVLT → Song → List AVLFrame → List AVLFrame
  | AVLT.nil, _, ctx => ctx
  | AVLT.node l x r _, s, ctx =>
      if songLt s x then avlInsPoint l s (AVLFrame.mk RBDir.left x r :: ctx)
      else avlInsPoint r s (AVLFrame.mk RBDir.right x l :: ctx)

/-- AVLTree.insert (src lines 493-518): place the new node of height 1 as a
leaf and run restore_balance from it. -/
def avlInsert (t : AVLT) (s : Song) : AVLT :=
  avlRestore (AVLT.node AVLT.nil s AVLT.nil 1) (avlInsPoint t s [])

/-- AVLTree.search (src lines 561-572) with the parent chain recorded:
equality (probe on the left) is tested first, then the comparator chooses a
side. -/
def avlSearchZ : AVLT → Song → List AVLFrame → Option (AVLT × List AVLFrame)
  | AVLT.nil, _, _ => none
  | AVLT.node l x r h, s, ctx =>
      if songEq s x then some (AVLT.node l x r h, ctx)
      else if songLt s x then avlSearchZ l s (AVLFrame.mk RBDir.left x r :: ctx)
      else avlSearchZ r s (AVLFrame.mk RBDir.right x l :: ctx)

/-- AVLTree.delete (src lines 588-621). An absent value raises the exception
of src line 592. A node with a left child takes the branch of src lines
596-603, a node with only a right child the branch of src lines 604-611;
both then execute src line 615, node.song = replacement.value, which raises
AttributeError because AVLNode stores the payload in the field song and has
no field value. A leaf is detached by delete_leaf (src lines 578-586),
which reassigns the parent child slot without a height update, and
restore_balance then runs from the former parent; a leaf root just empties
the tree, since rebalance_node is None. -/
def avlDelete (t : AVLT) (s : Song) : Except PyErr AVLT :=
  match avlSearchZ t s [] with
  | none => Except.error PyErr.valueNotStored
  | some (z, ctx) =>
      match z with
      | AVLT.nil => Except.error PyErr.valueNotStored
      | AVLT.node zl _ zr _ =>
          match zl with
          | AVLT.node _ _ _ _ => Except.error PyErr.attributeError
          | AVLT.nil =>
              match zr with
              | AVLT.node _ _ _ _ => Except.error PyErr.attributeError
              | AVLT.nil =>
                  match ctx with
                  | [] => Except.ok AVLT.nil
                  | f :: rest => Except.ok (avlRestore (avlFillOne f AVLT.nil) rest)

/-- In-order traversal of an AVL tree; see BTree.inorder for why the
traversal itself is modelled from the spec. -/
def AVLT.inorder : AVLT → List Song
  | AVLT.nil => []
  | AVLT.node l x r _ => l.inorder ++ x :: r.inorder

/-- AVLTree object (src lines 454-456): the root and the size counter, which
insert increments. -/
structure AVLTree where
  root : AVLT
  size : Nat
  deriving DecidableEq

/-- AVLTree.insert at the object level (src lines 493-494). -/
def avlTreeInsert (t : AVLTree) (s : Song) : AVLTree :=
  AVLTree.mk (avlInsert t.root s) (t.size + 1)

/-- AVLTree.delete at the object level; delete never touches size. -/
def avlTreeDelete (t : AVLTree) (s : Song) : Except PyErr AVLTree :=
  (avlDelete t.root s).map (fun r => AVLTree.mk r t.size)

/-- Stable insert of an earlier element into the sorted list of later
elements: skip while the head is strictly below, place before the first
element not below. -/
def sortInsert (a : Song) : List Song → List Song
  | [] => [a]
  | b :: bs => if songLt b a then b :: sortInsert a bs else a :: b :: bs

/-- Python list.sort() as called on the songs list (src lines 698 and 759):
the stable ascending sort determined by Song.__lt__. Timsort is
extensionally the stable comparison sort, so it is embedded as the stable
insertion sort. -/
def listSortPy (l : List Song) : List Song := l.foldr sortInsert []

/-- Playlist object (src lines 73-80). -/
structure Playlist where
  name : PyStr
  total_time : Nat
  songs_not_sorted : List Song
  songs : List Song
  bst : BTree
  rbt : RBTree
  avl : AVLTree
  deriving DecidableEq

/-- Playlist.__init__ (src lines 73-80): everything empty. -/
def emptyPlaylist (n : PyStr) : Playlist :=
  Playlist.mk n 0 [] [] BTree.nil RBTree.nil (AVLTree.mk AVLT.nil 0)

/-- MusicApp.add_song for one playlist (src lines 692-703): build the song
with the default title key, append to both list views, re-sort the sorted
view, insert into the three trees, and add the playtime to the total. -/
def addSong (p : Playlist) (title artist album genre : PyStr) (songTime : Nat) : Playlist :=
  let song := Song.mk title artist album genre songTime SongKey.title
  Playlist.mk p.name (p.total_time + songTime)
    (p.songs_not_sorted ++ [song])
    (listSortPy (p.songs ++ [song]))
    (p.bst.insertRec song)
    (rbInsert p.rbt song)
    (avlTreeInsert p.avl song)

/-- MusicApp.delete_song for one playlist (src lines 761-780). Iterating the
playlist iterates the sorted songs list (src lines 85-86) and the generator
compares the raw title attribute. When no song matches, the method prints
that the title was not found and changes nothing. When a song matches, src
line 769 evaluates playlist.songs[song_to_delete], indexing a Python list
with a Song object, which raises TypeError before any state is modified. -/
def deleteSong (p : Playlist) (title : PyStr) : Except PyErr (Playlist × DelMsg) :=
  match p.songs.find? (fun s => s.title == title) with
  | none => Except.ok (p, DelMsg.notFound)
  | some _ => Except.error PyErr.typeError

/-- MusicApp.shuffle_playlist (src lines 821-823): the unsorted view is
replaced by the permutation of itself that np.random.permutation returns;
that permutation is the external random input, passed here as the argument
shuffled. Nothing else is touched. -/
def shufflePlaylist (p : Playlist) (shuffled : List Song) : Playlist :=
  Playlist.mk p.name p.total_time shuffled p.songs p.bst p.rbt p.avl

/-- Default song used by list indexing that is in range on every reachable
path of the search and sort embeddings. -/
def dSong : Song := Song.mk [] [] [] [] 0 SongKey.title

/-- Python list indexing with its negative-index wrapping and IndexError on
an out-of-range index. -/
def pyIndex (l : List Song) (i : Int) : Except PyErr Song :=
  if i < 0 then
    if 0 ≤ i + l.length then Except.ok (l.getD (i + l.length).toNat dSong)
    else Except.error PyErr.indexError
  else if i < l.length then Except.ok (l.getD i.toNat dSong)
  else Except.error PyErr.indexError

/-- MusicApp.binary_search (src lines 1330-1356). The first line of the body,
if not high, treats both the None default and the value 0 as unset and
replaces them by len(songs) - 1; the top level entry point below passes
len(songs) - 1 directly, which this reset maps to itself, exactly as the
None default does. The fuel counts remaining recursive calls and none embeds
the RecursionError of unbounded recursion. Indexing at mid is in range
whenever low <= high with low nonnegative and high below the length. -/
def binarySearchAux : Nat → List Song → Song → Int → Int → Option Int
  | 0, _, _, _, _ => none
  | fuel + 1, songs, t, low, high0 =>
      let high := if high0 = 0 then (songs.length : Int) - 1 else high0
      if low > high then some (-1)
      else
        let mid := (low + high).fdiv 2
        let m := songs.getD mid.toNat dSong
        if songEq m t then some mid
        else if songLt m t then binarySearchAux fuel songs t (mid + 1) high
        else binarySearchAux fuel songs t low (mid - 1)

/-- Entry point of MusicApp.binary_search with the default arguments low = 0
and high = None. -/
def binarySearch (fuel : Nat) (songs : List Song) (t : Song) : Option Int :=
  binarySearchAux fuel songs t 0 ((songs.length : Int) - 1)

/-- Doubling loop of MusicApp.exponential_search (src lines 1455-1457): while
pos is in range and songs[pos] <= song_to_find, double pos. The condition is
checked before fuel is consumed, so results reached without iterating do not
depend on the fuel. -/
def expLoop (fuel : Nat) (songs : List Song) (t : Song) (pos : Nat) : Option Nat :=
  if pos < songs.length ∧ songLe (songs.getD pos dSong) t then
    match fuel with
    | 0 => none
    | f + 1 => expLoop f songs t (pos * 2)
  else some pos

/-- MusicApp.exponential_search (src lines 1437-1461): songs[0] is read
unguarded, raising IndexError on an empty list; otherwise the doubling loop
bounds a window on which binary_search runs. In the result, none embeds a
computation that never returns and the inner Except an exception. -/
def exponentialSearch (fuel : Nat) (songs : List Song) (t : Song) :
    Option (Except PyErr Int) :=
  match pyIndex songs 0 with
  | Except.error e => some (Except.error e)
  | Except.ok s0 =>
      if songEq s0 t then some (Except.ok 0)
      else
        match expLoop fuel songs t 1 with
        | none => none
        | some pos =>
            let low : Int := max 0 ((pos : Int) / 2)
            let high : Int := min (pos : Int) ((songs.length : Int) - 1)
            (binarySearchAux fuel songs t low high).map Except.ok

/-- First loop of MusicApp.fibonaccianSearch (src lines 1486-1489): grow the
Fibonacci pair until fibM reaches n. State (a, b, m) is (fibMMm2, fibMMm1,
fibM); the loop condition is checked before fuel is consumed. -/
def fibGrow (fuel : Nat) (a b m : Int) (n : Nat) : Option (Int × Int × Int) :=
  if m < n then
    match fuel with
    | 0 => none
    | f + 1 => fibGrow f b m (b + m) n
  else some (a, b, m)

/-- Main loop and final comparison of MusicApp.fibonaccianSearch (src lines
1497-1528). State (a, b, m) is (fibMMm2, fibMMm1, fibM); i is clamped to
n - 1; list reads go through pyIndex, so the final songs[n-1] comparison,
reached with the truthy fibMMm1 = 1 even when the list is empty, raises
IndexError exactly as the source does on songs[-1]. -/
def fibScan (fuel : Nat) (songs : List Song) (t : Song) (a b m : Int) (offset : Int)
    (n : Nat) : Option (Except PyErr Int) :=
  if 1 < m then
    let i : Int := min (offset + a) ((n : Int) - 1)
    match pyIndex songs i with
    | Except.error e => some (Except.error e)
    | Except.ok si =>
        if songLt si t then
          match fuel with
          | 0 => none
          | f + 1 => fibScan f songs t (b - a) a b i n
        else if songGt si t then
          match fuel with
          | 0 => none
          | f + 1 => fibScan f songs t (a - (b - a)) (b - a) a offset n
        else some (Except.ok i)
  else
    if b ≠ 0 then
      match pyIndex songs ((n : Int) - 1) with
      | Except.error e => some (Except.error e)
      | Except.ok sl =>
          if songEq sl t then some (Except.ok ((n : Int) - 1)) else some (Except.ok (-1))
    else some (Except.ok (-1))

/-- MusicApp.fibonaccianSearch (src lines 1463-1528) with its default n =
len(songs); the n parameter also maps the falsy 0 to len(songs), which is
the identity because n is only 0 for an empty list. -/
def fibonacciSearch (fuel : Nat) (songs : List Song) (t : Song) :
    Option (Except PyErr Int) :=
  let n := songs.length
  match fibGrow fuel 0 1 1 n with
  | none => none
  | some (a, b, m) => fibScan fuel songs t a b m (-1) n

/-- MusicApp.merge (src lines 858-890): take from the left exactly when its
head is strictly below the right head, otherwise from the right, then append
the leftovers. -/
def mergeLists : List Song → List Song → List Song
  | [], r => r
  | a :: as, [] => a :: as
  | a :: as, b :: bs =>
      if songLt a b then a :: mergeLists as (b :: bs) else b :: mergeLists (a :: as) bs
  termination_by l r => l.length + r.length

/-- MusicApp.merge_sort (src lines 829-856): split at the middle and merge
the recursively sorted halves; lists of length at most one are returned as
they are. -/
def mergeSort (songs : List Song) : List Song :=
  if h : songs.length ≤ 1 then songs
  else
    mergeLists (mergeSort (songs.take (songs.length / 2)))
      (mergeSort (songs.drop (songs.length / 2)))
  termination_by songs.length
  decreasing_by
  · simp only [List.length_take]
    omega
  · simp only [List.length_drop]
    omega

/-- The Python parallel assignment (l[i], l[j]) = (l[j], l[i]): both reads
happen before both writes. -/
def swapL (l : List Song) (i j : Nat) : List Song :=
  (l.set i (l.getD j dSong)).set j (l.getD i dSong)

/-- Loop of MusicApp.partition (src lines 905-913): j runs from low to
high - 1; i starts at low - 1 and counts elements at most the pivot, each
swapped up next to the previous ones. -/
def partLoop (pivot : Song) : List Song → Nat → Nat → Int → List Song × Int
  | songs, j, high, i =>
      if j < high then
        if songLe (songs.getD j dSong) pivot then
          partLoop pivot (swapL songs (i + 1).toNat j) (j + 1) high (i + 1)
        else partLoop pivot songs (j + 1) high i
      else (songs, i)
  termination_by _ j high _ => high - j

/-- MusicApp.partition (src lines 893-919): pivot is the rightmost element;
after the loop the pivot is swapped just above the elements at most it, and
that position is returned. -/
def partition (songs : List Song) (low high : Nat) : List Song × Int :=
  let pivot := songs.getD high dSong
  let si := partLoop pivot songs low high ((low : Int) - 1)
  (swapL si.1 (si.2 + 1).toNat high, si.2 + 1)

/-- MusicApp.quick_sort (src lines 921-947): partition, then recurse on both
sides of the returned position. The fuel bounds the recursion depth; because
the partition position always lies between low and high, a fuel of
len(songs) + 1 is never exhausted, which the development proves where it is
used, so the fuel-out branch returning the list unchanged is unreachable
there. -/
def quickSortAux : Nat → List Song → Int → Int → List Song
  | 0, songs, _, _ => songs
  | fuel + 1, songs, low, high =>
      if low < high then
        let ph := partition songs low.toNat high.toNat
        quickSortAux fuel (quickSortAux fuel ph.1 low (ph.2 - 1)) (ph.2 + 1) high
      else songs

/-- Entry point of MusicApp.quick_sort with its default arguments low = 0 and
high = None, the latter replaced by len(songs) - 1 (src lines 933-934). -/
def quickSort (songs : List Song) : List Song :=
  quickSortAux (songs.length + 1) songs 0 ((songs.length : Int) - 1)

/-- Inner loop of MusicApp.selection_sort (src lines 966-969): find the index
of the minimum of songs[ind..size-1], scanning j from ind + 1. -/
def selMinLoop (songs : List Song) : Nat → Nat → Nat → Nat
  | j, size, minIdx =>
      if j < size then
        selMinLoop songs (j + 1) size
          (if songLt (songs.getD j dSong) (songs.getD minIdx dSong) then j else minIdx)
      else minIdx
  termination_by j size _ => size - j

/-- Outer loop of MusicApp.selection_sort (src lines 963-971): swap the
minimum of the unsorted part to position ind. -/
def selLoop (songs : List Song) (ind size : Nat) : List Song :=
  if ind < size then
    selLoop (swapL songs ind (selMinLoop songs (ind + 1) size ind)) (ind + 1) size
  else songs
  termination_by size - ind

/-- MusicApp.selection_sort (src lines 949-972) with its default size =
len(songs). -/
def selectionSort (songs : List Song) : List Song := selLoop songs 0 songs.length

/-- Shifting loop of MusicApp.insertion_sort (src lines 993-995): while j is
in range and the key is below songs[j], copy songs[j] one slot up. -/
def insShift (songs : List Song) (key : Song) (j : Int) : List Song × Int :=
  if 0 ≤ j ∧ songLt key (songs.getD j.toNat dSong) then
    insShift (songs.set (j + 1).toNat (songs.getD j.toNat dSong)) key (j - 1)
  else (songs, j)
  termination_by (j + 1).toNat

/-- Outer loop of MusicApp.insertion_sort (src lines 990-996): for each i
from 1, shift the larger prefix elements up and drop the key into the hole.
n is the length captured once at src line 985. -/
def insLoop (songs : List Song) (n i : Nat) : List Song :=
  if i < n then
    let key := songs.getD i dSong
    let sj := insShift songs key ((i : Int) - 1)
    insLoop (sj.1.set (sj.2 + 1).toNat key) n (i + 1)
  else songs
  termination_by n - i

/-- MusicApp.insertion_sort (src lines 974-997). On lists of length at most
one the source returns None early with the list state untouched; the value
sequence, which is what this embedding tracks, is the unchanged list. -/
def insertionSort (songs : List Song) : List Song :=
  if songs.length ≤ 1 then songs else insLoop songs songs.length 1

/-- Shifting loop of MusicApp.shell_sort (src lines 1027-1030): like the
insertion shift but in strides of gap. The leading conjunct records the
enclosing while gap > 0 guard, under which the loop always runs. -/
def shellShift (songs : List Song) (temp : Song) (gap j : Nat) : List Song × Nat :=
  if 0 < gap ∧ gap ≤ j ∧ songGt (songs.getD (j - gap) dSong) temp then
    shellShift (songs.set j (songs.getD (j - gap) dSong)) temp gap (j - gap)
  else (songs, j)
  termination_by j

/-- Gapped insertion pass of MusicApp.shell_sort (src lines 1019-1033): i
runs from gap to n - 1. -/
def shellInner (songs : List Song) (n gap i : Nat) : List Song :=
  if i < n then
    let temp := songs.getD i dSong
    let sj := shellShift songs temp gap i
    shellInner (sj.1.set sj.2 temp) n gap (i + 1)
  else songs
  termination_by n - i

/-- Gap loop of MusicApp.shell_sort (src lines 1018-1034): run a gapped pass
and halve the gap. -/
def shellGapLoop (songs : List Song) (n gap : Nat) : List Song :=
  if 0 < gap then shellGapLoop (shellInner songs n gap gap) n (gap / 2) else songs
  termination_by gap

/-- MusicApp.shell_sort (src lines 999-1035): gaps start at n // 2. -/
def shellSort (songs : List Song) : List Song :=
  shellGapLoop songs songs.length (songs.length / 2)

/-- Inner pass of MusicApp.bubble_sort (src lines 1051-1054): j runs from 0
to m - 1, swapping adjacent out-of-order pairs. -/
def bubblePass (songs : List Song) (j m : Nat) : List Song :=
  if j < m then
    if songGt (songs.getD j dSong) (songs.getD (j + 1) dSong) then
      bubblePass (swapL songs j (j + 1)) (j + 1) m
    else bubblePass songs (j + 1) m
  else songs
  termination_by m - j

/-- Outer loop of MusicApp.bubble_sort (src lines 1049-1054): i runs from 0
to n - 2 and pass i stops before index n - i - 1. -/
def bubbleLoop (songs : List Song) (n i : Nat) : List Song :=
  if i < n - 1 then bubbleLoop (bubblePass songs 0 (n - i - 1)) n (i + 1) else songs
  termination_by (n - 1) - i

/-- MusicApp.bubble_sort (src lines 1037-1055). -/
def bubbleSort (songs : List Song) : List Song := bubbleLoop songs songs.length 0

/-- Inner pass of MusicApp.optimized_bubble_sort (src lines 1072-1075),
additionally reporting whether it swapped anything. -/
def obPass (songs : List Song) (j m : Nat) (swapped : Bool) : List Song × Bool :=
  if j < m then
    if songGt (songs.getD j dSong) (songs.getD (j + 1) dSong) then
      obPass (swapL songs j (j + 1)) (j + 1) m true
    else obPass songs (j + 1) m swapped
  else (songs, swapped)
  termination_by m - j

/-- Outer loop of MusicApp.optimized_bubble_sort (src lines 1069-1079): stop
early after a pass without swaps. -/
def obLoop (songs : List Song) (n i : Nat) : List Song :=
  if i < n - 1 then
    let sb := obPass songs 0 (n - i - 1) false
    if sb.2 then obLoop sb.1 n (i + 1) else sb.1
  else songs
  termination_by (n - 1) - i

/-- MusicApp.optimized_bubble_sort (src lines 1057-1080). -/
def optimizedBubbleSort (songs : List Song) : List Song := obLoop songs songs.length 0

/-- Forward pass of MusicApp.cocktail_sort (src lines 1108-1111): i runs from
start while below stop, swapping adjacent out-of-order pairs and recording
whether anything moved. -/
def cfLoop (songs : List Song) (i : Nat) (stop : Int) (sw : Bool) : List Song × Bool :=
  if (i : Int) < stop then
    if songGt (songs.getD i dSong) (songs.getD (i + 1) dSong) then
      cfLoop (swapL songs i (i + 1)) (i + 1) stop true
    else cfLoop songs (i + 1) stop sw
  else (songs, sw)
  termination_by (stop - i).toNat

/-- Backward pass of MusicApp.cocktail_sort (src lines 1127-1130): i runs
down from stop - 1 to start. -/
def cbLoop (songs : List Song) (i : Int) (start : Nat) (sw : Bool) : List Song × Bool :=
  if (start : Int) ≤ i then
    if songGt (songs.getD i.toNat dSong) (songs.getD (i.toNat + 1) dSong) then
      cbLoop (swapL songs i.toNat (i.toNat + 1)) (i - 1) start true
    else cbLoop songs (i - 1) start sw
  else (songs, sw)
  termination_by (i + 1 - start).toNat

/-- Outer while of MusicApp.cocktail_sort (src lines 1099-1135), entered with
swapped True: forward pass, break if nothing moved, otherwise shrink the end,
run the backward pass, grow the start, and continue while the backward pass
moved something. The fuel bounds the number of iterations; since start grows
and stop shrinks every iteration, a fuel of len(songs) + 1 is never
exhausted, which the development proves where it is used. -/
def cocktailOuter : Nat → List Song → Nat → Int → List Song
  | 0, songs, _, _ => songs
  | fuel + 1, songs, start, stop =>
      let fw := cfLoop songs start stop false
      if fw.2 = false then fw.1
      else
        let bw := cbLoop fw.1 (stop - 1 - 1) start false
        if bw.2 = false then bw.1
        else cocktailOuter fuel bw.1 (start + 1) (stop - 1)

/-- MusicApp.cocktail_sort (src lines 1082-1136): start at 0, end at
n - 1. -/
def cocktailSort (songs : List Song) : List Song :=
  cocktailOuter (songs.length + 1) songs 0 ((songs.length : Int) - 1)

/-- The eight sort strategies offered by sort_playlist (src lines
1138-1198), in menu order, each as the value sequence it produces. -/
def allSorts : List (List Song → List Song) :=
  [mergeSort, quickSort, selectionSort, insertionSort, shellSort, bubbleSort,
    optimizedBubbleSort, cocktailSort]

/-- Red-black invariant of the claim, part one: the root is black (the
sentinel root of an empty tree included). -/
def rootBlackB (t : RBTree) : Bool := t.colorOf == RBColor.black

/-- Red-black invariant of the claim, part two: no red node has a red parent,
checked as no red node having a red child. -/
def noRedRedB : RBTree → Bool
  | RBTree.nil => true
  | RBTree.node c l _ r =>
      (c == RBColor.black || (l.colorOf == RBColor.black && r.colorOf == RBColor.black))
        && noRedRedB l && noRedRedB r

/-- Red-black invariant of the claim, part three: the number of black nodes
is the same on every path from the root to a sentinel; the count is returned,
none on a violation. -/
def bhOpt : RBTree → Option Nat
  | RBTree.nil => some 0
  | RBTree.node c l _ r =>
      match bhOpt l, bhOpt r with
      | some a, some b =>
          if a = b then some (a + (if c = RBColor.black then 1 else 0)) else none
      | _, _ => none

/-- One operation on the red-black index. -/
inductive RBOp
  | ins (s : Song)
  | del (s : Song)
  deriving DecidableEq

/-- Run a sequence of inserts and deletes from the state of a freshly
constructed RedBlackTree, whose root is the sentinel. -/
def rbRun (ops : List RBOp) : RBTree :=
  ops.foldl
    (fun t op =>
      match op with
      | RBOp.ins s => rbInsert t s
      | RBOp.del s => (rbDelete t s).2)
    RBTree.nil

deriving instance DecidableEq for Except

/-- Sorted-view order as a proposition: ascending by Song.__le__. -/
def SLe (a b : Song) : Prop := songLe a b = true

/-- Comparator equality as a proposition. -/
def SEqv (a b : Song) : Prop := songEq a b = true

/-- All songs of a list carry the same active key, the situation every
program path creates before comparing songs. -/
def SameKey (l : List Song) (k : SongKey) : Prop := ∀ s ∈ l, s.key = k

/-- No two songs of the list are equal under the comparator. -/
def DistinctKeys (l : List Song) : Prop := l.Pairwise (fun a b => songEq a b = false)

/-- Insert a list of songs, in order, into an empty UnbalancedTree. -/
def bstBuild (l : List Song) : BTree := l.foldl BTree.insertRec BTree.nil

/-- Insert a list of songs, in order, into a fresh RedBlackTree. -/
def rbBuild (l : List Song) : RBTree := l.foldl rbInsert RBTree.nil

/-- Insert a list of songs, in order, into an empty AVLTree. -/
def avlBuild (l : List Song) : AVLT := l.foldl avlInsert AVLT.nil

/-- Concrete test data: song titles of the scenario in the spec. -/
def titleA : PyStr := [('A')]

/-- Concrete test data. -/
def titleB : PyStr := [('B')]

/-- Concrete test data. -/
def titleC : PyStr := [('C')]

/-- Concrete test data: a song with the given title and playtime and empty
remaining fields, compared by title as every song the program builds. -/
def mkSong (t : PyStr) (pt : Nat) : Song := Song.mk t [] [] [] pt SongKey.title

/-- The concrete scenario of the spec: add ("B", 180 s), ("A", 200 s) and
("C", 90 s) to a fresh playlist with title as comparator. -/
def scenarioPlaylist : Playlist :=
  addSong
    (addSong (addSong (emptyPlaylist [('P')]) titleB [] [] [] 180) titleA [] [] [] 200)
    titleC [] [] [] 90

/-- Probe song carrying only the title A. -/
def probeA : Song := mkSong titleA 0

/-- A concrete sorted list of three songs, titles A, B, C. -/
def c5songs : List Song := [mkSong titleA 200, mkSong titleB 180, mkSong titleC 90]

/-- Two songs with equal titles and different artists: equal under the title
comparator, distinguishable as entities. -/
def cexX : Song := Song.mk [('T')] [('x')] [] [] 0 SongKey.title

/-- See cexX. -/
def cexY : Song := Song.mk [('T')] [('y')] [] [] 0 SongKey.title

/-- Concrete two-song playlist for witnesses. -/
def wPlaylist : Playlist :=
  addSong (addSong (emptyPlaylist [('W')]) titleB [] [] [] 3) titleA [] [] [] 4

/-- Concrete AVL tree holding songs titled A (at the root) and B (its right
child), built by the embedded inserts. -/
def c3tree : AVLTree :=
  avlTreeInsert (avlTreeInsert (AVLTree.mk AVLT.nil 0) (mkSong titleA 1)) (mkSong titleB 2)

/-- Shape of a field value: string or number. Comparisons on two values of
one shape follow the order of that shape; songs sharing an active key always
select values of one shape. -/
def fvShape : FieldVal → Bool
  | FieldVal.ofStr _ => true
  | FieldVal.ofNat _ => false

/-- Forget colors: the underlying binary tree of a red-black tree. -/
def RBTree.toB : RBTree → BTree
  | RBTree.nil => BTree.nil
  | RBTree.node _ l s r => BTree.node l.toB s r.toB

/-- Forget cached heights: the underlying binary tree of an AVL tree. -/
def AVLT.toB : AVLT → BTree
  | AVLT.nil => BTree.nil
  | AVLT.node l s r _ => BTree.node l.toB s r.toB

/-- Replace the descent position of song s by the subtree x: the functional
reading of the BST placement loop of RedBlackTree.insert (src lines
197-214). -/
def rbInsertAt : RBTree → Song → RBTree → RBTree
  | RBTree.nil, _, x => x
  | RBTree.node c l y r, s, x =>
      if songLt s y then RBTree.node c (rbInsertAt l s x) y r
      else RBTree.node c l y (rbInsertAt r s x)

/-- Replace the descent position of song s by the subtree x: the functional
reading of the BST placement loop of AVLTree.insert (src lines 496-516). -/
def avlInsertAt : AVLT → Song → AVLT → AVLT
  | AVLT.nil, _, x => x
  | AVLT.node l y r h, s, x =>
      if songLt s y then AVLT.node (avlInsertAt l s x) y r h
      else AVLT.node l y (avlInsertAt r s x) h

/-- Plug a focused AVL subtree back through its whole parent chain. -/
def avlFill : AVLT → List AVLFrame → AVLT
  | t, [] => t
  | t, f :: rest => avlFill (avlFillOne f t) rest

/-- The first m slots of the list are sorted ascending. -/
def PrefSortedD (l : List Song) (m : Nat) : Prop :=
  ∀ p q : Nat, p < q → q < m → SLe (l.getD p dSong) (l.getD q dSong)

/-- The slots from lo to hi of the list are sorted ascending. -/
def SortedSegD (l : List Song) (lo hi : Int) : Prop :=
  ∀ p q : Nat, lo ≤ (p : Int) → p < q → (q : Int) ≤ hi →
    SLe (l.getD p dSong) (l.getD q dSong)

/-- The conjunction of the three red-black invariants of the claim, as the
running induction hypothesis. -/
def IsRB (t : RBTree) : Prop :=
  noRedRedB t = true ∧ (∃ n, bhOpt t = some n) ∧ t.colorOf = RBColor.black

/-- Validity of a parent chain around a hole of black-height n: every
sibling is internally valid with black-height matching the hole side, a red
frame has a black sibling and a black parent frame, and the chain continues
validly above with the frame color accounted. -/
def VC : RBCtx → Nat → Prop
  | [], _ => True
  | f :: rest, n =>
      noRedRedB f.sib = true ∧ bhOpt f.sib = some n ∧
      (f.color = RBColor.red →
        f.sib.colorOf = RBColor.black ∧ ctxHeadColor rest = RBColor.black) ∧
      VC rest (n + (if f.color = RBColor.black then 1 else 0))

/-- Black height of the whole tree obtained by filling a hole of
black-height n through the chain. -/
def ctxBH : RBCtx → Nat → Nat
  | [], n => n
  | f :: rest, n => ctxBH rest (n + (if f.color = RBColor.black then 1 else 0))

/-- The outermost frame of a chain, which becomes the root on filling, is
black; trivially true for the empty chain. -/
def LastB : RBCtx → Prop
  | [] => True
  | [f] => f.color = RBColor.black
  | _ :: g :: rest => LastB (g :: rest)

instance : DecidableRel SLe := fun a b => by unfold SLe; infer_instance

instance : DecidableRel SEqv := fun a b => by unfold SEqv; infer_instance

/-!
Theorems. Claim theorems are named after the claim ids of the specification
review; the remaining theorems are supporting lemmas.
-/

/-- C10: every Song comparison operator compares only the field value selected
by each operand's own key attribute (operators are invariant under changing
any other field), and under the default title key two songs compare equal
exactly when their titles coincide, regardless of artist, album, genre and
playtime; this is what lets a probe song carrying only a title match a full
entity. -/
theorem C10_song_comparisons_use_only_key_field :
    (∀ a b a' b' : Song, a.getKeyVal = a'.getKeyVal → b.getKeyVal = b'.getKeyVal →
      songLt a b = songLt a' b' ∧ songLe a b = songLe a' b' ∧ songGt a b = songGt a' b' ∧
        songGe a b = songGe a' b' ∧ songEq a b = songEq a' b') ∧
    (∀ a b : Song, a.key = SongKey.title → b.key = SongKey.title →
      (songEq a b = true ↔ a.title = b.title)) := by
  constructor
  · intro a b a' b' ha hb
    simp [songLt, songLe, songGt, songGe, songEq, ha, hb]
  · intro a b ha hb
    simp [songEq, Song.getKeyVal, ha, hb, fvEq]

/-- Witness for C10 at concrete songs: two songs with equal titles but
different artists and playtimes compare equal, and comparisons are unchanged
when the non-key fields change. -/
theorem C10_witness :
    songLt cexX (mkSong titleA 7) = songLt cexY (mkSong titleA 9) ∧
      songEq cexX cexY = true := by
  constructor
  · exact (C10_song_comparisons_use_only_key_field.1 cexX (mkSong titleA 7) cexY
      (mkSong titleA 9) rfl rfl).1
  · exact (C10_song_comparisons_use_only_key_field.2 cexX cexY rfl rfl).mpr rfl

/-- C9: shuffle replaces the insertion-order view by a permutation of itself
(np.random.permutation returns a permutation of its input, passed here as the
external random draw) and leaves the sorted view, the three indices, the
aggregate duration and the name untouched. -/
theorem C9_shuffle_permutes_only_unsorted_view :
    ∀ (p : Playlist) (shuffled : List Song), shuffled.Perm p.songs_not_sorted →
      (shufflePlaylist p shuffled).songs_not_sorted.Perm p.songs_not_sorted ∧
      (shufflePlaylist p shuffled).songs = p.songs ∧
      (shufflePlaylist p shuffled).bst = p.bst ∧
      (shufflePlaylist p shuffled).rbt = p.rbt ∧
      (shufflePlaylist p shuffled).avl = p.avl ∧
      (shufflePlaylist p shuffled).total_time = p.total_time ∧
      (shufflePlaylist p shuffled).name = p.name :=
  fun _ _ h => ⟨h, rfl, rfl, rfl, rfl, rfl, rfl⟩

/-- Witness for C9: shuffling a concrete two-song playlist with the reversed
order. -/
theorem C9_witness :
    (shufflePlaylist wPlaylist wPlaylist.songs_not_sorted.reverse).songs_not_sorted.Perm
        wPlaylist.songs_not_sorted ∧
      (shufflePlaylist wPlaylist wPlaylist.songs_not_sorted.reverse).songs = wPlaylist.songs ∧
      (shufflePlaylist wPlaylist wPlaylist.songs_not_sorted.reverse).bst = wPlaylist.bst ∧
      (shufflePlaylist wPlaylist wPlaylist.songs_not_sorted.reverse).rbt = wPlaylist.rbt ∧
      (shufflePlaylist wPlaylist wPlaylist.songs_not_sorted.reverse).avl = wPlaylist.avl ∧
      (shufflePlaylist wPlaylist wPlaylist.songs_not_sorted.reverse).total_time =
        wPlaylist.total_time ∧
      (shufflePlaylist wPlaylist wPlaylist.songs_not_sorted.reverse).name = wPlaylist.name :=
  C9_shuffle_permutes_only_unsorted_view wPlaylist wPlaylist.songs_not_sorted.reverse (by decide)

/-- C1: the adds of the spec scenario produce sorted view [A, B, C] and
aggregate duration 470, but deleting the present song B does not decrement
the duration to 290 and update the views: src line 769 indexes the songs list
with the located Song object, so delete_song raises TypeError on every
present song, before any state is modified. -/
theorem C1_delete_song_crashes_on_present_song :
    scenarioPlaylist.songs.map Song.title = [titleA, titleB, titleC] ∧
      scenarioPlaylist.total_time = 470 ∧
      deleteSong scenarioPlaylist titleB = Except.error PyErr.typeError := by decide

/-- C8: deleting an absent entity changes nothing: the collection-level
delete returns the playlist unchanged with the not-found report; the
red-black delete returns the tree unchanged with the not-found report; the
AVL delete raises its value-not-stored exception before touching the tree,
so the tree value is unchanged. -/
theorem C8_absent_delete_signals_notfound_without_mutation :
    (∀ (p : Playlist) (title : PyStr), p.songs.find? (fun s => s.title == title) = none →
      deleteSong p title = Except.ok (p, DelMsg.notFound)) ∧
    (∀ (t : RBTree) (s : Song), t.searchZ s [] = none →
      rbDelete t s = (DelMsg.notFound, t)) ∧
    (∀ (t : AVLTree) (s : Song), avlSearchZ t.root s [] = none →
      avlTreeDelete t s = Except.error PyErr.valueNotStored) := by
  refine ⟨fun p title h => ?_, fun t s h => ?_, fun t s h => ?_⟩
  · simp [deleteSong, h]
  · simp [rbDelete, h]
  · simp [avlTreeDelete, avlDelete, h, Except.map]

/-- Witness for C8 at a concrete playlist and probe title C, absent from it. -/
theorem C8_witness :
    deleteSong wPlaylist titleC = Except.ok (wPlaylist, DelMsg.notFound) ∧
      rbDelete wPlaylist.rbt (mkSong titleC 0) = (DelMsg.notFound, wPlaylist.rbt) ∧
      avlTreeDelete wPlaylist.avl (mkSong titleC 0) = Except.error PyErr.valueNotStored :=
  ⟨C8_absent_delete_signals_notfound_without_mutation.1 wPlaylist titleC (by decide),
    C8_absent_delete_signals_notfound_without_mutation.2.1 wPlaylist.rbt (mkSong titleC 0)
      (by decide),
    C8_absent_delete_signals_notfound_without_mutation.2.2 wPlaylist.avl (mkSong titleC 0)
      (by decide)⟩

/-- C3: deleting a song that has a child from the AVL tree raises
AttributeError at src line 615 (node.song = replacement.value, but AVLNode
has no field value), so the interleaving insert A, insert B, delete A aborts
instead of producing a balanced tree. -/
theorem C3_avl_delete_nonleaf_raises_attribute_error :
    avlTreeDelete c3tree probeA = Except.error PyErr.attributeError := by decide

/-- Supporting lemma for C5: from the window low = 0, high = 0 the binary
search never returns, because the reset line treats high = 0 as unset and
widens the window back to the whole list, reproducing the same call. -/
theorem c5_binary_aux_zero_window :
    ∀ f, binarySearchAux f c5songs probeA 0 0 = none := by
  intro f
  induction f with
  | zero => rfl
  | succ n ih => exact ih

/-- C5: the probe with title A is present at index 0 of the sorted
three-song list, yet binary_search never returns on it: for every recursion
budget the embedded search yields none, the divergence that surfaces as
RecursionError in Python, instead of index 0. -/
theorem C5_binary_search_diverges_on_present_target :
    songEq (c5songs.getD 0 dSong) probeA = true ∧
      ∀ fuel : Nat, binarySearch fuel c5songs probeA = none := by
  refine ⟨by decide, fun fuel => ?_⟩
  cases fuel with
  | zero => rfl
  | succ f => exact c5_binary_aux_zero_window f

/-- C7: on the empty sequence exponential_search evaluates songs[0] and
fibonaccianSearch evaluates songs[n-1] = songs[-1], so both raise IndexError
for every target and any loop budget instead of returning the not-found
signal. -/
theorem C7_empty_sequence_searches_raise_index_error :
    (∀ fuel : Nat, exponentialSearch fuel [] probeA = some (Except.error PyErr.indexError)) ∧
      ∀ fuel : Nat, fibonacciSearch fuel [] probeA = some (Except.error PyErr.indexError) :=
  ⟨fun fuel => by cases fuel <;> rfl, fun fuel => by cases fuel <;> rfl⟩

/-- Counterexample for C6: on the two-song input [cexY, cexX] whose titles
are equal, merge sort returns [cexX, cexY] (its merge takes the right element
on ties) while bubble sort returns [cexY, cexX] unchanged, so the eight
strategies do not produce the same output sequence; moreover [cexY, cexX] is
already sorted and merge sort still reorders it, refuting idempotence on the
value sequence. -/
theorem C6_counterexample_sorts_disagree_on_ties :
    mergeSort [cexY, cexX] ≠ bubbleSort [cexY, cexX] ∧
      List.Sorted SLe [cexY, cexX] ∧
      mergeSort [cexY, cexX] ≠ [cexY, cexX] := by
  refine ⟨?_, by decide, ?_⟩
  · simp [mergeSort, mergeLists, bubbleSort, bubbleLoop, bubblePass, cexX, cexY, songLt,
      songGt, Song.getKeyVal, fvLt, pyStrLt, swapL, dSong]
  · simp [mergeSort, mergeLists, cexX, cexY, songLt, Song.getKeyVal, fvLt, pyStrLt]

/-- Supporting lemma: the embedded Python string order is irreflexive. -/
theorem pyStrLt_irrefl : ∀ a, pyStrLt a a = false := by
  intro a
  induction a with
  | nil => rfl
  | cons c cs ih => simp [pyStrLt, ih, lt_irrefl]

/-- Supporting lemma: the embedded Python string order is asymmetric. -/
theorem pyStrLt_asymm : ∀ a b, pyStrLt a b = true → pyStrLt b a = false := by
  intro a
  induction a with
  | nil =>
      intro b h
      cases b with
      | nil => simp [pyStrLt] at h
      | cons d ds => rfl
  | cons c cs ih =>
      intro b h
      cases b with
      | nil => simp [pyStrLt] at h
      | cons d ds =>
          rcases lt_trichotomy c d with h1 | h1 | h1
          · simp [pyStrLt, h1, asymm h1]
          · subst h1
            simp [pyStrLt, lt_irrefl] at h ⊢
            exact ih ds h
          · simp [pyStrLt, h1, asymm h1] at h

/-- Supporting lemma: the embedded Python string order is transitive. -/
theorem pyStrLt_trans : ∀ a b c, pyStrLt a b = true → pyStrLt b c = true → pyStrLt a c = true := by
  intro a
  induction a with
  | nil =>
      intro b c hab hbc
      cases b with
      | nil => simp [pyStrLt] at hab
      | cons d ds =>
          cases c with
          | nil => simp [pyStrLt] at hbc
          | cons e es => rfl
  | cons x xs ih =>
      intro b c hab hbc
      cases b with
      | nil => simp [pyStrLt] at hab
      | cons d ds =>
          cases c with
          | nil => simp [pyStrLt] at hbc
          | cons e es =>
              rcases lt_trichotomy x d with h1 | h1 | h1
              · rcases lt_trichotomy d e with h2 | h2 | h2
                · simp [pyStrLt, lt_trans h1 h2]
                · subst h2; simp [pyStrLt, h1]
                · rcases lt_trichotomy x e with h3 | h3 | h3
                  · simp [pyStrLt, h3]
                  · subst h3
                    simp [pyStrLt, h2, asymm h2] at hbc
                  · simp [pyStrLt, h2, asymm h2] at hbc
              · subst h1
                rcases lt_trichotomy x e with h3 | h3 | h3
                · simp [pyStrLt, h3]
                · subst h3
                  simp [pyStrLt, lt_irrefl] at hab hbc ⊢
                  exact ih ds es hab hbc
                · simp [pyStrLt, h3, asymm h3] at hbc
              · simp [pyStrLt, h1, asymm h1] at hab

/-- Supporting lemma: the embedded Python string order is trichotomous. -/
theorem pyStrLt_trichotomy : ∀ a b, pyStrLt a b = true ∨ pyStrLt b a = true ∨ a = b := by
  intro a
  induction a with
  | nil =>
      intro b
      cases b with
      | nil => right; right; rfl
      | cons d ds => left; rfl
  | cons c cs ih =>
      intro b
      cases b with
      | nil => right; left; rfl
      | cons d ds =>
          rcases lt_trichotomy c d with h1 | h1 | h1
          · left; simp [pyStrLt, h1]
          · subst h1
            rcases ih ds with h2 | h2 | h2
            · left; simp [pyStrLt, lt_irrefl, h2]
            · right; left; simp [pyStrLt, lt_irrefl, h2]
            · right; right; rw [h2]
          · right; left; simp [pyStrLt, h1]

/-- Supporting lemma: Python string a <= b is the negation of b < a. -/
theorem pyStrLe_eq_not_lt : ∀ a b, pyStrLe a b = !pyStrLt b a := by
  intro a
  induction a with
  | nil =>
      intro b
      cases b with
      | nil => rfl
      | cons d ds => rfl
  | cons c cs ih =>
      intro b
      cases b with
      | nil => rfl
      | cons d ds =>
          rcases lt_trichotomy c d with h1 | h1 | h1
          · simp [pyStrLe, pyStrLt, h1, asymm h1]
          · subst h1; simp [pyStrLe, pyStrLt, lt_irrefl, ih]
          · simp [pyStrLe, pyStrLt, h1, asymm h1]

/-- Supporting lemma: songs with equal keys select field values of one
shape. -/
theorem shape_of_key_eq (a b : Song) (h : a.key = b.key) :
    fvShape a.getKeyVal = fvShape b.getKeyVal := by
  cases hk : a.key <;> rw [hk] at h <;>
    simp [Song.getKeyVal, fvShape, hk, ← h]

/-- Supporting lemma: the field value order is asymmetric on one shape. -/
theorem fvLt_asymm (u v : FieldVal) (h : fvShape u = fvShape v) :
    fvLt u v = true → fvLt v u = false := by
  intro hlt
  cases u <;> cases v <;> simp [fvShape] at h <;> simp [fvLt] at hlt ⊢
  · exact pyStrLt_asymm _ _ hlt
  · omega

/-- Supporting lemma: the field value order is transitive on one shape. -/
theorem fvLt_trans (u v w : FieldVal) (h1 : fvShape u = fvShape v)
    (h2 : fvShape v = fvShape w) : fvLt u v = true → fvLt v w = true → fvLt u w = true := by
  intro huv hvw
  cases u <;> cases v <;> cases w <;> simp [fvShape] at h1 h2 <;>
    simp [fvLt] at huv hvw ⊢
  · exact pyStrLt_trans _ _ _ huv hvw
  · omega

/-- Supporting lemma: on one shape, u <= v is the negation of v < u. -/
theorem fvLe_eq_not_lt (u v : FieldVal) (h : fvShape u = fvShape v) :
    fvLe u v = !fvLt v u := by
  cases u <;> cases v <;> simp [fvShape] at h <;> simp [fvLt, fvLe]
  · exact pyStrLe_eq_not_lt _ _
  · rw [← decide_not, decide_eq_decide]
    omega

/-- Supporting lemma: on one shape two field values are ordered or equal. -/
theorem fvLt_trichotomy (u v : FieldVal) (h : fvShape u = fvShape v) :
    fvLt u v = true ∨ fvLt v u = true ∨ fvEq u v = true := by
  cases u <;> cases v <;> simp [fvShape] at h <;> simp [fvLt, fvEq]
  · rcases pyStrLt_trichotomy _ _ with h1 | h1 | h1
    · exact Or.inl h1
    · exact Or.inr (Or.inl h1)
    · exact Or.inr (Or.inr (by simp [h1]))
  · omega

/-- Supporting lemma: comparator equality means equal selected values. -/
theorem songEq_imp_keyVal_eq (a b : Song) : songEq a b = true → a.getKeyVal = b.getKeyVal := by
  unfold songEq
  cases a.getKeyVal <;> cases b.getKeyVal <;> simp [fvEq]

/-- Supporting lemma: the song order is asymmetric on one shape. -/
theorem songLt_asymm (a b : Song) (h : fvShape a.getKeyVal = fvShape b.getKeyVal) :
    songLt a b = true → songLt b a = false :=
  fvLt_asymm a.getKeyVal b.getKeyVal h

/-- Supporting lemma: the song order is transitive on one shape. -/
theorem songLt_trans (a b c : Song) (h1 : fvShape a.getKeyVal = fvShape b.getKeyVal)
    (h2 : fvShape b.getKeyVal = fvShape c.getKeyVal) :
    songLt a b = true → songLt b c = true → songLt a c = true :=
  fvLt_trans a.getKeyVal b.getKeyVal c.getKeyVal h1 h2

/-- Supporting lemma: on one shape, a <= b is the negation of b < a. -/
theorem songLe_eq_not_lt (a b : Song) (h : fvShape a.getKeyVal = fvShape b.getKeyVal) :
    songLe a b = !songLt b a :=
  fvLe_eq_not_lt a.getKeyVal b.getKeyVal h

/-- Supporting lemma: on one shape two songs are ordered or comparator
equal. -/
theorem songLt_trichotomy (a b : Song) (h : fvShape a.getKeyVal = fvShape b.getKeyVal) :
    songLt a b = true ∨ songLt b a = true ∨ songEq a b = true :=
  fvLt_trichotomy a.getKeyVal b.getKeyVal h

/-- Supporting lemma: strict below implies at most on one shape. -/
theorem songLt_imp_le (a b : Song) (h : fvShape a.getKeyVal = fvShape b.getKeyVal) :
    songLt a b = true → songLe a b = true := by
  intro hlt
  rw [songLe_eq_not_lt a b h, songLt_asymm a b h hlt]
  rfl

/-- Supporting lemma: not strictly below implies at least on one shape. -/
theorem songNotLt_imp_le (a b : Song) (h : fvShape a.getKeyVal = fvShape b.getKeyVal) :
    songLt a b = false → songLe b a = true := by
  intro hlt
  rw [songLe_eq_not_lt b a h.symm, hlt]
  rfl

/-- Supporting lemma: the song comparator is total as at most on one shape. -/
theorem songLe_total (a b : Song) (h : fvShape a.getKeyVal = fvShape b.getKeyVal) :
    songLe a b = true ∨ songLe b a = true := by
  cases hlt : songLt b a
  · exact Or.inl (by rw [songLe_eq_not_lt a b h, hlt]; rfl)
  · exact Or.inr (songLt_imp_le b a h.symm hlt)

/-- Supporting lemma: at most is transitive on one shape. -/
theorem songLe_trans (a b c : Song) (h1 : fvShape a.getKeyVal = fvShape b.getKeyVal)
    (h2 : fvShape b.getKeyVal = fvShape c.getKeyVal) :
    songLe a b = true → songLe b c = true → songLe a c = true := by
  intro hab hbc
  rw [songLe_eq_not_lt a b h1] at hab
  rw [songLe_eq_not_lt b c h2] at hbc
  rw [songLe_eq_not_lt a c (h1.trans h2)]
  simp only [Bool.not_eq_true'] at hab hbc ⊢
  cases hca : songLt c a
  · rfl
  · exfalso
    rcases songLt_trichotomy c b h2.symm with h3 | h3 | h3
    · rw [h3] at hbc; cases hbc
    · have h4 := songLt_trans b c a h2 (h1.trans h2).symm h3 hca
      rw [h4] at hab; cases hab
    · have hv := songEq_imp_keyVal_eq c b h3
      have h5 : songLt c a = songLt b a := by unfold songLt; rw [hv]
      rw [hca] at h5
      rw [← h5] at hab
      cases hab

/-- Supporting lemma: inserting adds exactly the new song to the in-order
traversal. -/
theorem bst_insert_perm : ∀ (t : BTree) (s : Song),
    (t.insertRec s).inorder.Perm (s :: t.inorder) := by
  intro t s
  induction t with
  | nil => simp [BTree.insertRec, BTree.inorder]
  | node l x r ihl ihr =>
      by_cases hlt : songLt s x = true
      · simp only [BTree.insertRec, hlt, if_true, BTree.inorder]
        exact ihl.append_right _
      · simp only [BTree.insertRec, hlt, if_false, BTree.inorder]
        have h1 := (ihr.cons x).append_left l.inorder
        have h2 : (l.inorder ++ x :: s :: r.inorder).Perm
            (s :: (l.inorder ++ x :: r.inorder)) := by
          have h3 := (List.Perm.swap s x r.inorder).append_left l.inorder
          have h4 : (l.inorder ++ s :: x :: r.inorder).Perm
              (s :: (l.inorder ++ x :: r.inorder)) := List.perm_middle
          exact h3.trans h4
        exact h1.trans h2
  termination_by t => t

/-- Supporting lemma: inserting a song with the common key keeps all keys
common. -/
theorem bst_insert_keys (t : BTree) (s : Song) (k : SongKey)
    (hkeys : ∀ y ∈ t.inorder, y.key = k) (hks : s.key = k) :
    ∀ y ∈ (t.insertRec s).inorder, y.key = k := by
  intro y hy
  rcases List.mem_cons.mp ((bst_insert_perm t s).mem_iff.mp hy) with h | h
  · rw [h]; exact hks
  · exact hkeys y h

/-- Supporting lemma: under a common key, inserting into a tree with sorted
in-order traversal keeps the traversal sorted; the descent places the new
song left of strictly larger songs and right of everything else. -/
theorem bst_insert_sorted (s : Song) (k : SongKey) (hks : s.key = k) :
    ∀ (t : BTree), (∀ y ∈ t.inorder, y.key = k) → List.Sorted SLe t.inorder →
      List.Sorted SLe (t.insertRec s).inorder := by
  have shp : ∀ u v : Song, u.key = k → v.key = k →
      fvShape u.getKeyVal = fvShape v.getKeyVal := fun u v hu hv =>
    shape_of_key_eq u v (hu.trans hv.symm)
  intro t
  induction t with
  | nil =>
      intro _ _
      simp [BTree.insertRec, BTree.inorder]
  | node l x r ihl ihr =>
      intro hkeys hsort
      have hkx : x.key = k := hkeys x (by simp [BTree.inorder])
      have hkl : ∀ y ∈ l.inorder, y.key = k := fun y hy =>
        hkeys y (by simp [BTree.inorder, hy])
      have hkr : ∀ y ∈ r.inorder, y.key = k := fun y hy =>
        hkeys y (by simp [BTree.inorder, hy])
      simp only [BTree.inorder, List.Sorted, List.pairwise_append,
        List.pairwise_cons] at hsort
      obtain ⟨hl, ⟨hxb, hr⟩, hcross⟩ := hsort
      by_cases hlt : songLt s x = true
      · simp only [BTree.insertRec, hlt, if_true, BTree.inorder]
        refine List.pairwise_append.mpr ⟨ihl hkl hl, List.pairwise_cons.mpr ⟨hxb, hr⟩, ?_⟩
        intro a ha b hb
        have ha' : a = s ∨ a ∈ l.inorder := by
          have := (bst_insert_perm l s).mem_iff.mp ha
          simpa using this
        have hble : b = x ∨ b ∈ r.inorder := by simpa using hb
        rcases ha' with rfl | ha'
        · rcases hble with rfl | hbr
          · exact songLt_imp_le a b (shp a b hks hkx) hlt
          · exact songLe_trans a x b (shp a x hks hkx) (shp x b hkx (hkr b hbr))
              (songLt_imp_le a x (shp a x hks hkx) hlt) (hxb b hbr)
        · exact hcross a ha' b hb
      · have hlt' : songLt s x = false := by
          cases h : songLt s x
          · rfl
          · exact absurd h hlt
        simp only [BTree.insertRec, hlt, if_false, BTree.inorder]
        refine List.pairwise_append.mpr ⟨hl, ?_, ?_⟩
        · refine List.pairwise_cons.mpr ⟨?_, ihr hkr hr⟩
          intro b hb
          have hb' : b = s ∨ b ∈ r.inorder := by
            have := (bst_insert_perm r s).mem_iff.mp hb
            simpa using this
          rcases hb' with rfl | hb'
          · exact songNotLt_imp_le b x (shp b x hks hkx) hlt'
          · exact hxb b hb'
        · intro a ha b hb
          have hb' : b = x ∨ b ∈ (r.insertRec s).inorder := by simpa using hb
          have hax : SLe a x := hcross a ha x (by simp)
          rcases hb' with rfl | hb'
          · exact hax
          · have hb'' : b = s ∨ b ∈ r.inorder := by
              have := (bst_insert_perm r s).mem_iff.mp hb'
              simpa using this
            rcases hb'' with rfl | hb''
            · exact songLe_trans a x b (shp a x (hkl a ha) hkx) (shp x b hkx hks) hax
                (songNotLt_imp_le b x (shp b x hks hkx) hlt')
            · exact hcross a ha b (by simp [hb''])

/-- Supporting lemma: recoloring keeps the traversal. -/
theorem rb_paintBlack_inorder (t : RBTree) : t.paintBlack.inorder = t.inorder := by
  cases t <;> rfl

/-- Supporting lemma: recoloring keeps the traversal. -/
theorem rb_paintRed_inorder (t : RBTree) : t.paintRed.inorder = t.inorder := by
  cases t <;> rfl

/-- Supporting lemma: traversals agree after dropping colors. -/
theorem rb_toB_inorder : ∀ t : RBTree, t.inorder = t.toB.inorder := by
  intro t
  induction t with
  | nil => rfl
  | node c l s r ihl ihr => simp [RBTree.toB, RBTree.inorder, BTree.inorder, ihl, ihr]

/-- Supporting lemma: plugging traversal-equal subtrees gives
traversal-equal trees. -/
theorem rb_fill_inorder_congr : ∀ (ctx : RBCtx) (u v : RBTree), u.inorder = v.inorder →
    (u.fill ctx).inorder = (v.fill ctx).inorder := by
  intro ctx
  induction ctx with
  | nil => intro u v h; exact h
  | cons f rest ih =>
      intro u v h
      simp only [RBTree.fill]
      apply ih
      cases hf : f.dir <;> simp [RBFrame.fillOne, hf, RBTree.inorder, h]

/-- Supporting lemma: the terminal insert restructuring keeps the traversal
of the grandparent subtree. -/
theorem rb_insRestructure_inorder (t : RBTree) (fp fg : RBFrame) :
    (rbInsRestructure t fp fg).inorder = (fg.fillOne (fp.fillOne t)).inorder := by
  cases hg : fg.dir <;> cases hp : fp.dir <;> cases t <;>
    simp [rbInsRestructure, RBFrame.fillOne, hg, hp, RBTree.inorder]

/-- Supporting lemma: fix_insert only rotates and recolors, keeping the
traversal of the whole tree. -/
theorem rb_fixIns_inorder (ctx : RBCtx) (t : RBTree) :
    (rbFixIns t ctx).inorder = (t.fill ctx).inorder := by
  match ctx with
  | [] => exact rb_paintBlack_inorder t
  | [fp] =>
      by_cases hp : fp.color = RBColor.red
      · simp only [rbFixIns, hp, if_true]
        exact rb_paintBlack_inorder _
      · simp only [rbFixIns, hp, if_false]
        exact rb_paintBlack_inorder _
  | fp :: fg :: rrest =>
      by_cases hp : fp.color = RBColor.red
      · by_cases hu : fg.sib.colorOf = RBColor.red
        · simp only [rbFixIns, hp, hu, if_true]
          have ih := rb_fixIns_inorder rrest
            ((RBFrame.mk fg.dir RBColor.red fg.song fg.sib.paintBlack).fillOne
              ((RBFrame.mk fp.dir RBColor.black fp.song fp.sib).fillOne t))
          rw [ih]
          show _ = ((fg.fillOne (fp.fillOne t)).fill rrest).inorder
          apply rb_fill_inorder_congr
          cases hgd : fg.dir <;> cases hpd : fp.dir <;>
            simp [RBFrame.fillOne, hgd, hpd, RBTree.inorder, rb_paintBlack_inorder]
        · simp only [rbFixIns, hp, hu, if_false, if_true]
          rw [rb_paintBlack_inorder]
          show _ = ((fg.fillOne (fp.fillOne t)).fill rrest).inorder
          exact rb_fill_inorder_congr rrest _ _ (rb_insRestructure_inorder t fp fg)
      · simp only [rbFixIns, hp, if_false]
        exact rb_paintBlack_inorder _
  termination_by ctx.length

/-- Supporting lemma: plugging a subtree into the context recorded by the
insert descent is inserting it at the descent position. -/
theorem rb_insPoint_fill : ∀ (t : RBTree) (s : Song) (ctx : RBCtx) (x : RBTree),
    RBTree.fill x (t.insPoint s ctx) = RBTree.fill (rbInsertAt t s x) ctx := by
  intro t
  induction t with
  | nil => intro s ctx x; rfl
  | node c l y r ihl ihr =>
      intro s ctx x
      cases hlt : songLt s y
      · simp only [RBTree.insPoint, rbInsertAt, hlt, Bool.false_eq_true, if_false]
        rw [ihr]
        rfl
      · simp only [RBTree.insPoint, rbInsertAt, hlt, if_true]
        rw [ihl]
        rfl

/-- Supporting lemma: inserting the red leaf at the descent position is, at
the underlying binary tree, the plain BST insert. -/
theorem rb_insertAt_toB : ∀ (t : RBTree) (s : Song),
    (rbInsertAt t s (RBTree.node RBColor.red RBTree.nil s RBTree.nil)).toB =
      t.toB.insertRec s := by
  intro t
  induction t with
  | nil => intro s; rfl
  | node c l y r ihl ihr =>
      intro s
      cases hlt : songLt s y
      · simp [rbInsertAt, RBTree.toB, BTree.insertRec, hlt, ihr]
      · simp [rbInsertAt, RBTree.toB, BTree.insertRec, hlt, ihl]

/-- Supporting lemma: a red-black insert has the traversal of the plain BST
insert on the underlying binary tree. -/
theorem rb_insert_inorder (t : RBTree) (s : Song) :
    (rbInsert t s).inorder = (t.toB.insertRec s).inorder := by
  unfold rbInsert
  rw [rb_fixIns_inorder]
  rw [rb_insPoint_fill t s [] (RBTree.node RBColor.red RBTree.nil s RBTree.nil)]
  show (rbInsertAt t s (RBTree.node RBColor.red RBTree.nil s RBTree.nil)).inorder = _
  rw [rb_toB_inorder, rb_insertAt_toB]

/-- Supporting lemma: rotations keep the traversal. -/
theorem avl_rotL_inorder (t : AVLT) : (avlRotL t).inorder = t.inorder := by
  match t with
  | AVLT.nil => rfl
  | AVLT.node al as AVLT.nil h => rfl
  | AVLT.node al as (AVLT.node bl bs br hb) h =>
      simp [avlRotL, avlMk, AVLT.inorder]

/-- Supporting lemma: rotations keep the traversal. -/
theorem avl_rotR_inorder (t : AVLT) : (avlRotR t).inorder = t.inorder := by
  match t with
  | AVLT.nil => rfl
  | AVLT.node AVLT.nil as ar h => rfl
  | AVLT.node (AVLT.node bl bs br hb) as ar h =>
      simp [avlRotR, avlMk, AVLT.inorder]

/-- Supporting lemma: rebalancing keeps the traversal. -/
theorem avl_rebalance_inorder (t : AVLT) : (avlRebalance t).inorder = t.inorder := by
  cases t with
  | nil => rfl
  | node l s r h =>
      simp only [avlRebalance]
      by_cases h1 : ((avlHeightOf l : Int) - (avlHeightOf r : Int)).natAbs ≤ 1
      · simp [h1]
      · by_cases h2 : (avlHeightOf l : Int) - (avlHeightOf r : Int) = 2
        · simp [h1, h2, avl_rotR_inorder, avl_rotL_inorder, AVLT.inorder,
            apply_ite AVLT.inorder]
        · simp [h1, h2, avl_rotL_inorder, avl_rotR_inorder, AVLT.inorder,
            apply_ite AVLT.inorder]

/-- Supporting lemma: the loop body of restore_balance keeps the
traversal. -/
theorem avl_step_inorder (t : AVLT) : (avlStep t).inorder = t.inorder := by
  cases t <;> simp [avlStep, avlMk, AVLT.inorder, avl_rebalance_inorder]

/-- Supporting lemma: plugging traversal-equal AVL subtrees gives
traversal-equal trees. -/
theorem avl_fill_inorder_congr : ∀ (ctx : List AVLFrame) (u v : AVLT),
    u.inorder = v.inorder → (avlFill u ctx).inorder = (avlFill v ctx).inorder := by
  intro ctx
  induction ctx with
  | nil => intro u v h; exact h
  | cons f rest ih =>
      intro u v h
      simp only [avlFill]
      apply ih
      cases hf : f.dir <;> simp [avlFillOne, hf, AVLT.inorder, h]

/-- Supporting lemma: restore_balance keeps the traversal of the whole
tree. -/
theorem avl_restore_inorder : ∀ (ctx : List AVLFrame) (t : AVLT),
    (avlRestore t ctx).inorder = (avlFill t ctx).inorder := by
  intro ctx
  induction ctx with
  | nil =>
      intro t
      simp [avlRestore, avlFill, avl_rebalance_inorder, avl_step_inorder]
  | cons f rest ih =>
      intro t
      simp only [avlRestore, avlFill]
      rw [ih]
      apply avl_fill_inorder_congr
      cases hf : f.dir <;> simp [avlFillOne, hf, AVLT.inorder, avl_step_inorder]

/-- Supporting lemma: plugging a subtree into the context recorded by the
AVL insert descent traverses like inserting it at the descent position. -/
theorem avl_insPoint_fill_inorder : ∀ (t : AVLT) (s : Song) (ctx : List AVLFrame) (x : AVLT),
    (avlFill x (avlInsPoint t s ctx)).inorder = (avlFill (avlInsertAt t s x) ctx).inorder := by
  intro t
  induction t with
  | nil => intro s ctx x; rfl
  | node l y r h ihl ihr =>
      intro s ctx x
      cases hlt : songLt s y
      · simp only [avlInsPoint, avlInsertAt, hlt, Bool.false_eq_true, if_false]
        rw [ihr]
        simp only [avlFill]
        apply avl_fill_inorder_congr
        simp [avlFillOne, AVLT.inorder]
      · simp only [avlInsPoint, avlInsertAt, hlt, if_true]
        rw [ihl]
        simp only [avlFill]
        apply avl_fill_inorder_congr
        simp [avlFillOne, AVLT.inorder]

/-- Supporting lemma: traversals agree after dropping cached heights. -/
theorem avl_toB_inorder : ∀ t : AVLT, t.inorder = t.toB.inorder := by
  intro t
  induction t with
  | nil => rfl
  | node l s r h ihl ihr => simp [AVLT.toB, AVLT.inorder, BTree.inorder, ihl, ihr]

/-- Supporting lemma: inserting the height-one leaf at the descent position
is, at the underlying binary tree, the plain BST insert. -/
theorem avl_insertAt_toB : ∀ (t : AVLT) (s : Song),
    (avlInsertAt t s (AVLT.node AVLT.nil s AVLT.nil 1)).toB = t.toB.insertRec s := by
  intro t
  induction t with
  | nil => intro s; rfl
  | node l y r h ihl ihr =>
      intro s
      cases hlt : songLt s y
      · simp [avlInsertAt, AVLT.toB, BTree.insertRec, hlt, ihr]
      · simp [avlInsertAt, AVLT.toB, BTree.insertRec, hlt, ihl]

/-- Supporting lemma: an AVL insert has the traversal of the plain BST
insert on the underlying binary tree. -/
theorem avl_insert_inorder (t : AVLT) (s : Song) :
    (avlInsert t s).inorder = (t.toB.insertRec s).inorder := by
  unfold avlInsert
  rw [avl_restore_inorder]
  rw [show avlFill (AVLT.node AVLT.nil s AVLT.nil 1) (avlInsPoint t s []) =
    avlFill (AVLT.node AVLT.nil s AVLT.nil 1) (avlInsPoint t s []) from rfl]
  rw [avl_insPoint_fill_inorder t s [] (AVLT.node AVLT.nil s AVLT.nil 1)]
  show (avlInsertAt t s (AVLT.node AVLT.nil s AVLT.nil 1)).inorder = _
  rw [avl_toB_inorder, avl_insertAt_toB]

/-- Supporting lemma: folding BST inserts over a common-key list keeps the
traversal a sorted permutation. -/
theorem bst_fold_props (k : SongKey) : ∀ (l : List Song) (t : BTree),
    (∀ s ∈ l, s.key = k) → (∀ y ∈ t.inorder, y.key = k) → List.Sorted SLe t.inorder →
    (l.foldl BTree.insertRec t).inorder.Perm (t.inorder ++ l) ∧
      List.Sorted SLe (l.foldl BTree.insertRec t).inorder ∧
      ∀ y ∈ (l.foldl BTree.insertRec t).inorder, y.key = k := by
  intro l
  induction l with
  | nil => intro t h1 h2 h3; exact ⟨by simp, h3, h2⟩
  | cons s ls ih =>
      intro t hl ht hsort
      have hks : s.key = k := hl s (by simp)
      have hls : ∀ x ∈ ls, x.key = k := fun x hx => hl x (by simp [hx])
      have hkeys' := bst_insert_keys t s k ht hks
      have hsort' := bst_insert_sorted s k hks t ht hsort
      obtain ⟨hp, hs, hk⟩ := ih (t.insertRec s) hls hkeys' hsort'
      refine ⟨?_, hs, hk⟩
      have h2 := (bst_insert_perm t s).append_right ls
      have h3 : ((s :: t.inorder) ++ ls).Perm (t.inorder ++ s :: ls) :=
        (@List.perm_middle _ s t.inorder ls).symm
      exact hp.trans (h2.trans h3)

/-- Supporting lemma: folding red-black inserts over a common-key list keeps
the traversal a sorted permutation. -/
theorem rb_fold_props (k : SongKey) : ∀ (l : List Song) (t : RBTree),
    (∀ s ∈ l, s.key = k) → (∀ y ∈ t.inorder, y.key = k) → List.Sorted SLe t.inorder →
    (l.foldl rbInsert t).inorder.Perm (t.inorder ++ l) ∧
      List.Sorted SLe (l.foldl rbInsert t).inorder ∧
      ∀ y ∈ (l.foldl rbInsert t).inorder, y.key = k := by
  intro l
  induction l with
  | nil => intro t h1 h2 h3; exact ⟨by simp, h3, h2⟩
  | cons s ls ih =>
      intro t hl ht hsort
      have hks : s.key = k := hl s (by simp)
      have hls : ∀ x ∈ ls, x.key = k := fun x hx => hl x (by simp [hx])
      have htB : ∀ y ∈ t.toB.inorder, y.key = k := by
        intro y hy; exact ht y (by rw [rb_toB_inorder]; exact hy)
      have hsortB : List.Sorted SLe t.toB.inorder := by rw [← rb_toB_inorder]; exact hsort
      have hio := rb_insert_inorder t s
      have hperm1 : (rbInsert t s).inorder.Perm (s :: t.inorder) := by
        rw [hio, rb_toB_inorder t]
        exact bst_insert_perm t.toB s
      have hkeys' : ∀ y ∈ (rbInsert t s).inorder, y.key = k := by
        rw [hio]; exact bst_insert_keys t.toB s k htB hks
      have hsort' : List.Sorted SLe (rbInsert t s).inorder := by
        rw [hio]; exact bst_insert_sorted s k hks t.toB htB hsortB
      obtain ⟨hp, hs, hk⟩ := ih (rbInsert t s) hls hkeys' hsort'
      refine ⟨?_, hs, hk⟩
      have h2 := hperm1.append_right ls
      have h3 : ((s :: t.inorder) ++ ls).Perm (t.inorder ++ s :: ls) :=
        (@List.perm_middle _ s t.inorder ls).symm
      exact hp.trans (h2.trans h3)

/-- Supporting lemma: folding AVL inserts over a common-key list keeps the
traversal a sorted permutation. -/
theorem avl_fold_props (k : SongKey) : ∀ (l : List Song) (t : AVLT),
    (∀ s ∈ l, s.key = k) → (∀ y ∈ t.inorder, y.key = k) → List.Sorted SLe t.inorder →
    (l.foldl avlInsert t).inorder.Perm (t.inorder ++ l) ∧
      List.Sorted SLe (l.foldl avlInsert t).inorder ∧
      ∀ y ∈ (l.foldl avlInsert t).inorder, y.key = k := by
  intro l
  induction l with
  | nil => intro t h1 h2 h3; exact ⟨by simp, h3, h2⟩
  | cons s ls ih =>
      intro t hl ht hsort
      have hks : s.key = k := hl s (by simp)
      have hls : ∀ x ∈ ls, x.key = k := fun x hx => hl x (by simp [hx])
      have htB : ∀ y ∈ t.toB.inorder, y.key = k := by
        intro y hy; exact ht y (by rw [avl_toB_inorder]; exact hy)
      have hsortB : List.Sorted SLe t.toB.inorder := by rw [← avl_toB_inorder]; exact hsort
      have hio := avl_insert_inorder t s
      have hperm1 : (avlInsert t s).inorder.Perm (s :: t.inorder) := by
        rw [hio, avl_toB_inorder t]
        exact bst_insert_perm t.toB s
      have hkeys' : ∀ y ∈ (avlInsert t s).inorder, y.key = k := by
        rw [hio]; exact bst_insert_keys t.toB s k htB hks
      have hsort' : List.Sorted SLe (avlInsert t s).inorder := by
        rw [hio]; exact bst_insert_sorted s k hks t.toB htB hsortB
      obtain ⟨hp, hs, hk⟩ := ih (avlInsert t s) hls hkeys' hsort'
      refine ⟨?_, hs, hk⟩
      have h2 := hperm1.append_right ls
      have h3 : ((s :: t.inorder) ++ ls).Perm (t.inorder ++ s :: ls) :=
        (@List.perm_middle _ s t.inorder ls).symm
      exact hp.trans (h2.trans h3)

/-- C4: for every list of entities sharing an active key, inserted in that
order into the plain BST, the red-black tree and the AVL tree, the in-order
traversal of each tree is a permutation of the inserted entities sorted
ascending by the active comparator. -/
theorem C4_inorder_traversals_are_sorted_multiset :
    ∀ (l : List Song) (k : SongKey), SameKey l k →
      ((bstBuild l).inorder.Perm l ∧ List.Sorted SLe (bstBuild l).inorder) ∧
      ((rbBuild l).inorder.Perm l ∧ List.Sorted SLe (rbBuild l).inorder) ∧
      ((avlBuild l).inorder.Perm l ∧ List.Sorted SLe (avlBuild l).inorder) := by
  intro l k h
  have hb := bst_fold_props k l BTree.nil h (by simp [BTree.inorder]) (by simp [BTree.inorder])
  have hr := rb_fold_props k l RBTree.nil h (by simp [RBTree.inorder]) (by simp [RBTree.inorder])
  have ha := avl_fold_props k l AVLT.nil h (by simp [AVLT.inorder]) (by simp [AVLT.inorder])
  exact ⟨⟨by simpa using hb.1, hb.2.1⟩, ⟨by simpa using hr.1, hr.2.1⟩,
    ⟨by simpa using ha.1, ha.2.1⟩⟩

/-- Witness for C4 at the concrete three-song list titled C, B, A. -/
theorem C4_witness :
    ((bstBuild c5songs.reverse).inorder.Perm c5songs.reverse ∧
        List.Sorted SLe (bstBuild c5songs.reverse).inorder) ∧
      ((rbBuild c5songs.reverse).inorder.Perm c5songs.reverse ∧
        List.Sorted SLe (rbBuild c5songs.reverse).inorder) ∧
      ((avlBuild c5songs.reverse).inorder.Perm c5songs.reverse ∧
        List.Sorted SLe (avlBuild c5songs.reverse).inorder) :=
  C4_inorder_traversals_are_sorted_multiset c5songs.reverse SongKey.title
    (by intro s hs; fin_cases hs <;> rfl)

/-- Supporting lemma: reading a just-written slot. -/
theorem getD_set_self (l : List Song) (i : Nat) (a : Song) (h : i < l.length) :
    (l.set i a).getD i dSong = a := by
  rw [List.getD_eq_getElem _ _ (by simpa using h)]
  exact List.getElem_set_self (by simpa using h)

/-- Supporting lemma: reading another slot after a write. -/
theorem getD_set_ne (l : List Song) (i m : Nat) (a : Song) (h : i ≠ m) :
    (l.set i a).getD m dSong = l.getD m dSong := by
  by_cases hm : m < l.length
  · rw [List.getD_eq_getElem _ _ (by simpa using hm), List.getD_eq_getElem _ _ hm]
    exact List.getElem_set_ne h _
  · rw [List.getD_eq_default _ _ (by simpa using Nat.le_of_not_lt hm),
      List.getD_eq_default _ _ (Nat.le_of_not_lt hm)]

/-- Supporting lemma: rewriting a slot with its own value changes nothing. -/
theorem set_getD_self (l : List Song) (i : Nat) (h : i < l.length) :
    l.set i (l.getD i dSong) = l := by
  apply List.ext_getElem (by simp)
  intro n h1 h2
  by_cases hn : i = n
  · subst hn
    rw [List.getElem_set_self]
    rw [List.getD_eq_getElem _ _ h]
  · exact List.getElem_set_ne hn _

/-- Supporting lemma: the parallel swap keeps the length. -/
theorem swapL_length (l : List Song) (i j : Nat) : (swapL l i j).length = l.length := by
  simp [swapL]

/-- Supporting lemma: reading the first swapped slot. -/
theorem swapL_getD_fst (l : List Song) (i j : Nat) (hi : i < l.length)
    (hj : j < l.length) : (swapL l i j).getD i dSong = l.getD j dSong := by
  unfold swapL
  by_cases hij : j = i
  · subst hij
    rw [getD_set_self _ _ _ (by simpa using hj)]
  · rw [getD_set_ne _ _ _ _ hij, getD_set_self _ _ _ hi]

/-- Supporting lemma: reading the second swapped slot. -/
theorem swapL_getD_snd (l : List Song) (i j : Nat) (hi : i < l.length)
    (hj : j < l.length) : (swapL l i j).getD j dSong = l.getD i dSong := by
  unfold swapL
  rw [getD_set_self _ _ _ (by simpa using hj)]

/-- Supporting lemma: reading an untouched slot after a swap. -/
theorem swapL_getD_other (l : List Song) (i j m : Nat) (h1 : i ≠ m) (h2 : j ≠ m) :
    (swapL l i j).getD m dSong = l.getD m dSong := by
  unfold swapL
  rw [getD_set_ne _ _ _ _ h2, getD_set_ne _ _ _ _ h1]

/-- Supporting lemma: moving the slot-j value over a set list is a
permutation step. -/
theorem getD_cons_set_perm : ∀ (l : List Song) (j : Nat) (a : Song), j < l.length →
    (l.getD j dSong :: l.set j a).Perm (a :: l) := by
  intro l
  induction l with
  | nil => intro j a h; simp at h
  | cons b bs ih =>
      intro j a h
      cases j with
      | zero => simpa using List.Perm.swap a b bs
      | succ m =>
          have hm : m < bs.length := by simpa using h
          have e1 : ((b :: bs).getD (m + 1) dSong :: (b :: bs).set (m + 1) a)
              = bs.getD m dSong :: b :: bs.set m a := by simp
          rw [e1]
          exact (List.Perm.swap b (bs.getD m dSong) (bs.set m a)).trans
            (((ih m a hm).cons b).trans (List.Perm.swap a b bs))

/-- Supporting lemma: the parallel swap permutes the list. -/
theorem swapL_perm : ∀ (l : List Song) (i j : Nat), i < l.length → j < l.length →
    (swapL l i j).Perm l := by
  intro l
  induction l with
  | nil => intro i j hi _; simp at hi
  | cons b bs ih =>
      intro i j hi hj
      cases i with
      | zero =>
          cases j with
          | zero => simp [swapL]
          | succ m =>
              have hm : m < bs.length := by simpa using hj
              have e : swapL (b :: bs) 0 (m + 1) = bs.getD m dSong :: bs.set m b := by
                simp [swapL]
              rw [e]
              exact getD_cons_set_perm bs m b hm
      | succ p =>
          cases j with
          | zero =>
              have hp : p < bs.length := by simpa using hi
              have e : swapL (b :: bs) (p + 1) 0 = bs.getD p dSong :: bs.set p b := by
                simp [swapL]
              rw [e]
              exact getD_cons_set_perm bs p b hp
          | succ m =>
              have hp : p < bs.length := by simpa using hi
              have hm : m < bs.length := by simpa using hj
              have e : swapL (b :: bs) (p + 1) (m + 1) = b :: swapL bs p m := by
                simp [swapL]
              rw [e]
              exact (ih p m hp hm).cons b

/-- Supporting lemma: sortedness through default reads. -/
theorem sorted_iff_getD (l : List Song) :
    List.Sorted SLe l ↔
      ∀ p q, p < q → q < l.length → SLe (l.getD p dSong) (l.getD q dSong) := by
  rw [List.Sorted, List.pairwise_iff_getElem]
  constructor
  · intro h p q hpq hq
    have hp : p < l.length := lt_trans hpq hq
    rw [List.getD_eq_getElem _ _ hp, List.getD_eq_getElem _ _ hq]
    exact h p q hp hq hpq
  · intro h p q hp hq hpq
    have := h p q hpq hq
    rwa [List.getD_eq_getElem _ _ hp, List.getD_eq_getElem _ _ hq] at this

/-- Supporting lemma: Python string at most is transitive. -/
theorem pyStrLe_trans (a b c : PyStr) : pyStrLe a b = true → pyStrLe b c = true →
    pyStrLe a c = true := by
  intro h1 h2
  rw [pyStrLe_eq_not_lt] at h1 h2 ⊢
  simp only [Bool.not_eq_true'] at h1 h2 ⊢
  cases h3 : pyStrLt c a
  · rfl
  · exfalso
    rcases pyStrLt_trichotomy c b with h4 | h4 | h4
    · rw [h4] at h2; cases h2
    · have h5 := pyStrLt_trans b c a h4 h3
      rw [h5] at h1; cases h1
    · rw [h4] at h3
      rw [h3] at h1
      cases h1

/-- Supporting lemma: Python string at most is antisymmetric. -/
theorem pyStrLe_antisymm (a b : PyStr) : pyStrLe a b = true → pyStrLe b a = true →
    a = b := by
  intro h1 h2
  rw [pyStrLe_eq_not_lt] at h1 h2
  simp only [Bool.not_eq_true'] at h1 h2
  rcases pyStrLt_trichotomy a b with h3 | h3 | h3
  · rw [h3] at h2; cases h2
  · rw [h3] at h1; cases h1
  · exact h3

/-- Supporting lemma: the field value at most is transitive, globally: a
mixed-shape link is false and makes the chain vacuous. -/
theorem fvLe_trans_g (u v w : FieldVal) : fvLe u v = true → fvLe v w = true →
    fvLe u w = true := by
  intro h1 h2
  cases u <;> cases v <;> cases w <;> simp [fvLe] at h1 h2 ⊢
  · exact pyStrLe_trans _ _ _ h1 h2
  · omega

/-- Supporting lemma: the field value at most is antisymmetric, globally. -/
theorem fvLe_antisymm_g (u v : FieldVal) : fvLe u v = true → fvLe v u = true → u = v := by
  intro h1 h2
  cases u <;> cases v <;> simp [fvLe] at h1 h2 ⊢
  · exact pyStrLe_antisymm _ _ h1 h2
  · omega

/-- Supporting lemma: song at most is transitive, globally. -/
theorem SLe_trans_g {a b c : Song} : SLe a b → SLe b c → SLe a c :=
  fun h1 h2 => fvLe_trans_g _ _ _ h1 h2

/-- Supporting lemma: comparator equality is reflexive. -/
theorem fvEq_refl (v : FieldVal) : fvEq v v = true := by
  cases v <;> simp [fvEq]

/-- Supporting lemma: equal selected values compare equal. -/
theorem songEq_of_keyVal_eq (a b : Song) (h : a.getKeyVal = b.getKeyVal) :
    songEq a b = true := by
  unfold songEq
  rw [h]
  exact fvEq_refl _

/-- Supporting lemma: comparator equality is symmetric. -/
theorem songEq_symm (a b : Song) : songEq a b = songEq b a := by
  unfold songEq
  cases a.getKeyVal <;> cases b.getKeyVal <;> simp [fvEq] <;> constructor <;>
    (intro h; exact h.symm)

/-- Supporting lemma: a sorted list of songs maps to a list of field values
sorted by the global field-value order. -/
theorem sorted_map_keyVal {l : List Song} (h : List.Sorted SLe l) :
    List.Pairwise (fun u v => fvLe u v = true) (l.map Song.getKeyVal) :=
  List.Pairwise.map Song.getKeyVal (fun _ _ hab => hab) h

/-- Supporting lemma: two sorted permutations select the same sequence of
field values. -/
theorem sorted_perm_map_eq {l1 l2 : List Song} (hp : l1.Perm l2)
    (h1 : List.Sorted SLe l1) (h2 : List.Sorted SLe l2) :
    l1.map Song.getKeyVal = l2.map Song.getKeyVal :=
  @List.eq_of_perm_of_sorted FieldVal (fun u v => fvLe u v = true)
    ⟨fun _ _ => fvLe_antisymm_g _ _⟩ _ _ (hp.map Song.getKeyVal)
    (sorted_map_keyVal h1) (sorted_map_keyVal h2)

/-- Supporting lemma: equal field-value sequences are elementwise comparator
equal. -/
theorem forall2_SEqv_of_map_eq : ∀ {l1 l2 : List Song},
    l1.map Song.getKeyVal = l2.map Song.getKeyVal → List.Forall₂ SEqv l1 l2 := by
  intro l1
  induction l1 with
  | nil =>
      intro l2 h
      cases l2 with
      | nil => exact List.Forall₂.nil
      | cons b bs => simp at h
  | cons a as ih =>
      intro l2 h
      cases l2 with
      | nil => simp at h
      | cons b bs =>
          simp only [List.map_cons, List.cons.injEq] at h
          exact List.Forall₂.cons (songEq_of_keyVal_eq a b h.1) (ih h.2)

/-- Supporting lemma: two sorted permutations of one list are elementwise
comparator equal. -/
theorem sorted_perms_forall2 {l1 l2 : List Song} (hp : l1.Perm l2)
    (h1 : List.Sorted SLe l1) (h2 : List.Sorted SLe l2) : List.Forall₂ SEqv l1 l2 :=
  forall2_SEqv_of_map_eq (sorted_perm_map_eq hp h1 h2)

/-- Supporting lemma: with pairwise distinct comparator values, comparator
equal members are the same entity. -/
theorem distinct_eqv_eq {l : List Song} (hd : DistinctKeys l) {a b : Song}
    (ha : a ∈ l) (hb : b ∈ l) (he : SEqv a b) : a = b := by
  by_cases hab : a = b
  · exact hab
  · exfalso
    have hsym : Symmetric (fun u v : Song => songEq u v = false) := by
      intro u v h
      rw [songEq_symm]
      exact h
    have := List.Pairwise.forall hsym hd ha hb hab
    rw [SEqv, this] at he
    cases he

/-- Supporting lemma: elementwise comparator-equal lists drawn from a
distinct-key pool are equal. -/
theorem forall2_eq_of_distinct : ∀ {l1 l2 : List Song},
    List.Forall₂ SEqv l1 l2 → (∀ a b, a ∈ l1 → b ∈ l2 → SEqv a b → a = b) → l1 = l2 := by
  intro l1
  induction l1 with
  | nil =>
      intro l2 h _
      cases h
      rfl
  | cons a as ih =>
      intro l2 h hd
      cases l2 with
      | nil => cases h
      | cons b bs =>
          rcases List.forall₂_cons.mp h with ⟨hab, htail⟩
          have he : a = b := hd a b (by simp) (by simp) hab
          rw [he, ih htail (fun x y hx hy => hd x y (by simp [hx]) (by simp [hy]))]

/-- Supporting lemma: keys are preserved along permutations. -/
theorem keys_of_perm {k : SongKey} {l m : List Song} (h : m.Perm l)
    (hk : ∀ y ∈ l, y.key = k) : ∀ y ∈ m, y.key = k :=
  fun y hy => hk y (h.subset hy)

/-- Supporting lemma: common-key members allow turning a failed strict
comparison around. -/
theorem keys_not_lt_le {k : SongKey} {a b : Song} (ha : a.key = k) (hb : b.key = k)
    (h : songLt a b = false) : SLe b a :=
  songNotLt_imp_le a b (shape_of_key_eq a b (ha.trans hb.symm)) h

/-- Supporting lemma: common-key members allow weakening a strict
comparison. -/
theorem keys_lt_le {k : SongKey} {a b : Song} (ha : a.key = k) (hb : b.key = k)
    (h : songLt a b = true) : SLe a b :=
  songLt_imp_le a b (shape_of_key_eq a b (ha.trans hb.symm)) h

/-- Supporting lemma: merge produces a permutation of its two inputs. -/
theorem mergeLists_perm (a b : List Song) : (mergeLists a b).Perm (a ++ b) := by
  match a, b with
  | [], r => simp [mergeLists]
  | x :: xs, [] => simp [mergeLists]
  | x :: xs, y :: ys =>
      by_cases h : songLt x y = true
      · simp only [mergeLists, h, if_true]
        exact (mergeLists_perm xs (y :: ys)).cons x
      · simp only [mergeLists, h, if_false]
        exact ((mergeLists_perm (x :: xs) ys).cons y).trans List.perm_middle.symm
  termination_by a.length + b.length

/-- Supporting lemma: merge of two sorted common-key lists is sorted. -/
theorem mergeLists_sorted (k : SongKey) (a b : List Song) (hka : ∀ y ∈ a, y.key = k)
    (hkb : ∀ y ∈ b, y.key = k) (ha : List.Sorted SLe a) (hb : List.Sorted SLe b) :
    List.Sorted SLe (mergeLists a b) := by
  match a, b with
  | [], r => simpa [mergeLists] using hb
  | x :: xs, [] => simpa [mergeLists] using ha
  | x :: xs, y :: ys =>
      rcases List.sorted_cons.mp ha with ⟨hxb, hxs⟩
      rcases List.sorted_cons.mp hb with ⟨hyb, hys⟩
      by_cases h : songLt x y = true
      · simp only [mergeLists, h, if_true]
        refine List.sorted_cons.mpr ⟨?_, ?_⟩
        · intro z hz
          have hz' : z ∈ xs ++ y :: ys := (mergeLists_perm xs (y :: ys)).subset hz
          rcases List.mem_append.mp hz' with hz1 | hz1
          · exact hxb z hz1
          · rcases List.mem_cons.mp hz1 with rfl | hz2
            · exact keys_lt_le (hka x (by simp)) (hkb z (by simp)) h
            · exact SLe_trans_g (keys_lt_le (hka x (by simp)) (hkb y (by simp)) h)
                (hyb z hz2)
        · exact mergeLists_sorted k xs (y :: ys) (fun u hu => hka u (by simp [hu])) hkb
            hxs hb
      · simp only [mergeLists, h, if_false]
        have hle : SLe y x := keys_not_lt_le (hka x (by simp)) (hkb y (by simp))
          (Bool.not_eq_true _ ▸ Bool.of_not_eq_true h)
        refine List.sorted_cons.mpr ⟨?_, ?_⟩
        · intro z hz
          have hz' : z ∈ (x :: xs) ++ ys := (mergeLists_perm (x :: xs) ys).subset hz
          rcases List.mem_append.mp hz' with hz1 | hz1
          · rcases List.mem_cons.mp hz1 with rfl | hz2
            · exact hle
            · exact SLe_trans_g hle (hxb z hz2)
          · exact hyb z (by simp [hz1])
        · exact mergeLists_sorted k (x :: xs) ys hka (fun u hu => hkb u (by simp [hu]))
            ha hys
  termination_by a.length + b.length

/-- Supporting lemma: merge sort permutes its input. -/
theorem mergeSort_perm (l : List Song) : (mergeSort l).Perm l := by
  by_cases h : l.length ≤ 1
  · simp [mergeSort, h]
  · rw [mergeSort, dif_neg h]
    refine (mergeLists_perm _ _).trans ?_
    have h1 := mergeSort_perm (l.take (l.length / 2))
    have h2 := mergeSort_perm (l.drop (l.length / 2))
    refine (h1.append h2).trans ?_
    rw [List.take_append_drop]
  termination_by l.length
  decreasing_by
  · simp only [List.length_take]
    omega
  · simp only [List.length_drop]
    omega

/-- Supporting lemma: merge sort of a common-key list is sorted. -/
theorem mergeSort_sorted (k : SongKey) (l : List Song) (hk : ∀ y ∈ l, y.key = k) :
    List.Sorted SLe (mergeSort l) := by
  by_cases h : l.length ≤ 1
  · rw [mergeSort, dif_pos h]
    match l with
    | [] => simp
    | [x] => simp
    | x :: y :: r => simp at h
  · rw [mergeSort, dif_neg h]
    have hk1 : ∀ y ∈ l.take (l.length / 2), y.key = k := fun y hy =>
      hk y (List.take_subset _ _ hy)
    have hk2 : ∀ y ∈ l.drop (l.length / 2), y.key = k := fun y hy =>
      hk y (List.drop_subset _ _ hy)
    exact mergeLists_sorted k _ _
      (keys_of_perm (mergeSort_perm _) hk1) (keys_of_perm (mergeSort_perm _) hk2)
      (mergeSort_sorted k _ hk1) (mergeSort_sorted k _ hk2)
  termination_by l.length
  decreasing_by
  · simp only [List.length_take]
    omega
  · simp only [List.length_drop]
    omega

/-- Supporting lemma: an in-range default read is a member. -/
theorem getD_mem_of_lt (l : List Song) (q : Nat) (h : q < l.length) :
    l.getD q dSong ∈ l := by
  rw [List.getD_eq_getElem _ _ h]
  exact List.getElem_mem h

/-- Supporting lemma: full specification of the insertion shifting loop.
The result index stays in [-1, j]; slots up to it are untouched, the slots
above it up to j + 1 moved one up, the rest untouched; the loop stopped
because the key is not below the resting slot, having passed only slots the
key is below. -/
theorem insShift_spec : ∀ (fuel : Nat) (l : List Song) (key : Song) (j : Int),
    (j + 1).toNat ≤ fuel → -1 ≤ j → j + 1 < (l.length : Int) →
    (-1 ≤ (insShift l key j).2 ∧ (insShift l key j).2 ≤ j) ∧
    (insShift l key j).1.length = l.length ∧
    (∀ q : Nat, (q : Int) ≤ (insShift l key j).2 + 1 →
      (insShift l key j).1.getD q dSong = l.getD q dSong) ∧
    (∀ q : Nat, (insShift l key j).2 + 2 ≤ (q : Int) → (q : Int) ≤ j + 1 →
      (insShift l key j).1.getD q dSong = l.getD (q - 1) dSong) ∧
    (∀ q : Nat, j + 1 < (q : Int) →
      (insShift l key j).1.getD q dSong = l.getD q dSong) ∧
    (0 ≤ (insShift l key j).2 →
      songLt key (l.getD (insShift l key j).2.toNat dSong) = false) ∧
    (∀ q : Nat, (insShift l key j).2 < (q : Int) → (q : Int) ≤ j →
      songLt key (l.getD q dSong) = true) := by
  intro fuel
  induction fuel with
  | zero =>
      intro l key j hf hj1 hj2
      have hj : j = -1 := by omega
      subst hj
      rw [insShift, if_neg (fun h => absurd h.1 (by norm_num))]
      refine ⟨⟨by norm_num, le_refl _⟩, rfl, fun q _ => rfl, ?_, fun q _ => rfl, ?_, ?_⟩
      · intro q h1 h2
        exact absurd h2 (by omega)
      · intro h0
        exact absurd h0 (by norm_num)
      · intro q h1 h2
        exact absurd h2 (by omega)
  | succ m ih =>
      intro l key j hf hj1 hj2
      by_cases hc : 0 ≤ j ∧ songLt key (l.getD j.toNat dSong) = true
      · obtain ⟨hc1, hc2⟩ := hc
        have hstep : insShift l key j
            = insShift (l.set (j + 1).toNat (l.getD j.toNat dSong)) key (j - 1) := by
          rw [insShift, if_pos ⟨hc1, hc2⟩]
        rw [hstep]
        have hlen : (l.set (j + 1).toNat (l.getD j.toNat dSong)).length = l.length := by
          simp
        obtain ⟨⟨ih1a, ih1b⟩, ih2, ih3, ih4, ih5, ih6, ih7⟩ :=
          ih (l.set (j + 1).toNat (l.getD j.toNat dSong)) key (j - 1)
            (by omega) (by omega) (by rw [hlen]; omega)
        have hl'q : ∀ q : Nat, (j + 1).toNat ≠ q →
            (l.set (j + 1).toNat (l.getD j.toNat dSong)).getD q dSong
              = l.getD q dSong :=
          fun q hq => getD_set_ne _ _ _ _ hq
        have hl'self : (l.set (j + 1).toNat (l.getD j.toNat dSong)).getD
            (j + 1).toNat dSong = l.getD j.toNat dSong :=
          getD_set_self _ _ _ (by omega)
        refine ⟨⟨ih1a, by omega⟩, by rw [ih2, hlen], ?_, ?_, ?_, ?_, ?_⟩
        · intro q hq
          rw [ih3 q hq, hl'q q (by omega)]
        · intro q h1 h2
          by_cases hq : (q : Int) ≤ j
          · rw [ih4 q h1 (by omega), hl'q (q - 1) (by omega)]
          · have e1 : q = (j + 1).toNat := by omega
            have e5 := ih5 q (by omega)
            rw [e5, e1, hl'self]
            have e2 : (j + 1).toNat - 1 = j.toNat := by omega
            rw [e2]
        · intro q hq
          rw [ih5 q (by omega), hl'q q (by omega)]
        · intro h0
          have h6 := ih6 h0
          rwa [hl'q _ (by omega)] at h6
        · intro q h1 h2
          by_cases hq : (q : Int) ≤ j - 1
          · have h7 := ih7 q h1 hq
            rwa [hl'q q (by omega)] at h7
          · have e : q = j.toNat := by omega
            rw [e]
            exact hc2
      · have hstep : insShift l key j = (l, j) := by
          rw [insShift, if_neg hc]
        rw [hstep]
        refine ⟨⟨hj1, le_refl _⟩, rfl, fun q _ => rfl, ?_, fun q _ => rfl, ?_, ?_⟩
        · intro q h1 h2
          exact absurd h2 (by omega)
        · intro h0
          by_cases hb : songLt key (l.getD j.toNat dSong) = true
          · exact absurd ⟨h0, hb⟩ hc
          · exact Bool.of_not_eq_true hb
        · intro q h1 h2
          exact absurd h2 (by omega)

/-- Supporting lemma: dropping the key into the hole left by the shifting
loop permutes the list that simply overwrites the original slot j + 1 with
the key. -/
theorem insShift_set_perm : ∀ (fuel : Nat) (l : List Song) (key : Song) (j : Int),
    (j + 1).toNat ≤ fuel → -1 ≤ j → j + 1 < (l.length : Int) →
    ((insShift l key j).1.set ((insShift l key j).2 + 1).toNat key).Perm
      (l.set (j + 1).toNat key) := by
  intro fuel
  induction fuel with
  | zero =>
      intro l key j hf hj1 hj2
      have hj : j = -1 := by omega
      subst hj
      rw [insShift, if_neg (fun h => absurd h.1 (by norm_num))]
  | succ m ih =>
      intro l key j hf hj1 hj2
      by_cases hc : 0 ≤ j ∧ songLt key (l.getD j.toNat dSong) = true
      · obtain ⟨hc1, hc2⟩ := hc
        have hstep : insShift l key j
            = insShift (l.set (j + 1).toNat (l.getD j.toNat dSong)) key (j - 1) := by
          rw [insShift, if_pos ⟨hc1, hc2⟩]
        rw [hstep]
        have hlen : (l.set (j + 1).toNat (l.getD j.toNat dSong)).length = l.length := by
          simp
        have ihp := ih (l.set (j + 1).toNat (l.getD j.toNat dSong)) key (j - 1)
          (by omega) (by omega) (by rw [hlen]; omega)
        refine ihp.trans ?_
        have e0 : (j - 1 + 1).toNat = j.toNat := by omega
        rw [e0]
        have hA : (l.set (j + 1).toNat (l.getD j.toNat dSong)).set j.toNat key
            = swapL (l.set (j + 1).toNat key) j.toNat ((j + 1).toNat) := by
          unfold swapL
          rw [getD_set_self _ _ _ (by omega), getD_set_ne _ _ _ _ (by omega)]
          rw [List.set_comm key (l.getD j.toNat dSong) _ (by omega), List.set_set]
        rw [hA]
        exact swapL_perm _ _ _ (by simp; omega) (by simp; omega)
      · rw [insShift, if_neg hc]

/-- Supporting lemma: the outer insertion loop from any position whose
prefix is sorted yields a sorted permutation. -/
theorem insLoop_spec (k : SongKey) : ∀ (fuel : Nat) (l : List Song) (n i : Nat),
    n = l.length → n - i ≤ fuel → 1 ≤ i → (∀ y ∈ l, y.key = k) →
    PrefSortedD l i →
    (insLoop l n i).Perm l ∧ List.Sorted SLe (insLoop l n i) := by
  intro fuel
  induction fuel with
  | zero =>
      intro l n i hn hf h1 hkl hps
      have hin : ¬ i < n := by omega
      rw [insLoop, if_neg hin]
      exact ⟨List.Perm.refl l,
        (sorted_iff_getD l).mpr (fun p q hpq hq => hps p q hpq (by omega))⟩
  | succ m ih =>
      intro l n i hn hf h1 hkl hps
      by_cases hin : i < n
      · have hstep : insLoop l n i
            = insLoop ((insShift l (l.getD i dSong) ((i : Int) - 1)).1.set
                (((insShift l (l.getD i dSong) ((i : Int) - 1)).2 + 1).toNat)
                (l.getD i dSong)) n (i + 1) := by
          rw [insLoop, if_pos hin]
        rw [hstep]
        obtain ⟨⟨h1a, h1b⟩, h2, h3, h4, h5, h6, h7⟩ :=
          insShift_spec i l (l.getD i dSong) ((i : Int) - 1)
            (by omega) (by omega) (by omega)
        have hmlen : ((insShift l (l.getD i dSong) ((i : Int) - 1)).1.set
            (((insShift l (l.getD i dSong) ((i : Int) - 1)).2 + 1).toNat)
            (l.getD i dSong)).length = l.length := by
          rw [List.length_set]
          exact h2
        have hmperm : ((insShift l (l.getD i dSong) ((i : Int) - 1)).1.set
            (((insShift l (l.getD i dSong) ((i : Int) - 1)).2 + 1).toNat)
            (l.getD i dSong)).Perm l := by
          have hp := insShift_set_perm i l (l.getD i dSong) ((i : Int) - 1)
            (by omega) (by omega) (by omega)
          have e : ((i : Int) - 1 + 1).toNat = i := by omega
          rw [e] at hp
          rwa [set_getD_self l i (by omega)] at hp
        have hm_lo : ∀ q : Nat,
            (q : Int) ≤ (insShift l (l.getD i dSong) ((i : Int) - 1)).2 →
            ((insShift l (l.getD i dSong) ((i : Int) - 1)).1.set
              (((insShift l (l.getD i dSong) ((i : Int) - 1)).2 + 1).toNat)
              (l.getD i dSong)).getD q dSong = l.getD q dSong := by
          intro q hq
          rw [getD_set_ne _ _ _ _ (by omega), h3 q (by omega)]
        have hm_key : ((insShift l (l.getD i dSong) ((i : Int) - 1)).1.set
            (((insShift l (l.getD i dSong) ((i : Int) - 1)).2 + 1).toNat)
            (l.getD i dSong)).getD
              (((insShift l (l.getD i dSong) ((i : Int) - 1)).2 + 1).toNat) dSong
            = l.getD i dSong :=
          getD_set_self _ _ _ (by rw [h2]; omega)
        have hm_mid : ∀ q : Nat,
            (insShift l (l.getD i dSong) ((i : Int) - 1)).2 + 2 ≤ (q : Int) →
            (q : Int) ≤ (i : Int) →
            ((insShift l (l.getD i dSong) ((i : Int) - 1)).1.set
              (((insShift l (l.getD i dSong) ((i : Int) - 1)).2 + 1).toNat)
              (l.getD i dSong)).getD q dSong = l.getD (q - 1) dSong := by
          intro q hq1 hq2
          rw [getD_set_ne _ _ _ _ (by omega), h4 q hq1 (by omega)]
        have hkey : ∀ q : Nat, q < l.length → (l.getD q dSong).key = k :=
          fun q hq => hkl _ (getD_mem_of_lt l q hq)
        have hps' : PrefSortedD ((insShift l (l.getD i dSong) ((i : Int) - 1)).1.set
            (((insShift l (l.getD i dSong) ((i : Int) - 1)).2 + 1).toNat)
            (l.getD i dSong)) (i + 1) := by
          intro p q hpq hq
          by_cases hqJ : (q : Int) ≤ (insShift l (l.getD i dSong) ((i : Int) - 1)).2
          · rw [hm_lo p (by omega), hm_lo q hqJ]
            exact hps p q hpq (by omega)
          · by_cases hqJ1 : (q : Int)
                = (insShift l (l.getD i dSong) ((i : Int) - 1)).2 + 1
            · have hq0 : 0 ≤ (insShift l (l.getD i dSong) ((i : Int) - 1)).2 := by
                omega
              have eq' : q
                  = (((insShift l (l.getD i dSong) ((i : Int) - 1)).2 + 1)).toNat := by
                omega
              rw [eq', hm_key, hm_lo p (by omega)]
              have hJi : SLe (l.getD
                  (insShift l (l.getD i dSong) ((i : Int) - 1)).2.toNat dSong)
                  (l.getD i dSong) :=
                keys_not_lt_le (hkey i (by omega)) (hkey _ (by omega)) (h6 hq0)
              have hpJ : p ≤ (insShift l (l.getD i dSong) ((i : Int) - 1)).2.toNat := by
                omega
              rcases Nat.lt_or_eq_of_le hpJ with hlt | heq
              · exact SLe_trans_g (hps p _ hlt (by omega)) hJi
              · rw [heq]
                exact hJi
            · rw [hm_mid q (by omega) (by omega)]
              by_cases hpJ : (p : Int) ≤ (insShift l (l.getD i dSong) ((i : Int) - 1)).2
              · rw [hm_lo p hpJ]
                exact hps p (q - 1) (by omega) (by omega)
              · by_cases hpJ1 : (p : Int)
                    = (insShift l (l.getD i dSong) ((i : Int) - 1)).2 + 1
                · have ep : p
                      = (((insShift l (l.getD i dSong) ((i : Int) - 1)).2 + 1)).toNat := by
                    omega
                  rw [ep, hm_key]
                  exact keys_lt_le (hkey i (by omega)) (hkey (q - 1) (by omega))
                    (h7 (q - 1) (by omega) (by omega))
                · rw [hm_mid p (by omega) (by omega)]
                  exact hps (p - 1) (q - 1) (by omega) (by omega)
        obtain ⟨hrp, hrs⟩ := ih _ n (i + 1) (hn.trans hmlen.symm) (by omega)
          (by omega) (keys_of_perm hmperm hkl) hps'
        exact ⟨hrp.trans hmperm, hrs⟩
      · rw [insLoop, if_neg hin]
        exact ⟨List.Perm.refl l,
          (sorted_iff_getD l).mpr (fun p q hpq hq => hps p q hpq (by omega))⟩

/-- Supporting lemma: insertion sort permutes its input and sorts any
common-key list. -/
theorem insertionSort_perm_sorted (k : SongKey) (l : List Song) (hk : SameKey l k) :
    (insertionSort l).Perm l ∧ List.Sorted SLe (insertionSort l) := by
  by_cases h : l.length ≤ 1
  · rw [insertionSort, if_pos h]
    refine ⟨List.Perm.refl l, ?_⟩
    match l with
    | [] => simp
    | [x] => simp
    | x :: y :: r => simp at h
  · rw [insertionSort, if_neg h]
    exact insLoop_spec k l.length l l.length 1 rfl (by omega) (by omega) hk
      (fun p q hpq hq => absurd hpq (by omega))

/-- Supporting lemma: shell shifting preserves means dropping the temp into
the resting slot permutes the plain overwrite of the starting slot. -/
theorem shellShift_set_perm : ∀ (fuel : Nat) (l : List Song) (temp : Song)
    (gap j : Nat), j ≤ fuel → j < l.length →
    ((shellShift l temp gap j).1.set (shellShift l temp gap j).2 temp).Perm
      (l.set j temp) := by
  intro fuel
  induction fuel with
  | zero =>
      intro l temp gap j hf hj
      have hj0 : j = 0 := by omega
      subst hj0
      rw [shellShift, if_neg (fun h => absurd h.2.1 (by have := h.1; omega))]
  | succ m ih =>
      intro l temp gap j hf hj
      by_cases hc : 0 < gap ∧ gap ≤ j ∧ songGt (l.getD (j - gap) dSong) temp = true
      · obtain ⟨hc1, hc2, hc3⟩ := hc
        have hstep : shellShift l temp gap j
            = shellShift (l.set j (l.getD (j - gap) dSong)) temp gap (j - gap) := by
          rw [shellShift, if_pos ⟨hc1, hc2, hc3⟩]
        rw [hstep]
        have ihp := ih (l.set j (l.getD (j - gap) dSong)) temp gap (j - gap)
          (by omega) (by rw [List.length_set]; omega)
        refine ihp.trans ?_
        have hA : (l.set j (l.getD (j - gap) dSong)).set (j - gap) temp
            = swapL (l.set j temp) (j - gap) j := by
          unfold swapL
          rw [getD_set_self _ _ _ hj, getD_set_ne _ _ _ _ (by omega)]
          rw [List.set_comm temp (l.getD (j - gap) dSong) _ (by omega), List.set_set]
        rw [hA]
        exact swapL_perm _ _ _ (by simp; omega) (by simp; omega)
      · rw [shellShift, if_neg hc]

/-- Supporting lemma: at gap one the shell shifting loop is the insertion
shifting loop, with the resting slot expressed directly. -/
theorem shellShift_eq_insShift : ∀ (fuel : Nat) (l : List Song) (temp : Song)
    (j : Nat), j ≤ fuel →
    shellShift l temp 1 j
      = ((insShift l temp ((j : Int) - 1)).1,
         ((insShift l temp ((j : Int) - 1)).2 + 1).toNat) := by
  intro fuel
  induction fuel with
  | zero =>
      intro l temp j hf
      have hj0 : j = 0 := by omega
      subst hj0
      rw [shellShift, if_neg (fun h => absurd h.2.1 (by omega))]
      rw [insShift, if_neg (fun h => absurd h.1 (by omega))]
      rfl
  | succ m ih =>
      intro l temp j hf
      have he : ((j : Int) - 1).toNat = j - 1 := by omega
      by_cases hj : 1 ≤ j
      · by_cases hs : songLt temp (l.getD (j - 1) dSong) = true
        · rw [shellShift, if_pos ⟨Nat.one_pos, hj, hs⟩]
          rw [insShift, if_pos ⟨(by omega : (0 : Int) ≤ (j : Int) - 1),
            (by rw [he]; exact hs)⟩]
          have e1 : ((j : Int) - 1 + 1).toNat = j := by omega
          have e2 : (j : Int) - 1 - 1 = ((j - 1 : Nat) : Int) - 1 := by omega
          rw [e1, he, e2]
          exact ih _ temp (j - 1) (by omega)
        · rw [shellShift, if_neg (fun h => hs h.2.2)]
          rw [insShift, if_neg (fun h => hs (he ▸ h.2))]
          have e1 : ((j : Int) - 1 + 1).toNat = j := by omega
          rw [e1]
      · have hj0 : j = 0 := by omega
        subst hj0
        rw [shellShift, if_neg (fun h => absurd h.2.1 (by omega))]
        rw [insShift, if_neg (fun h => absurd h.1 (by omega))]
        rfl

/-- Supporting lemma: the gap-one shell pass is the insertion outer loop. -/
theorem shellInner_one_eq_insLoop : ∀ (fuel : Nat) (l : List Song) (n i : Nat),
    n - i ≤ fuel → shellInner l n 1 i = insLoop l n i := by
  intro fuel
  induction fuel with
  | zero =>
      intro l n i hf
      have hin : ¬ i < n := by omega
      rw [shellInner, if_neg hin, insLoop, if_neg hin]
  | succ m ih =>
      intro l n i hf
      by_cases hin : i < n
      · have hstep1 : shellInner l n 1 i
            = shellInner ((shellShift l (l.getD i dSong) 1 i).1.set
                (shellShift l (l.getD i dSong) 1 i).2 (l.getD i dSong)) n 1 (i + 1) := by
          rw [shellInner, if_pos hin]
        have hstep2 : insLoop l n i
            = insLoop ((insShift l (l.getD i dSong) ((i : Int) - 1)).1.set
                (((insShift l (l.getD i dSong) ((i : Int) - 1)).2 + 1).toNat)
                (l.getD i dSong)) n (i + 1) := by
          rw [insLoop, if_pos hin]
        have hX : (shellShift l (l.getD i dSong) 1 i).1.set
              (shellShift l (l.getD i dSong) 1 i).2 (l.getD i dSong)
            = (insShift l (l.getD i dSong) ((i : Int) - 1)).1.set
              (((insShift l (l.getD i dSong) ((i : Int) - 1)).2 + 1).toNat)
              (l.getD i dSong) := by
          rw [shellShift_eq_insShift i l (l.getD i dSong) i (le_refl i)]
        rw [hstep1, hstep2, hX]
        exact ih _ n (i + 1) (by omega)
      · rw [shellInner, if_neg hin, insLoop, if_neg hin]

/-- Supporting lemma: any shell pass permutes the list. -/
theorem shellInner_perm : ∀ (fuel : Nat) (l : List Song) (n gap i : Nat),
    n - i ≤ fuel → n = l.length → (shellInner l n gap i).Perm l := by
  intro fuel
  induction fuel with
  | zero =>
      intro l n gap i hf hn
      rw [shellInner, if_neg (by omega)]
  | succ m ih =>
      intro l n gap i hf hn
      by_cases hin : i < n
      · have hstep : shellInner l n gap i
            = shellInner ((shellShift l (l.getD i dSong) gap i).1.set
                (shellShift l (l.getD i dSong) gap i).2 (l.getD i dSong)) n gap
                (i + 1) := by
          rw [shellInner, if_pos hin]
        rw [hstep]
        have hmperm : ((shellShift l (l.getD i dSong) gap i).1.set
            (shellShift l (l.getD i dSong) gap i).2 (l.getD i dSong)).Perm l := by
          have hp := shellShift_set_perm i l (l.getD i dSong) gap i (le_refl i)
            (by omega)
          rwa [set_getD_self l i (by omega)] at hp
        exact (ih _ n gap (i + 1) (by omega) (hn.trans hmperm.length_eq.symm)).trans
          hmperm
      · rw [shellInner, if_neg hin]

/-- Supporting lemma: the shell gap loop from any positive gap sorts a
common-key list into a permutation of it, since its last pass has gap
one. -/
theorem shellGapLoop_spec (k : SongKey) : ∀ (fuel : Nat) (l : List Song)
    (n gap : Nat), gap ≤ fuel → n = l.length → 0 < gap → (∀ y ∈ l, y.key = k) →
    (shellGapLoop l n gap).Perm l ∧ List.Sorted SLe (shellGapLoop l n gap) := by
  intro fuel
  induction fuel with
  | zero =>
      intro l n gap hf hn hg hk
      exact absurd hg (by omega)
  | succ m ih =>
      intro l n gap hf hn hg hk
      by_cases hg1 : gap = 1
      · subst hg1
        have hstep : shellGapLoop l n 1 = shellGapLoop (shellInner l n 1 1) n 0 := by
          rw [shellGapLoop, if_pos Nat.one_pos]
        have hstep2 : shellGapLoop (shellInner l n 1 1) n 0 = shellInner l n 1 1 := by
          rw [shellGapLoop, if_neg (by omega)]
        rw [hstep, hstep2, shellInner_one_eq_insLoop n l n 1 (by omega)]
        exact insLoop_spec k n l n 1 hn (by omega) (le_refl 1) hk
          (fun p q hpq hq => absurd hpq (by omega))
      · have hstep : shellGapLoop l n gap
            = shellGapLoop (shellInner l n gap gap) n (gap / 2) := by
          rw [shellGapLoop, if_pos hg]
        rw [hstep]
        have hper := shellInner_perm n l n gap gap (by omega) hn
        obtain ⟨hp, hs⟩ := ih (shellInner l n gap gap) n (gap / 2) (by omega)
          (hn.trans hper.length_eq.symm) (by omega) (keys_of_perm hper hk)
        exact ⟨hp.trans hper, hs⟩

/-- Supporting lemma: shell sort permutes its input and sorts any common-key
list. -/
theorem shellSort_perm_sorted (k : SongKey) (l : List Song) (hk : SameKey l k) :
    (shellSort l).Perm l ∧ List.Sorted SLe (shellSort l) := by
  rw [shellSort]
  by_cases h0 : 0 < l.length / 2
  · exact shellGapLoop_spec k (l.length / 2) l l.length (l.length / 2) (le_refl _)
      rfl h0 hk
  · have hstep : shellGapLoop l l.length (l.length / 2) = l := by
      rw [shellGapLoop, if_neg h0]
    rw [hstep]
    refine ⟨List.Perm.refl l, ?_⟩
    match l with
    | [] => simp
    | [x] => simp
    | x :: y :: r =>
        exfalso
        apply h0
        simp
        omega

/-- Supporting lemma: the field value at most is reflexive. -/
theorem fvLe_refl (u : FieldVal) : fvLe u u = true := by
  cases u with
  | ofStr s => simp [fvLe, pyStrLe_eq_not_lt, pyStrLt_irrefl]
  | ofNat n => simp [fvLe]

/-- Supporting lemma: song at most is reflexive. -/
theorem SLe_refl (a : Song) : SLe a a := fvLe_refl a.getKeyVal

/-- Supporting lemma: the selection scan returns the position of a minimum
of the slots it has seen, staying inside the scanned window. -/
theorem selMinLoop_spec (k : SongKey) : ∀ (fuel : Nat) (l : List Song)
    (j size minIdx : Nat), size - j ≤ fuel → size ≤ l.length →
    minIdx < l.length → (∀ y ∈ l, y.key = k) →
    (selMinLoop l j size minIdx = minIdx ∨
      (j ≤ selMinLoop l j size minIdx ∧ selMinLoop l j size minIdx < size)) ∧
    SLe (l.getD (selMinLoop l j size minIdx) dSong) (l.getD minIdx dSong) ∧
    (∀ q : Nat, j ≤ q → q < size →
      SLe (l.getD (selMinLoop l j size minIdx) dSong) (l.getD q dSong)) := by
  intro fuel
  induction fuel with
  | zero =>
      intro l j size minIdx hf hsl hml hk
      rw [selMinLoop, if_neg (by omega)]
      exact ⟨Or.inl rfl, SLe_refl _, fun q h1 h2 => absurd h1 (by omega)⟩
  | succ m ih =>
      intro l j size minIdx hf hsl hml hk
      have hkey : ∀ q : Nat, q < l.length → (l.getD q dSong).key = k :=
        fun q hq => hk _ (getD_mem_of_lt l q hq)
      by_cases hin : j < size
      · by_cases hcmp : songLt (l.getD j dSong) (l.getD minIdx dSong) = true
        · have hstep : selMinLoop l j size minIdx = selMinLoop l (j + 1) size j := by
            rw [selMinLoop, if_pos hin, if_pos hcmp]
          rw [hstep]
          obtain ⟨ha, hb, hc⟩ := ih l (j + 1) size j (by omega) hsl (by omega) hk
          refine ⟨?_, ?_, ?_⟩
          · rcases ha with h | h
            · exact Or.inr ⟨by omega, by omega⟩
            · exact Or.inr ⟨by omega, h.2⟩
          · exact SLe_trans_g hb
              (keys_lt_le (hkey j (by omega)) (hkey minIdx hml) hcmp)
          · intro q h1 h2
            rcases Nat.lt_or_eq_of_le h1 with h | h
            · exact hc q (by omega) h2
            · rw [← h]
              exact hb
        · have hstep : selMinLoop l j size minIdx
              = selMinLoop l (j + 1) size minIdx := by
            rw [selMinLoop, if_pos hin, if_neg hcmp]
          rw [hstep]
          obtain ⟨ha, hb, hc⟩ := ih l (j + 1) size minIdx (by omega) hsl hml hk
          refine ⟨?_, hb, ?_⟩
          · rcases ha with h | h
            · exact Or.inl h
            · exact Or.inr ⟨by omega, h.2⟩
          · intro q h1 h2
            rcases Nat.lt_or_eq_of_le h1 with h | h
            · exact hc q (by omega) h2
            · rw [← h]
              exact SLe_trans_g hb (keys_not_lt_le (hkey j (by omega))
                (hkey minIdx hml) (Bool.of_not_eq_true hcmp))
      · rw [selMinLoop, if_neg hin]
        exact ⟨Or.inl rfl, SLe_refl _, fun q h1 h2 => absurd (h1.trans_lt h2) hin⟩

/-- Supporting lemma: the selection outer loop keeps the sorted prefix and
its dominance over the suffix, yielding a sorted permutation. -/
theorem selLoop_spec (k : SongKey) : ∀ (fuel : Nat) (l : List Song)
    (ind size : Nat), size - ind ≤ fuel → size = l.length →
    (∀ y ∈ l, y.key = k) → PrefSortedD l ind →
    (∀ p q : Nat, p < ind → ind ≤ q → q < size →
      SLe (l.getD p dSong) (l.getD q dSong)) →
    (selLoop l ind size).Perm l ∧ List.Sorted SLe (selLoop l ind size) := by
  intro fuel
  induction fuel with
  | zero =>
      intro l ind size hf hn hk hps hdom
      rw [selLoop, if_neg (by omega)]
      exact ⟨List.Perm.refl l,
        (sorted_iff_getD l).mpr (fun p q hpq hq => hps p q hpq (by omega))⟩
  | succ m ih =>
      intro l ind size hf hn hk hps hdom
      by_cases hin : ind < size
      · have hstep : selLoop l ind size
            = selLoop (swapL l ind (selMinLoop l (ind + 1) size ind)) (ind + 1)
                size := by
          rw [selLoop, if_pos hin]
        rw [hstep]
        obtain ⟨ha, hb, hc⟩ := selMinLoop_spec k size l (ind + 1) size ind
          (by omega) (by omega) (by omega) hk
        have hmi1 : ind ≤ selMinLoop l (ind + 1) size ind := by
          rcases ha with h | h
          · omega
          · omega
        have hmi2 : selMinLoop l (ind + 1) size ind < size := by
          rcases ha with h | h
          · omega
          · omega
        have hperm : (swapL l ind (selMinLoop l (ind + 1) size ind)).Perm l :=
          swapL_perm l ind _ (by omega) (by omega)
        have hfst : (swapL l ind (selMinLoop l (ind + 1) size ind)).getD ind dSong
            = l.getD (selMinLoop l (ind + 1) size ind) dSong :=
          swapL_getD_fst l ind _ (by omega) (by omega)
        have hsnd : (swapL l ind (selMinLoop l (ind + 1) size ind)).getD
            (selMinLoop l (ind + 1) size ind) dSong = l.getD ind dSong :=
          swapL_getD_snd l ind _ (by omega) (by omega)
        have hoth : ∀ q : Nat, q ≠ ind → q ≠ selMinLoop l (ind + 1) size ind →
            (swapL l ind (selMinLoop l (ind + 1) size ind)).getD q dSong
              = l.getD q dSong :=
          fun q h1 h2 => swapL_getD_other l ind _ q (Ne.symm h1) (Ne.symm h2)
        have hps' : PrefSortedD (swapL l ind (selMinLoop l (ind + 1) size ind))
            (ind + 1) := by
          intro p q hpq hq
          by_cases hqi : q = ind
          · rw [hqi, hfst, hoth p (by omega) (by omega)]
            exact hdom p (selMinLoop l (ind + 1) size ind) (by omega) hmi1 hmi2
          · rw [hoth p (by omega) (by omega), hoth q hqi (by omega)]
            exact hps p q hpq (by omega)
        have hdom' : ∀ p q : Nat, p < ind + 1 → ind + 1 ≤ q → q < size →
            SLe ((swapL l ind (selMinLoop l (ind + 1) size ind)).getD p dSong)
              ((swapL l ind (selMinLoop l (ind + 1) size ind)).getD q dSong) := by
          intro p q hp hq hqs
          by_cases hqm : q = selMinLoop l (ind + 1) size ind
          · rw [hqm, hsnd]
            by_cases hpi : p = ind
            · rw [hpi, hfst]
              exact hb
            · rw [hoth p hpi (by omega)]
              exact hdom p ind (by omega) (le_refl ind) (by omega)
          · rw [hoth q (by omega) hqm]
            by_cases hpi : p = ind
            · rw [hpi, hfst]
              exact hc q hq hqs
            · rw [hoth p hpi (by omega)]
              exact hdom p q (by omega) (by omega) hqs
        obtain ⟨hp2, hs2⟩ := ih (swapL l ind (selMinLoop l (ind + 1) size ind))
          (ind + 1) size (by omega) (by rw [swapL_length]; exact hn)
          (keys_of_perm hperm hk) hps' hdom'
        exact ⟨hp2.trans hperm, hs2⟩
      · rw [selLoop, if_neg hin]
        exact ⟨List.Perm.refl l,
          (sorted_iff_getD l).mpr (fun p q hpq hq => hps p q hpq (by omega))⟩

/-- Supporting lemma: selection sort permutes its input and sorts any
common-key list. -/
theorem selectionSort_perm_sorted (k : SongKey) (l : List Song)
    (hk : SameKey l k) :
    (selectionSort l).Perm l ∧ List.Sorted SLe (selectionSort l) := by
  rw [selectionSort]
  exact selLoop_spec k l.length l 0 l.length (by omega) rfl hk
    (fun p q hpq hq => absurd hpq (by omega))
    (fun p q hp _ _ => absurd hp (by omega))

/-- Supporting lemma: a common-key list whose adjacent slots are ascending
up to a bound is ascending between any two slots below the bound. -/
theorem chain_le (l : List Song) (mb : Nat)
    (hadj : ∀ r : Nat, r < mb → SLe (l.getD r dSong) (l.getD (r + 1) dSong)) :
    ∀ (d p q : Nat), q - p ≤ d → p < q → q ≤ mb →
      SLe (l.getD p dSong) (l.getD q dSong) := by
  intro d
  induction d with
  | zero =>
      intro p q h1 h2 h3
      exact absurd h1 (by omega)
  | succ e ih =>
      intro p q h1 h2 h3
      by_cases hq : q = p + 1
      · rw [hq]
        exact hadj p (by omega)
      · refine SLe_trans_g (ih p (q - 1) (by omega) (by omega) (by omega)) ?_
        have e1 : q - 1 + 1 = q := by omega
        have := hadj (q - 1) (by omega)
        rwa [e1] at this

/-- Supporting lemma: full specification of one bubble pass: it permutes the
list, touches only the window [j, m], fills the window from the window, and
leaves a maximum of the window at its top, provided slot j already tops the
prefix. -/
theorem bubblePass_spec (k : SongKey) : ∀ (fuel : Nat) (l : List Song) (j m : Nat),
    m - j ≤ fuel → j ≤ m → m < l.length → (∀ y ∈ l, y.key = k) →
    (∀ q : Nat, q ≤ j → SLe (l.getD q dSong) (l.getD j dSong)) →
    (bubblePass l j m).Perm l ∧
    (∀ q : Nat, q < j → (bubblePass l j m).getD q dSong = l.getD q dSong) ∧
    (∀ q : Nat, m < q → (bubblePass l j m).getD q dSong = l.getD q dSong) ∧
    (∀ q : Nat, q ≤ m → ∃ p : Nat, p ≤ m ∧
      (bubblePass l j m).getD q dSong = l.getD p dSong) ∧
    (∀ q : Nat, q ≤ m →
      SLe ((bubblePass l j m).getD q dSong) ((bubblePass l j m).getD m dSong)) := by
  intro fuel
  induction fuel with
  | zero =>
      intro l j m hf hjm hml hk hpre
      have hjm' : j = m := by omega
      rw [bubblePass, if_neg (by omega)]
      subst hjm'
      exact ⟨List.Perm.refl l, fun q _ => rfl, fun q _ => rfl,
        fun q hq => ⟨q, hq, rfl⟩, fun q hq => hpre q hq⟩
  | succ e ih =>
      intro l j m hf hjm hml hk hpre
      have hkey : ∀ q : Nat, q < l.length → (l.getD q dSong).key = k :=
        fun q hq => hk _ (getD_mem_of_lt l q hq)
      by_cases hin : j < m
      · by_cases hcmp : songGt (l.getD j dSong) (l.getD (j + 1) dSong) = true
        · have hstep : bubblePass l j m = bubblePass (swapL l j (j + 1)) (j + 1) m := by
            rw [bubblePass, if_pos hin, if_pos hcmp]
          rw [hstep]
          have hsl : (swapL l j (j + 1)).length = l.length := swapL_length l j (j + 1)
          have hfst : (swapL l j (j + 1)).getD j dSong = l.getD (j + 1) dSong :=
            swapL_getD_fst l j (j + 1) (by omega) (by omega)
          have hsnd : (swapL l j (j + 1)).getD (j + 1) dSong = l.getD j dSong :=
            swapL_getD_snd l j (j + 1) (by omega) (by omega)
          have hoth : ∀ q : Nat, q ≠ j → q ≠ j + 1 →
              (swapL l j (j + 1)).getD q dSong = l.getD q dSong :=
            fun q h1 h2 => swapL_getD_other l j (j + 1) q (Ne.symm h1) (Ne.symm h2)
          have hjle : SLe (l.getD (j + 1) dSong) (l.getD j dSong) :=
            keys_lt_le (hkey (j + 1) (by omega)) (hkey j (by omega)) hcmp
          have hpre' : ∀ q : Nat, q ≤ j + 1 →
              SLe ((swapL l j (j + 1)).getD q dSong)
                ((swapL l j (j + 1)).getD (j + 1) dSong) := by
            intro q hq
            rw [hsnd]
            by_cases hq1 : q = j + 1
            · rw [hq1, hsnd]
              exact SLe_refl _
            · by_cases hq2 : q = j
              · rw [hq2, hfst]
                exact hjle
              · rw [hoth q hq2 hq1]
                exact hpre q (by omega)
          obtain ⟨r1, r2, r3, r4, r5⟩ := ih (swapL l j (j + 1)) (j + 1) m (by omega)
            (by omega) (by omega)
            (keys_of_perm (swapL_perm l j (j + 1) (by omega) (by omega)) hk) hpre'
          refine ⟨r1.trans (swapL_perm l j (j + 1) (by omega) (by omega)), ?_, ?_,
            ?_, r5⟩
          · intro q hq
            rw [r2 q (by omega), hoth q (by omega) (by omega)]
          · intro q hq
            rw [r3 q hq, hoth q (by omega) (by omega)]
          · intro q hq
            obtain ⟨p, hp, he⟩ := r4 q hq
            by_cases hp1 : p = j
            · exact ⟨j + 1, by omega, by rw [he, hp1, hfst]⟩
            · by_cases hp2 : p = j + 1
              · exact ⟨j, by omega, by rw [he, hp2, hsnd]⟩
              · exact ⟨p, hp, by rw [he, hoth p hp1 hp2]⟩
        · have hstep : bubblePass l j m = bubblePass l (j + 1) m := by
            rw [bubblePass, if_pos hin, if_neg hcmp]
          rw [hstep]
          have hjle : SLe (l.getD j dSong) (l.getD (j + 1) dSong) :=
            keys_not_lt_le (hkey (j + 1) (by omega)) (hkey j (by omega))
              (Bool.of_not_eq_true hcmp)
          have hpre' : ∀ q : Nat, q ≤ j + 1 →
              SLe (l.getD q dSong) (l.getD (j + 1) dSong) := by
            intro q hq
            by_cases hq1 : q = j + 1
            · rw [hq1]
              exact SLe_refl _
            · exact SLe_trans_g (hpre q (by omega)) hjle
          obtain ⟨r1, r2, r3, r4, r5⟩ := ih l (j + 1) m (by omega) (by omega) hml
            hk hpre'
          exact ⟨r1, fun q hq => r2 q (by omega), r3, r4, r5⟩
      · have hjm' : j = m := by omega
        rw [bubblePass, if_neg hin]
        subst hjm'
        exact ⟨List.Perm.refl l, fun q _ => rfl, fun q _ => rfl,
          fun q hq => ⟨q, hq, rfl⟩, fun q hq => hpre q hq⟩

/-- Supporting lemma: the bubble outer loop grows a settled dominating tail
and ends sorted. -/
theorem bubbleLoop_spec (k : SongKey) : ∀ (fuel : Nat) (l : List Song) (n i : Nat),
    (n - 1) - i ≤ fuel → n = l.length → (∀ y ∈ l, y.key = k) →
    (∀ p q : Nat, p < q → q < n → n ≤ q + i →
      SLe (l.getD p dSong) (l.getD q dSong)) →
    (bubbleLoop l n i).Perm l ∧ List.Sorted SLe (bubbleLoop l n i) := by
  intro fuel
  induction fuel with
  | zero =>
      intro l n i hf hn hk hinv
      rw [bubbleLoop, if_neg (by omega)]
      exact ⟨List.Perm.refl l,
        (sorted_iff_getD l).mpr (fun p q hpq hq => hinv p q hpq (by omega) (by omega))⟩
  | succ e ih =>
      intro l n i hf hn hk hinv
      by_cases hin : i < n - 1
      · have hstep : bubbleLoop l n i = bubbleLoop (bubblePass l 0 (n - i - 1)) n
            (i + 1) := by
          rw [bubbleLoop, if_pos hin]
        rw [hstep]
        obtain ⟨r1, r2, r3, r4, r5⟩ := bubblePass_spec k (n - i - 1) l 0 (n - i - 1)
          (by omega) (by omega) (by omega) hk (fun q hq => by
            have hq0 : q = 0 := by omega
            rw [hq0]
            exact SLe_refl _)
        have hinv' : ∀ p q : Nat, p < q → q < n → n ≤ q + (i + 1) →
            SLe ((bubblePass l 0 (n - i - 1)).getD p dSong)
              ((bubblePass l 0 (n - i - 1)).getD q dSong) := by
          intro p q hpq hqn hqi
          by_cases hqold : n ≤ q + i
          · rw [r3 q (by omega)]
            by_cases hpm : p ≤ n - i - 1
            · obtain ⟨p2, hp2, he⟩ := r4 p hpm
              rw [he]
              exact hinv p2 q (by omega) hqn hqold
            · rw [r3 p (by omega)]
              exact hinv p q hpq hqn hqold
          · have hq : q = n - i - 1 := by omega
            rw [hq]
            exact r5 p (by omega)
        obtain ⟨hp2, hs2⟩ := ih (bubblePass l 0 (n - i - 1)) n (i + 1) (by omega)
          (hn.trans r1.length_eq.symm) (keys_of_perm r1 hk) hinv'
        exact ⟨hp2.trans r1, hs2⟩
      · rw [bubbleLoop, if_neg hin]
        exact ⟨List.Perm.refl l,
          (sorted_iff_getD l).mpr (fun p q hpq hq =>
            hinv p q hpq (by omega) (by omega))⟩

/-- Supporting lemma: bubble sort permutes its input and sorts any common-key
list. -/
theorem bubbleSort_perm_sorted (k : SongKey) (l : List Song) (hk : SameKey l k) :
    (bubbleSort l).Perm l ∧ List.Sorted SLe (bubbleSort l) := by
  rw [bubbleSort]
  exact bubbleLoop_spec k l.length l l.length 0 (by omega) rfl hk
    (fun p q hpq hq hqi => absurd hqi (by omega))

/-- Supporting lemma: the optimized bubble pass performs exactly the plain
bubble pass on the list; the flag does not influence the swaps. -/
theorem obPass_fst : ∀ (fuel : Nat) (l : List Song) (j m : Nat) (sw : Bool),
    m - j ≤ fuel → (obPass l j m sw).1 = bubblePass l j m := by
  intro fuel
  induction fuel with
  | zero =>
      intro l j m sw hf
      rw [obPass, if_neg (by omega), bubblePass, if_neg (by omega)]
  | succ e ih =>
      intro l j m sw hf
      by_cases hin : j < m
      · by_cases hcmp : songGt (l.getD j dSong) (l.getD (j + 1) dSong) = true
        · rw [obPass, if_pos hin, if_pos hcmp, bubblePass, if_pos hin, if_pos hcmp]
          exact ih (swapL l j (j + 1)) (j + 1) m true (by omega)
        · rw [obPass, if_pos hin, if_neg hcmp, bubblePass, if_pos hin, if_neg hcmp]
          exact ih l (j + 1) m sw (by omega)
      · rw [obPass, if_neg hin, bubblePass, if_neg hin]

/-- Supporting lemma: when the optimized bubble pass reports no swap, it was
entered with a clear flag, changed nothing, and certifies every adjacent
window pair as non-descending. -/
theorem obPass_flag : ∀ (fuel : Nat) (l : List Song) (j m : Nat) (sw : Bool),
    m - j ≤ fuel → (obPass l j m sw).2 = false →
    sw = false ∧ (obPass l j m sw).1 = l ∧
    (∀ q : Nat, j ≤ q → q < m →
      songGt (l.getD q dSong) (l.getD (q + 1) dSong) = false) := by
  intro fuel
  induction fuel with
  | zero =>
      intro l j m sw hf hfl
      rw [obPass, if_neg (by omega)] at hfl ⊢
      exact ⟨hfl, rfl, fun q h1 h2 => absurd (h1.trans_lt h2) (by omega)⟩
  | succ e ih =>
      intro l j m sw hf hfl
      by_cases hin : j < m
      · by_cases hcmp : songGt (l.getD j dSong) (l.getD (j + 1) dSong) = true
        · rw [obPass, if_pos hin, if_pos hcmp] at hfl
          obtain ⟨hsw, _, _⟩ := ih (swapL l j (j + 1)) (j + 1) m true (by omega) hfl
          exact absurd hsw (by simp)
        · rw [obPass, if_pos hin, if_neg hcmp] at hfl ⊢
          obtain ⟨hsw, he, hadj⟩ := ih l (j + 1) m sw (by omega) hfl
          refine ⟨hsw, he, ?_⟩
          intro q h1 h2
          rcases Nat.lt_or_eq_of_le h1 with h | h
          · exact hadj q (by omega) h2
          · rw [← h]
            exact Bool.of_not_eq_true hcmp
      · rw [obPass, if_neg hin] at hfl ⊢
        exact ⟨hfl, rfl, fun q h1 h2 => absurd (h1.trans_lt h2) hin⟩

/-- Supporting lemma: the optimized bubble outer loop grows a settled
dominating tail and ends sorted, including at the early exit, where the
clean pass certifies the list sorted. -/
theorem obLoop_spec (k : SongKey) : ∀ (fuel : Nat) (l : List Song) (n i : Nat),
    (n - 1) - i ≤ fuel → n = l.length → (∀ y ∈ l, y.key = k) →
    (∀ p q : Nat, p < q → q < n → n ≤ q + i →
      SLe (l.getD p dSong) (l.getD q dSong)) →
    (obLoop l n i).Perm l ∧ List.Sorted SLe (obLoop l n i) := by
  intro fuel
  induction fuel with
  | zero =>
      intro l n i hf hn hk hinv
      rw [obLoop, if_neg (by omega)]
      exact ⟨List.Perm.refl l,
        (sorted_iff_getD l).mpr (fun p q hpq hq => hinv p q hpq (by omega) (by omega))⟩
  | succ e ih =>
      intro l n i hf hn hk hinv
      have hkey : ∀ q : Nat, q < l.length → (l.getD q dSong).key = k :=
        fun q hq => hk _ (getD_mem_of_lt l q hq)
      by_cases hin : i < n - 1
      · by_cases hfl : (obPass l 0 (n - i - 1) false).2 = true
        · have hstep : obLoop l n i = obLoop (obPass l 0 (n - i - 1) false).1 n
              (i + 1) := by
            rw [obLoop, if_pos hin, if_pos hfl]
          rw [hstep, obPass_fst (n - i - 1) l 0 (n - i - 1) false (by omega)]
          obtain ⟨r1, r2, r3, r4, r5⟩ := bubblePass_spec k (n - i - 1) l 0
            (n - i - 1) (by omega) (by omega) (by omega) hk (fun q hq => by
              have hq0 : q = 0 := by omega
              rw [hq0]
              exact SLe_refl _)
          have hinv' : ∀ p q : Nat, p < q → q < n → n ≤ q + (i + 1) →
              SLe ((bubblePass l 0 (n - i - 1)).getD p dSong)
                ((bubblePass l 0 (n - i - 1)).getD q dSong) := by
            intro p q hpq hqn hqi
            by_cases hqold : n ≤ q + i
            · rw [r3 q (by omega)]
              by_cases hpm : p ≤ n - i - 1
              · obtain ⟨p2, hp2, he⟩ := r4 p hpm
                rw [he]
                exact hinv p2 q (by omega) hqn hqold
              · rw [r3 p (by omega)]
                exact hinv p q hpq hqn hqold
            · have hq : q = n - i - 1 := by omega
              rw [hq]
              exact r5 p (by omega)
          obtain ⟨hp2, hs2⟩ := ih (bubblePass l 0 (n - i - 1)) n (i + 1) (by omega)
            (hn.trans r1.length_eq.symm) (keys_of_perm r1 hk) hinv'
          exact ⟨hp2.trans r1, hs2⟩
        · have hstep : obLoop l n i = (obPass l 0 (n - i - 1) false).1 := by
            rw [obLoop, if_pos hin, if_neg hfl]
          obtain ⟨_, he, hadj⟩ := obPass_flag (n - i - 1) l 0 (n - i - 1) false
            (by omega) (Bool.of_not_eq_true hfl)
          rw [hstep, he]
          refine ⟨List.Perm.refl l, (sorted_iff_getD l).mpr ?_⟩
          intro p q hpq hq
          by_cases hqold : n ≤ q + i
          · exact hinv p q hpq (by omega) hqold
          · refine chain_le l (n - i - 1) ?_ q p q (by omega) hpq (by omega)
            intro r hr
            exact keys_not_lt_le (hkey (r + 1) (by omega)) (hkey r (by omega))
              (hadj r (by omega) hr)
      · rw [obLoop, if_neg hin]
        exact ⟨List.Perm.refl l,
          (sorted_iff_getD l).mpr (fun p q hpq hq =>
            hinv p q hpq (by omega) (by omega))⟩

/-- Supporting lemma: optimized bubble sort permutes its input and sorts any
common-key list. -/
theorem optimizedBubbleSort_perm_sorted (k : SongKey) (l : List Song)
    (hk : SameKey l k) :
    (optimizedBubbleSort l).Perm l ∧ List.Sorted SLe (optimizedBubbleSort l) := by
  rw [optimizedBubbleSort]
  exact obLoop_spec k l.length l l.length 0 (by omega) rfl hk
    (fun p q hpq hq hqi => absurd hqi (by omega))

/-- Supporting lemma: full specification of the cocktail forward pass: it
permutes the list, touches only the window [i, stop], fills the window from
the window, and leaves a maximum of everything below stop at slot stop,
provided slot i already tops the prefix. -/
theorem cfLoop_spec (k : SongKey) : ∀ (fuel : Nat) (l : List Song) (i : Nat)
    (stop : Int) (sw : Bool), (stop - i).toNat ≤ fuel → (i : Int) ≤ stop →
    stop < (l.length : Int) → (∀ y ∈ l, y.key = k) →
    (∀ q : Nat, q ≤ i → SLe (l.getD q dSong) (l.getD i dSong)) →
    (cfLoop l i stop sw).1.Perm l ∧
    (∀ q : Nat, q < i → (cfLoop l i stop sw).1.getD q dSong = l.getD q dSong) ∧
    (∀ q : Nat, stop < (q : Int) →
      (cfLoop l i stop sw).1.getD q dSong = l.getD q dSong) ∧
    (∀ q : Nat, i ≤ q → (q : Int) ≤ stop → ∃ p : Nat, i ≤ p ∧ (p : Int) ≤ stop ∧
      (cfLoop l i stop sw).1.getD q dSong = l.getD p dSong) ∧
    (∀ q : Nat, (q : Int) ≤ stop →
      SLe ((cfLoop l i stop sw).1.getD q dSong)
        ((cfLoop l i stop sw).1.getD stop.toNat dSong)) := by
  intro fuel
  induction fuel with
  | zero =>
      intro l i stop sw hf his hsl hk hpre
      rw [cfLoop, if_neg (by omega)]
      have est : stop.toNat = i := by omega
      refine ⟨List.Perm.refl l, fun q _ => rfl, fun q _ => rfl,
        fun q h1 h2 => ⟨q, h1, h2, rfl⟩, ?_⟩
      intro q hq
      rw [est]
      exact hpre q (by omega)
  | succ e ih =>
      intro l i stop sw hf his hsl hk hpre
      have hkey : ∀ q : Nat, q < l.length → (l.getD q dSong).key = k :=
        fun q hq => hk _ (getD_mem_of_lt l q hq)
      by_cases hin : (i : Int) < stop
      · by_cases hcmp : songGt (l.getD i dSong) (l.getD (i + 1) dSong) = true
        · have hstep : cfLoop l i stop sw = cfLoop (swapL l i (i + 1)) (i + 1)
              stop true := by
            rw [cfLoop, if_pos hin, if_pos hcmp]
          rw [hstep]
          have hfst : (swapL l i (i + 1)).getD i dSong = l.getD (i + 1) dSong :=
            swapL_getD_fst l i (i + 1) (by omega) (by omega)
          have hsnd : (swapL l i (i + 1)).getD (i + 1) dSong = l.getD i dSong :=
            swapL_getD_snd l i (i + 1) (by omega) (by omega)
          have hoth : ∀ q : Nat, q ≠ i → q ≠ i + 1 →
              (swapL l i (i + 1)).getD q dSong = l.getD q dSong :=
            fun q h1 h2 => swapL_getD_other l i (i + 1) q (Ne.symm h1) (Ne.symm h2)
          have hjle : SLe (l.getD (i + 1) dSong) (l.getD i dSong) :=
            keys_lt_le (hkey (i + 1) (by omega)) (hkey i (by omega)) hcmp
          have hpre' : ∀ q : Nat, q ≤ i + 1 →
              SLe ((swapL l i (i + 1)).getD q dSong)
                ((swapL l i (i + 1)).getD (i + 1) dSong) := by
            intro q hq
            rw [hsnd]
            by_cases hq1 : q = i + 1
            · rw [hq1, hsnd]
              exact SLe_refl _
            · by_cases hq2 : q = i
              · rw [hq2, hfst]
                exact hjle
              · rw [hoth q hq2 hq1]
                exact hpre q (by omega)
          obtain ⟨r1, r2, r3, r4, r5⟩ := ih (swapL l i (i + 1)) (i + 1) stop true
            (by omega) (by omega) (by rw [swapL_length]; exact hsl)
            (keys_of_perm (swapL_perm l i (i + 1) (by omega) (by omega)) hk) hpre'
          refine ⟨r1.trans (swapL_perm l i (i + 1) (by omega) (by omega)), ?_, ?_,
            ?_, r5⟩
          · intro q hq
            rw [r2 q (by omega), hoth q (by omega) (by omega)]
          · intro q hq
            rw [r3 q hq, hoth q (by omega) (by omega)]
          · intro q hq1 hq2
            by_cases hqi : q = i
            · refine ⟨i + 1, by omega, by omega, ?_⟩
              rw [hqi, r2 i (by omega), hfst]
            · obtain ⟨p, hp1, hp2, he⟩ := r4 q (by omega) hq2
              by_cases hpi : p = i + 1
              · exact ⟨i, by omega, by omega, by rw [he, hpi, hsnd]⟩
              · exact ⟨p, by omega, hp2, by rw [he, hoth p (by omega) hpi]⟩
        · have hstep : cfLoop l i stop sw = cfLoop l (i + 1) stop sw := by
            rw [cfLoop, if_pos hin, if_neg hcmp]
          rw [hstep]
          have hjle : SLe (l.getD i dSong) (l.getD (i + 1) dSong) :=
            keys_not_lt_le (hkey (i + 1) (by omega)) (hkey i (by omega))
              (Bool.of_not_eq_true hcmp)
          have hpre' : ∀ q : Nat, q ≤ i + 1 →
              SLe (l.getD q dSong) (l.getD (i + 1) dSong) := by
            intro q hq
            by_cases hq1 : q = i + 1
            · rw [hq1]
              exact SLe_refl _
            · exact SLe_trans_g (hpre q (by omega)) hjle
          obtain ⟨r1, r2, r3, r4, r5⟩ := ih l (i + 1) stop sw (by omega) (by omega)
            hsl hk hpre'
          refine ⟨r1, fun q hq => r2 q (by omega), r3, ?_, r5⟩
          intro q hq1 hq2
          by_cases hqi : q = i
          · refine ⟨i, by omega, by omega, ?_⟩
            rw [hqi, r2 i (by omega)]
          · obtain ⟨p, hp1, hp2, he⟩ := r4 q (by omega) hq2
            exact ⟨p, by omega, hp2, he⟩
      · rw [cfLoop, if_neg hin]
        have est : stop.toNat = i := by omega
        refine ⟨List.Perm.refl l, fun q _ => rfl, fun q _ => rfl,
          fun q h1 h2 => ⟨q, h1, h2, rfl⟩, ?_⟩
        intro q hq
        rw [est]
        exact hpre q (by omega)

/-- Supporting lemma: when the cocktail forward pass reports no swap, it was
entered with a clear flag, changed nothing, and certifies every adjacent
window pair as non-descending. -/
theorem cfLoop_flag : ∀ (fuel : Nat) (l : List Song) (i : Nat) (stop : Int)
    (sw : Bool), (stop - i).toNat ≤ fuel → (cfLoop l i stop sw).2 = false →
    sw = false ∧ (cfLoop l i stop sw).1 = l ∧
    (∀ q : Nat, i ≤ q → (q : Int) < stop →
      songGt (l.getD q dSong) (l.getD (q + 1) dSong) = false) := by
  intro fuel
  induction fuel with
  | zero =>
      intro l i stop sw hf hfl
      rw [cfLoop, if_neg (by omega)] at hfl ⊢
      exact ⟨hfl, rfl, fun q h1 h2 => absurd h2 (by omega)⟩
  | succ e ih =>
      intro l i stop sw hf hfl
      by_cases hin : (i : Int) < stop
      · by_cases hcmp : songGt (l.getD i dSong) (l.getD (i + 1) dSong) = true
        · rw [cfLoop, if_pos hin, if_pos hcmp] at hfl
          obtain ⟨hsw, _, _⟩ := ih (swapL l i (i + 1)) (i + 1) stop true (by omega)
            hfl
          exact absurd hsw (by simp)
        · rw [cfLoop, if_pos hin, if_neg hcmp] at hfl ⊢
          obtain ⟨hsw, he, hadj⟩ := ih l (i + 1) stop sw (by omega) hfl
          refine ⟨hsw, he, ?_⟩
          intro q h1 h2
          rcases Nat.lt_or_eq_of_le h1 with h | h
          · exact hadj q (by omega) h2
          · rw [← h]
            exact Bool.of_not_eq_true hcmp
      · rw [cfLoop, if_neg hin] at hfl ⊢
        exact ⟨hfl, rfl, fun q h1 h2 => absurd h2 (by omega)⟩

/-- Supporting lemma: full specification of the cocktail backward pass: it
permutes the list, touches only the window [start, i + 1], fills the window
from the window, and leaves a minimum of the processed range at slot start,
provided slot i + 1 already bottoms the processed suffix up to top. -/
theorem cbLoop_spec (k : SongKey) : ∀ (fuel : Nat) (l : List Song) (i : Int)
    (start : Nat) (sw : Bool) (top : Nat), (i + 1 - start).toNat ≤ fuel →
    (start : Int) - 1 ≤ i → i + 1 ≤ (top : Int) → top < l.length →
    (∀ y ∈ l, y.key = k) →
    (∀ q : Nat, i + 1 ≤ (q : Int) → q ≤ top →
      SLe (l.getD (i + 1).toNat dSong) (l.getD q dSong)) →
    (cbLoop l i start sw).1.Perm l ∧
    (∀ q : Nat, q < start → (cbLoop l i start sw).1.getD q dSong = l.getD q dSong) ∧
    (∀ q : Nat, i + 1 < (q : Int) →
      (cbLoop l i start sw).1.getD q dSong = l.getD q dSong) ∧
    (∀ q : Nat, start ≤ q → (q : Int) ≤ i + 1 → ∃ p : Nat, start ≤ p ∧
      (p : Int) ≤ i + 1 ∧ (cbLoop l i start sw).1.getD q dSong = l.getD p dSong) ∧
    (∀ q : Nat, start ≤ q → q ≤ top →
      SLe ((cbLoop l i start sw).1.getD start dSong)
        ((cbLoop l i start sw).1.getD q dSong)) := by
  intro fuel
  induction fuel with
  | zero =>
      intro l i start sw top hf hsi hit htl hk hpre
      rw [cbLoop, if_neg (by omega)]
      have est : (i + 1).toNat = start := by omega
      refine ⟨List.Perm.refl l, fun q _ => rfl, fun q _ => rfl,
        fun q h1 h2 => ⟨q, h1, h2, rfl⟩, ?_⟩
      intro q hq1 hq2
      have := hpre q (by omega) hq2
      rwa [est] at this
  | succ e ih =>
      intro l i start sw top hf hsi hit htl hk hpre
      have hkey : ∀ q : Nat, q < l.length → (l.getD q dSong).key = k :=
        fun q hq => hk _ (getD_mem_of_lt l q hq)
      have ej : (i + 1).toNat = i.toNat + 1 ∨ True := Or.inr trivial
      by_cases hin : (start : Int) ≤ i
      · have ejj : (i + 1).toNat = i.toNat + 1 := by omega
        by_cases hcmp : songGt (l.getD i.toNat dSong) (l.getD (i.toNat + 1) dSong)
            = true
        · have hstep : cbLoop l i start sw
              = cbLoop (swapL l i.toNat (i.toNat + 1)) (i - 1) start true := by
            rw [cbLoop, if_pos hin, if_pos hcmp]
          rw [hstep]
          have hfst : (swapL l i.toNat (i.toNat + 1)).getD i.toNat dSong
              = l.getD (i.toNat + 1) dSong :=
            swapL_getD_fst l i.toNat (i.toNat + 1) (by omega) (by omega)
          have hsnd : (swapL l i.toNat (i.toNat + 1)).getD (i.toNat + 1) dSong
              = l.getD i.toNat dSong :=
            swapL_getD_snd l i.toNat (i.toNat + 1) (by omega) (by omega)
          have hoth : ∀ q : Nat, q ≠ i.toNat → q ≠ i.toNat + 1 →
              (swapL l i.toNat (i.toNat + 1)).getD q dSong = l.getD q dSong :=
            fun q h1 h2 =>
              swapL_getD_other l i.toNat (i.toNat + 1) q (Ne.symm h1) (Ne.symm h2)
          have hjle : SLe (l.getD (i.toNat + 1) dSong) (l.getD i.toNat dSong) :=
            keys_lt_le (hkey (i.toNat + 1) (by omega)) (hkey i.toNat (by omega)) hcmp
          have hpre' : ∀ q : Nat, i - 1 + 1 ≤ (q : Int) → q ≤ top →
              SLe ((swapL l i.toNat (i.toNat + 1)).getD (i - 1 + 1).toNat dSong)
                ((swapL l i.toNat (i.toNat + 1)).getD q dSong) := by
            intro q hq1 hq2
            have est : (i - 1 + 1).toNat = i.toNat := by omega
            rw [est, hfst]
            by_cases hq3 : q = i.toNat
            · rw [hq3, hfst]
              exact SLe_refl _
            · by_cases hq4 : q = i.toNat + 1
              · rw [hq4, hsnd]
                exact hjle
              · rw [hoth q hq3 hq4]
                have := hpre q (by omega) hq2
                rwa [ejj] at this
          obtain ⟨r1, r2, r3, r4, r5⟩ := ih (swapL l i.toNat (i.toNat + 1)) (i - 1)
            start true top (by omega) (by omega) (by omega)
            (by rw [swapL_length]; exact htl)
            (keys_of_perm (swapL_perm l i.toNat (i.toNat + 1) (by omega) (by omega))
              hk) hpre'
          refine ⟨r1.trans (swapL_perm l i.toNat (i.toNat + 1) (by omega) (by omega)),
            ?_, ?_, ?_, r5⟩
          · intro q hq
            rw [r2 q hq, hoth q (by omega) (by omega)]
          · intro q hq
            rw [r3 q (by omega), hoth q (by omega) (by omega)]
          · intro q hq1 hq2
            by_cases hq3 : (q : Int) ≤ i
            · obtain ⟨p, hp1, hp2, he⟩ := r4 q hq1 (by omega)
              by_cases hp3 : p = i.toNat
              · refine ⟨i.toNat + 1, by omega, by omega, ?_⟩
                rw [he, hp3, hfst]
              · exact ⟨p, hp1, by omega, by rw [he, hoth p hp3 (by omega)]⟩
            · have hq4 : q = i.toNat + 1 := by omega
              refine ⟨i.toNat, by omega, by omega, ?_⟩
              rw [r3 q (by omega), hq4, hsnd]
        · have hstep : cbLoop l i start sw = cbLoop l (i - 1) start sw := by
            rw [cbLoop, if_pos hin, if_neg hcmp]
          rw [hstep]
          have hjle : SLe (l.getD i.toNat dSong) (l.getD (i.toNat + 1) dSong) :=
            keys_not_lt_le (hkey (i.toNat + 1) (by omega)) (hkey i.toNat (by omega))
              (Bool.of_not_eq_true hcmp)
          have hpre' : ∀ q : Nat, i - 1 + 1 ≤ (q : Int) → q ≤ top →
              SLe (l.getD (i - 1 + 1).toNat dSong) (l.getD q dSong) := by
            intro q hq1 hq2
            have est : (i - 1 + 1).toNat = i.toNat := by omega
            rw [est]
            by_cases hq3 : q = i.toNat
            · rw [hq3]
              exact SLe_refl _
            · refine SLe_trans_g hjle ?_
              have := hpre q (by omega) hq2
              rwa [ejj] at this
          obtain ⟨r1, r2, r3, r4, r5⟩ := ih l (i - 1) start sw top (by omega)
            (by omega) (by omega) htl hk hpre'
          refine ⟨r1, r2, ?_, ?_, r5⟩
          · intro q hq
            exact r3 q (by omega)
          · intro q hq1 hq2
            by_cases hq3 : (q : Int) ≤ i
            · obtain ⟨p, hp1, hp2, he⟩ := r4 q hq1 (by omega)
              exact ⟨p, hp1, by omega, he⟩
            · exact ⟨q, hq1, hq2, r3 q (by omega)⟩
      · rw [cbLoop, if_neg hin]
        have est : (i + 1).toNat = start := by omega
        refine ⟨List.Perm.refl l, fun q _ => rfl, fun q _ => rfl,
          fun q h1 h2 => ⟨q, h1, h2, rfl⟩, ?_⟩
        intro q hq1 hq2
        have := hpre q (by omega) hq2
        rwa [est] at this

/-- Supporting lemma: when the cocktail backward pass reports no swap, it was
entered with a clear flag, changed nothing, and certifies every adjacent
window pair as non-descending. -/
theorem cbLoop_flag : ∀ (fuel : Nat) (l : List Song) (i : Int) (start : Nat)
    (sw : Bool), (i + 1 - start).toNat ≤ fuel → (cbLoop l i start sw).2 = false →
    sw = false ∧ (cbLoop l i start sw).1 = l ∧
    (∀ q : Nat, start ≤ q → (q : Int) ≤ i →
      songGt (l.getD q dSong) (l.getD (q + 1) dSong) = false) := by
  intro fuel
  induction fuel with
  | zero =>
      intro l i start sw hf hfl
      rw [cbLoop, if_neg (by omega)] at hfl ⊢
      exact ⟨hfl, rfl, fun q h1 h2 => absurd h2 (by omega)⟩
  | succ e ih =>
      intro l i start sw hf hfl
      by_cases hin : (start : Int) ≤ i
      · by_cases hcmp : songGt (l.getD i.toNat dSong) (l.getD (i.toNat + 1) dSong)
            = true
        · rw [cbLoop, if_pos hin, if_pos hcmp] at hfl
          obtain ⟨hsw, _, _⟩ := ih (swapL l i.toNat (i.toNat + 1)) (i - 1) start true
            (by omega) hfl
          exact absurd hsw (by simp)
        · rw [cbLoop, if_pos hin, if_neg hcmp] at hfl ⊢
          obtain ⟨hsw, he, hadj⟩ := ih l (i - 1) start sw (by omega) hfl
          refine ⟨hsw, he, ?_⟩
          intro q h1 h2
          by_cases hq3 : (q : Int) ≤ i - 1
          · exact hadj q h1 hq3
          · have hq4 : q = i.toNat := by omega
            rw [hq4]
            exact Bool.of_not_eq_true hcmp
      · rw [cbLoop, if_neg hin] at hfl ⊢
        exact ⟨hfl, rfl, fun q h1 h2 => absurd h2 (by omega)⟩

/-- Supporting lemma: the cocktail outer loop with enough fuel, a settled
dominating-below prefix and a settled dominating-above tail produces a sorted
permutation. -/
theorem cocktailOuter_spec (k : SongKey) : ∀ (fuel : Nat) (l : List Song)
    (start : Nat) (stop : Int),
    (stop + 1 - start).toNat + 1 ≤ fuel → stop < (l.length : Int) →
    (∀ y ∈ l, y.key = k) →
    (∀ p q : Nat, p < q → q < l.length → p < start →
      SLe (l.getD p dSong) (l.getD q dSong)) →
    (∀ p q : Nat, p < q → q < l.length → stop < (q : Int) →
      SLe (l.getD p dSong) (l.getD q dSong)) →
    (cocktailOuter fuel l start stop).Perm l ∧
    List.Sorted SLe (cocktailOuter fuel l start stop) := by
  intro fuel
  induction fuel with
  | zero =>
      intro l start stop hf hsl hk hA hB
      exact absurd hf (by omega)
  | succ e ih =>
      intro l start stop hf hsl hk hA hB
      have hkey : ∀ q : Nat, q < l.length → (l.getD q dSong).key = k :=
        fun q hq => hk _ (getD_mem_of_lt l q hq)
      have hstep : cocktailOuter (e + 1) l start stop
          = (if (cfLoop l start stop false).2 = false then (cfLoop l start stop false).1
             else
               (if (cbLoop (cfLoop l start stop false).1 (stop - 1 - 1) start
                     false).2 = false
                then (cbLoop (cfLoop l start stop false).1 (stop - 1 - 1) start
                  false).1
                else cocktailOuter e (cbLoop (cfLoop l start stop false).1
                  (stop - 1 - 1) start false).1 (start + 1) (stop - 1))) := rfl
      rw [hstep]
      by_cases hflf : (cfLoop l start stop false).2 = false
      · rw [if_pos hflf]
        obtain ⟨_, hfe, hfadj⟩ := cfLoop_flag ((stop - start).toNat) l start stop
          false (le_refl _) hflf
        rw [hfe]
        refine ⟨List.Perm.refl l, (sorted_iff_getD l).mpr ?_⟩
        intro p q hpq hq
        by_cases hps : p < start
        · exact hA p q hpq hq hps
        · by_cases hqs : stop < (q : Int)
          · exact hB p q hpq hq hqs
          · refine chain_le l q ?_ q p q (by omega) hpq (le_refl q)
            intro r hr
            by_cases hrs : r < start
            · exact hA r (r + 1) (by omega) (by omega) hrs
            · exact keys_not_lt_le (hkey (r + 1) (by omega)) (hkey r (by omega))
                (hfadj r (by omega) (by omega))
      · rw [if_neg hflf]
        have hss : (start : Int) < stop := by
          by_contra hc
          exact hflf (by rw [cfLoop, if_neg hc])
        obtain ⟨f1, f2, f3, f4, f5⟩ := cfLoop_spec k ((stop - start).toNat) l start
          stop false (le_refl _) (by omega) hsl hk
          (fun q hq => by
            rcases Nat.lt_or_eq_of_le hq with h | h
            · exact hA q start h (by omega) h
            · rw [h]
              exact SLe_refl _)
        have hlenf : (cfLoop l start stop false).1.length = l.length := f1.length_eq
        have hkf : ∀ y ∈ (cfLoop l start stop false).1, y.key = k :=
          keys_of_perm f1 hk
        have hkeyf : ∀ q : Nat, q < l.length →
            (((cfLoop l start stop false).1.getD q dSong)).key = k :=
          fun q hq => hkf _ (getD_mem_of_lt _ q (by omega))
        have hBf : ∀ p q : Nat, p < q → q < l.length → stop - 1 < (q : Int) →
            SLe ((cfLoop l start stop false).1.getD p dSong)
              ((cfLoop l start stop false).1.getD q dSong) := by
          intro p q hpq hq hq2
          by_cases hqs : stop < (q : Int)
          · rw [f3 q hqs]
            by_cases hp1 : p < start
            · rw [f2 p hp1]
              exact hB p q hpq hq hqs
            · by_cases hp2 : (p : Int) ≤ stop
              · obtain ⟨p2, hp21, hp22, he⟩ := f4 p (by omega) hp2
                rw [he]
                exact hB p2 q (by omega) hq hqs
              · rw [f3 p (by omega)]
                exact hB p q hpq hq hqs
          · have hq4 : q = stop.toNat := by omega
            rw [hq4]
            exact f5 p (by omega)
        by_cases hflb : (cbLoop (cfLoop l start stop false).1 (stop - 1 - 1) start
            false).2 = false
        · rw [if_pos hflb]
          obtain ⟨_, hbe, hbadj⟩ := cbLoop_flag ((stop - 1 - 1 + 1 - start).toNat)
            (cfLoop l start stop false).1 (stop - 1 - 1) start false (le_refl _)
            hflb
          rw [hbe]
          refine ⟨f1, (sorted_iff_getD _).mpr ?_⟩
          intro p q hpq hq
          rw [hlenf] at hq
          by_cases hqs : stop - 1 < (q : Int)
          · exact hBf p q hpq hq hqs
          · by_cases hps : p < start
            · rw [f2 p hps]
              by_cases hqs2 : q < start
              · rw [f2 q hqs2]
                exact hA p q hpq hq hps
              · obtain ⟨p2, hp21, hp22, he⟩ := f4 q (by omega) (by omega)
                rw [he]
                exact hA p p2 (by omega) (by omega) hps
            · refine chain_le (cfLoop l start stop false).1 q ?_ q p q (by omega)
                hpq (le_refl q)
              intro r hr
              by_cases hrs : r < start
              · rw [f2 r hrs]
                by_cases hrs2 : r + 1 < start
                · rw [f2 (r + 1) hrs2]
                  exact hA r (r + 1) (by omega) (by omega) hrs
                · obtain ⟨p2, hp21, hp22, he⟩ := f4 (r + 1) (by omega) (by omega)
                  rw [he]
                  exact hA r p2 (by omega) (by omega) hrs
              · exact keys_not_lt_le (hkeyf (r + 1) (by omega)) (hkeyf r (by omega))
                  (hbadj r (by omega) (by omega))
        · rw [if_neg hflb]
          obtain ⟨b1, b2, b3, b4, b5⟩ := cbLoop_spec k
            ((stop - 1 - 1 + 1 - start).toNat) (cfLoop l start stop false).1
            (stop - 1 - 1) start false (stop - 1).toNat (le_refl _) (by omega)
            (by omega) (by rw [hlenf]; omega) hkf
            (fun q hq1 hq2 => by
              have hqe : q = (stop - 1).toNat := by omega
              have hce : (stop - 1 - 1 + 1).toNat = (stop - 1).toNat := by omega
              rw [hce, hqe]
              exact SLe_refl _)
          have hlenb : (cbLoop (cfLoop l start stop false).1 (stop - 1 - 1) start
              false).1.length = l.length := b1.length_eq.trans hlenf
          have hkb : ∀ y ∈ (cbLoop (cfLoop l start stop false).1 (stop - 1 - 1)
              start false).1, y.key = k := keys_of_perm b1 hkf
          have hval : ∀ q : Nat, q < l.length → ∃ p2 : Nat, p2 < l.length ∧
              (start ≤ p2 ∨ p2 = q) ∧
              (cbLoop (cfLoop l start stop false).1 (stop - 1 - 1) start
                false).1.getD q dSong = l.getD p2 dSong := by
            intro q hq
            by_cases hq1 : q < start
            · exact ⟨q, hq, Or.inr rfl, by rw [b2 q hq1, f2 q hq1]⟩
            · by_cases hq2 : (q : Int) ≤ stop - 1 - 1 + 1
              · obtain ⟨p1, hp11, hp12, he1⟩ := b4 q (by omega) hq2
                obtain ⟨p2, hp21, hp22, he2⟩ := f4 p1 hp11 (by omega)
                exact ⟨p2, by omega, Or.inl hp21, by rw [he1, he2]⟩
              · by_cases hq3 : (q : Int) ≤ stop
                · obtain ⟨p2, hp21, hp22, he2⟩ := f4 q (by omega) hq3
                  exact ⟨p2, by omega, Or.inl hp21,
                    by rw [b3 q (by omega), he2]⟩
                · exact ⟨q, hq, Or.inr rfl, by rw [b3 q (by omega), f3 q (by omega)]⟩
          have hA2 : ∀ p q : Nat, p < q →
              q < (cbLoop (cfLoop l start stop false).1 (stop - 1 - 1) start
                false).1.length → p < start + 1 →
              SLe ((cbLoop (cfLoop l start stop false).1 (stop - 1 - 1) start
                  false).1.getD p dSong)
                ((cbLoop (cfLoop l start stop false).1 (stop - 1 - 1) start
                  false).1.getD q dSong) := by
            intro p q hpq hq hp
            rw [hlenb] at hq
            by_cases hps : p < start
            · have hbp : (cbLoop (cfLoop l start stop false).1 (stop - 1 - 1) start
                  false).1.getD p dSong = l.getD p dSong := by
                rw [b2 p hps, f2 p hps]
              rw [hbp]
              obtain ⟨p2, hp2l, hp2d, he⟩ := hval q hq
              rw [he]
              rcases hp2d with h | h
              · exact hA p p2 (by omega) hp2l hps
              · exact hA p p2 (by omega) hp2l hps
            · have hps2 : p = start := by omega
              by_cases hqw : (q : Int) ≤ stop - 1
              · rw [hps2]
                exact b5 q (by omega) (by omega)
              · obtain ⟨p1, hp11, hp12, he⟩ := b4 start (le_refl _) (by omega)
                rw [hps2, he, b3 q (by omega)]
                exact hBf p1 q (by omega) hq (by omega)
          have hB2 : ∀ p q : Nat, p < q →
              q < (cbLoop (cfLoop l start stop false).1 (stop - 1 - 1) start
                false).1.length → stop - 1 < (q : Int) →
              SLe ((cbLoop (cfLoop l start stop false).1 (stop - 1 - 1) start
                  false).1.getD p dSong)
                ((cbLoop (cfLoop l start stop false).1 (stop - 1 - 1) start
                  false).1.getD q dSong) := by
            intro p q hpq hq hqs
            rw [hlenb] at hq
            rw [b3 q (by omega)]
            by_cases hp1 : p < start
            · rw [b2 p hp1]
              exact hBf p q hpq hq hqs
            · by_cases hp2 : (p : Int) ≤ stop - 1
              · obtain ⟨p1, hp11, hp12, he⟩ := b4 p (by omega) (by omega)
                rw [he]
                exact hBf p1 q (by omega) hq hqs
              · rw [b3 p (by omega)]
                exact hBf p q hpq hq hqs
          obtain ⟨hpr, hsr⟩ := ih (cbLoop (cfLoop l start stop false).1
            (stop - 1 - 1) start false).1 (start + 1) (stop - 1) (by omega)
            (by rw [hlenb]; omega) hkb hA2 hB2
          exact ⟨hpr.trans (b1.trans f1), hsr⟩

/-- Supporting lemma: cocktail sort permutes its input and sorts any
common-key list. -/
theorem cocktailSort_perm_sorted (k : SongKey) (l : List Song)
    (hk : SameKey l k) :
    (cocktailSort l).Perm l ∧ List.Sorted SLe (cocktailSort l) := by
  rw [cocktailSort]
  exact cocktailOuter_spec k (l.length + 1) l 0 ((l.length : Int) - 1) (by omega)
    (by omega) hk (fun p q hpq hq hp => absurd hp (by omega))
    (fun p q hpq hq hqs => absurd hqs (by omega))

/-- Supporting lemma: common-key members allow turning a failed non-strict
comparison into the reverse non-strict one. -/
theorem keys_nle_ge {k : SongKey} {a b : Song} (ha : a.key = k) (hb : b.key = k)
    (h : songLe a b = false) : SLe b a := by
  have hs : fvShape a.getKeyVal = fvShape b.getKeyVal :=
    shape_of_key_eq a b (ha.trans hb.symm)
  have h2 : (!songLt b a) = false := (songLe_eq_not_lt a b hs).symm.trans h
  have hlt : songLt b a = true := by simpa using h2
  exact keys_lt_le hb ha hlt

/-- Supporting lemma: full specification of the partition scan: it permutes
the list, touches only [i + 1, hi - 1], returns a fence below hi, keeps
everything from lo up to the fence at most the pivot, everything between
fence and hi above the pivot, and fills the window from the window. -/
theorem partLoop_spec (pivot : Song) : ∀ (fuel : Nat) (l : List Song)
    (j hi : Nat) (i : Int) (lo : Nat),
    (hi - j : Nat) ≤ fuel → lo ≤ j → j ≤ hi → hi < l.length →
    (lo : Int) - 1 ≤ i → i < (j : Int) →
    (∀ q : Nat, lo ≤ q → (q : Int) ≤ i → SLe (l.getD q dSong) pivot) →
    (∀ q : Nat, i < (q : Int) → q < j → songLe (l.getD q dSong) pivot = false) →
    (partLoop pivot l j hi i).1.Perm l ∧
    (∀ q : Nat, (q : Int) ≤ i →
      (partLoop pivot l j hi i).1.getD q dSong = l.getD q dSong) ∧
    (∀ q : Nat, hi ≤ q →
      (partLoop pivot l j hi i).1.getD q dSong = l.getD q dSong) ∧
    (i ≤ (partLoop pivot l j hi i).2 ∧ (partLoop pivot l j hi i).2 < (hi : Int)) ∧
    (∀ q : Nat, lo ≤ q → (q : Int) ≤ (partLoop pivot l j hi i).2 →
      SLe ((partLoop pivot l j hi i).1.getD q dSong) pivot) ∧
    (∀ q : Nat, (partLoop pivot l j hi i).2 < (q : Int) → q < hi →
      songLe ((partLoop pivot l j hi i).1.getD q dSong) pivot = false) ∧
    (∀ q : Nat, lo ≤ q → q < hi → ∃ p : Nat, lo ≤ p ∧ p < hi ∧
      (partLoop pivot l j hi i).1.getD q dSong = l.getD p dSong) := by
  intro fuel
  induction fuel with
  | zero =>
      intro l j hi i lo hf hlj hjh hhl hloi hij hple hpgt
      have hjh' : j = hi := by omega
      rw [partLoop, if_neg (by omega)]
      subst hjh'
      exact ⟨List.Perm.refl l, fun q _ => rfl, fun q _ => rfl, ⟨le_refl _, by omega⟩,
        hple, hpgt, fun q h1 h2 => ⟨q, h1, h2, rfl⟩⟩
  | succ e ih =>
      intro l j hi i lo hf hlj hjh hhl hloi hij hple hpgt
      by_cases hin : j < hi
      · by_cases hcmp : songLe (l.getD j dSong) pivot = true
        · have hstep : partLoop pivot l j hi i
              = partLoop pivot (swapL l (i + 1).toNat j) (j + 1) hi (i + 1) := by
            rw [partLoop, if_pos hin, if_pos hcmp]
          rw [hstep]
          have hfst : (swapL l (i + 1).toNat j).getD (i + 1).toNat dSong
              = l.getD j dSong :=
            swapL_getD_fst l (i + 1).toNat j (by omega) (by omega)
          have hsnd : (swapL l (i + 1).toNat j).getD j dSong
              = l.getD (i + 1).toNat dSong :=
            swapL_getD_snd l (i + 1).toNat j (by omega) (by omega)
          have hoth : ∀ q : Nat, q ≠ (i + 1).toNat → q ≠ j →
              (swapL l (i + 1).toNat j).getD q dSong = l.getD q dSong :=
            fun q h1 h2 =>
              swapL_getD_other l (i + 1).toNat j q (Ne.symm h1) (Ne.symm h2)
          have hple' : ∀ q : Nat, lo ≤ q → (q : Int) ≤ i + 1 →
              SLe ((swapL l (i + 1).toNat j).getD q dSong) pivot := by
            intro q h1 h2
            by_cases hq1 : q = (i + 1).toNat
            · rw [hq1, hfst]
              exact hcmp
            · rw [hoth q hq1 (by omega)]
              exact hple q h1 (by omega)
          have hpgt' : ∀ q : Nat, i + 1 < (q : Int) → q < j + 1 →
              songLe ((swapL l (i + 1).toNat j).getD q dSong) pivot = false := by
            intro q h1 h2
            by_cases hq1 : q = j
            · rw [hq1, hsnd]
              exact hpgt (i + 1).toNat (by omega) (by omega)
            · rw [hoth q (by omega) hq1]
              exact hpgt q (by omega) (by omega)
          obtain ⟨r1, r2, r3, r4, r5, r6, r7⟩ := ih (swapL l (i + 1).toNat j) (j + 1)
            hi (i + 1) lo (by omega) (by omega) (by omega)
            (by rw [swapL_length]; exact hhl) (by omega) (by omega) hple' hpgt'
          refine ⟨r1.trans (swapL_perm l (i + 1).toNat j (by omega) (by omega)),
            ?_, ?_, by omega, r5, r6, ?_⟩
          · intro q hq
            rw [r2 q (by omega), hoth q (by omega) (by omega)]
          · intro q hq
            rw [r3 q hq, hoth q (by omega) (by omega)]
          · intro q h1 h2
            obtain ⟨p, hp1, hp2, he⟩ := r7 q h1 h2
            by_cases hq1 : p = (i + 1).toNat
            · exact ⟨j, by omega, by omega, by rw [he, hq1, hfst]⟩
            · by_cases hq2 : p = j
              · exact ⟨(i + 1).toNat, by omega, by omega, by rw [he, hq2, hsnd]⟩
              · exact ⟨p, hp1, hp2, by rw [he, hoth p hq1 hq2]⟩
        · have hstep : partLoop pivot l j hi i = partLoop pivot l (j + 1) hi i := by
            rw [partLoop, if_pos hin, if_neg hcmp]
          rw [hstep]
          have hpgt' : ∀ q : Nat, i < (q : Int) → q < j + 1 →
              songLe (l.getD q dSong) pivot = false := by
            intro q h1 h2
            by_cases hq1 : q = j
            · rw [hq1]
              exact Bool.of_not_eq_true hcmp
            · exact hpgt q h1 (by omega)
          exact ih l (j + 1) hi i lo (by omega) (by omega) (by omega) hhl hloi
            (by omega) hple hpgt'
      · have hjh' : j = hi := by omega
        rw [partLoop, if_neg hin]
        subst hjh'
        exact ⟨List.Perm.refl l, fun q _ => rfl, fun q _ => rfl, ⟨le_refl _, by omega⟩,
          hple, hpgt, fun q h1 h2 => ⟨q, h1, h2, rfl⟩⟩

/-- Supporting lemma: full specification of partition: it permutes the list,
touches only the window [lo, hi], returns the pivot position inside the
window, puts the pivot value there, everything left of it in the window at
most it, everything right of it in the window at least it, and fills the
window from the window. -/
theorem partition_spec (k : SongKey) (l : List Song) (lo hi : Nat)
    (hlh : lo < hi) (hhl : hi < l.length) (hk : ∀ y ∈ l, y.key = k) :
    (partition l lo hi).1.Perm l ∧
    (∀ q : Nat, q < lo → (partition l lo hi).1.getD q dSong = l.getD q dSong) ∧
    (∀ q : Nat, hi < q → (partition l lo hi).1.getD q dSong = l.getD q dSong) ∧
    ((lo : Int) ≤ (partition l lo hi).2 ∧ (partition l lo hi).2 ≤ (hi : Int)) ∧
    (partition l lo hi).1.getD (partition l lo hi).2.toNat dSong
      = l.getD hi dSong ∧
    (∀ q : Nat, lo ≤ q → (q : Int) < (partition l lo hi).2 →
      SLe ((partition l lo hi).1.getD q dSong)
        ((partition l lo hi).1.getD (partition l lo hi).2.toNat dSong)) ∧
    (∀ q : Nat, (partition l lo hi).2 < (q : Int) → q ≤ hi →
      SLe ((partition l lo hi).1.getD (partition l lo hi).2.toNat dSong)
        ((partition l lo hi).1.getD q dSong)) ∧
    (∀ q : Nat, lo ≤ q → q ≤ hi → ∃ p : Nat, lo ≤ p ∧ p ≤ hi ∧
      (partition l lo hi).1.getD q dSong = l.getD p dSong) := by
  obtain ⟨c1, c2, c3, c4, c5, c6, c7⟩ := partLoop_spec (l.getD hi dSong)
    (hi - lo) l lo hi ((lo : Int) - 1) lo (by omega) (le_refl _) (by omega) hhl
    (le_refl _) (by omega) (fun q h1 h2 => absurd h2 (by omega))
    (fun q h1 h2 => absurd h1 (by omega))
  have hkey : ∀ q : Nat, q < l.length → (l.getD q dSong).key = k :=
    fun q hq => hk _ (getD_mem_of_lt l q hq)
  have hkc : ∀ y ∈ (partLoop (l.getD hi dSong) l lo hi ((lo : Int) - 1)).1,
      y.key = k := keys_of_perm c1 hk
  have hkeyc : ∀ q : Nat, q < l.length →
      ((partLoop (l.getD hi dSong) l lo hi ((lo : Int) - 1)).1.getD q dSong).key
        = k :=
    fun q hq => hkc _ (getD_mem_of_lt _ q (by rw [c1.length_eq]; exact hq))
  have hstep : partition l lo hi
      = (swapL (partLoop (l.getD hi dSong) l lo hi ((lo : Int) - 1)).1
          ((partLoop (l.getD hi dSong) l lo hi ((lo : Int) - 1)).2 + 1).toNat hi,
         (partLoop (l.getD hi dSong) l lo hi ((lo : Int) - 1)).2 + 1) := rfl
  rw [hstep]
  have hlenc : (partLoop (l.getD hi dSong) l lo hi ((lo : Int) - 1)).1.length
      = l.length := c1.length_eq
  have hfst : (swapL (partLoop (l.getD hi dSong) l lo hi ((lo : Int) - 1)).1
      ((partLoop (l.getD hi dSong) l lo hi ((lo : Int) - 1)).2 + 1).toNat hi).getD
      ((partLoop (l.getD hi dSong) l lo hi ((lo : Int) - 1)).2 + 1).toNat dSong
      = (partLoop (l.getD hi dSong) l lo hi ((lo : Int) - 1)).1.getD hi dSong :=
    swapL_getD_fst _ _ _ (by omega) (by omega)
  have hsnd : (swapL (partLoop (l.getD hi dSong) l lo hi ((lo : Int) - 1)).1
      ((partLoop (l.getD hi dSong) l lo hi ((lo : Int) - 1)).2 + 1).toNat hi).getD
      hi dSong
      = (partLoop (l.getD hi dSong) l lo hi ((lo : Int) - 1)).1.getD
        ((partLoop (l.getD hi dSong) l lo hi ((lo : Int) - 1)).2 + 1).toNat dSong :=
    swapL_getD_snd _ _ _ (by omega) (by omega)
  have hoth : ∀ q : Nat,
      q ≠ ((partLoop (l.getD hi dSong) l lo hi ((lo : Int) - 1)).2 + 1).toNat →
      q ≠ hi →
      (swapL (partLoop (l.getD hi dSong) l lo hi ((lo : Int) - 1)).1
        ((partLoop (l.getD hi dSong) l lo hi ((lo : Int) - 1)).2 + 1).toNat
        hi).getD q dSong
      = (partLoop (l.getD hi dSong) l lo hi ((lo : Int) - 1)).1.getD q dSong :=
    fun q h1 h2 => swapL_getD_other _ _ _ q (Ne.symm h1) (Ne.symm h2)
  have hd8 : (swapL (partLoop (l.getD hi dSong) l lo hi ((lo : Int) - 1)).1
      ((partLoop (l.getD hi dSong) l lo hi ((lo : Int) - 1)).2 + 1).toNat hi).getD
      ((partLoop (l.getD hi dSong) l lo hi ((lo : Int) - 1)).2 + 1).toNat dSong
      = l.getD hi dSong := by
    rw [hfst, c3 hi (le_refl _)]
  refine ⟨(swapL_perm _ _ _ (by omega) (by omega)).trans c1, ?_, ?_,
    by omega, hd8, ?_, ?_, ?_⟩
  · intro q hq
    rw [hoth q (by omega) (by omega), c2 q (by omega)]
  · intro q hq
    rw [hoth q (by omega) (by omega), c3 q (by omega)]
  · intro q h1 h2
    rw [hd8, hoth q (by omega) (by omega)]
    exact c5 q h1 (by omega)
  · intro q h1 h2
    rw [hd8]
    by_cases hq1 : q = hi
    · rw [hq1, hsnd]
      exact keys_nle_ge (hkeyc _ (by omega)) (hkey hi (by omega))
        (c6 _ (by omega) (by omega))
    · rw [hoth q (by omega) hq1]
      exact keys_nle_ge (hkeyc q (by omega)) (hkey hi (by omega))
        (c6 q (by omega) (by omega))
  · intro q h1 h2
    by_cases hq1 : q
        = ((partLoop (l.getD hi dSong) l lo hi ((lo : Int) - 1)).2 + 1).toNat
    · exact ⟨hi, by omega, le_refl _, by rw [hq1, hd8]⟩
    · by_cases hq2 : q = hi
      · rw [hq2, hsnd]
        by_cases hq3 : ((partLoop (l.getD hi dSong) l lo hi
            ((lo : Int) - 1)).2 + 1).toNat = hi
        · rw [hq3, c3 hi (le_refl _)]
          exact ⟨hi, by omega, le_refl _, rfl⟩
        · obtain ⟨p, hp1, hp2, he⟩ := c7 ((partLoop (l.getD hi dSong) l lo hi
            ((lo : Int) - 1)).2 + 1).toNat (by omega) (by omega)
          exact ⟨p, hp1, by omega, he⟩
      · rw [hoth q hq1 hq2]
        obtain ⟨p, hp1, hp2, he⟩ := c7 q h1 (by omega)
        exact ⟨p, hp1, by omega, he⟩

/-- Supporting lemma: full specification of the quick sort recursion: with
fuel exceeding the window size it permutes the list, touches only the window
[low, high], fills the window from the window, and sorts the window. -/
theorem quickSortAux_spec (k : SongKey) : ∀ (fuel : Nat) (l : List Song)
    (low high : Int), (high - low + 1).toNat < fuel → 0 ≤ low →
    high < (l.length : Int) → (∀ y ∈ l, y.key = k) →
    (quickSortAux fuel l low high).Perm l ∧
    (∀ q : Nat, (q : Int) < low ∨ high < (q : Int) →
      (quickSortAux fuel l low high).getD q dSong = l.getD q dSong) ∧
    (∀ q : Nat, low ≤ (q : Int) → (q : Int) ≤ high → ∃ p : Nat,
      low ≤ (p : Int) ∧ (p : Int) ≤ high ∧
      (quickSortAux fuel l low high).getD q dSong = l.getD p dSong) ∧
    (∀ p q : Nat, low ≤ (p : Int) → p < q → (q : Int) ≤ high →
      SLe ((quickSortAux fuel l low high).getD p dSong)
        ((quickSortAux fuel l low high).getD q dSong)) := by
  intro fuel
  induction fuel with
  | zero =>
      intro l low high hf h0 hsl hk
      exact absurd hf (by omega)
  | succ e ih =>
      intro l low high hf h0 hsl hk
      have hstep : quickSortAux (e + 1) l low high
          = (if low < high then
              quickSortAux e (quickSortAux e (partition l low.toNat high.toNat).1 low ((partition l low.toNat high.toNat).2 - 1)) ((partition l low.toNat high.toNat).2 + 1) high
             else l) := rfl
      rw [hstep]
      by_cases hlh : low < high
      · rw [if_pos hlh]
        have hcl : ((low.toNat : Nat) : Int) = low := by omega
        have hch : ((high.toNat : Nat) : Int) = high := by omega
        obtain ⟨d1, d2, d3, d4, d8, d5, d6, d7⟩ := partition_spec k l low.toNat
          high.toNat (by omega) (by omega) hk
        have hlen1 : (partition l low.toNat high.toNat).1.length = l.length := d1.length_eq
        have hk1 : ∀ y ∈ (partition l low.toNat high.toNat).1, y.key = k := keys_of_perm d1 hk
        obtain ⟨e1, e2, e3, e4⟩ := ih (partition l low.toNat high.toNat).1 low ((partition l low.toNat high.toNat).2 - 1) (by omega) h0
          (by rw [hlen1]; omega) hk1
        have hlen2 : (quickSortAux e (partition l low.toNat high.toNat).1 low ((partition l low.toNat high.toNat).2 - 1)).length = l.length := e1.length_eq.trans hlen1
        have hk2 : ∀ y ∈ (quickSortAux e (partition l low.toNat high.toNat).1 low ((partition l low.toNat high.toNat).2 - 1)), y.key = k := keys_of_perm e1 hk1
        obtain ⟨g1, g2, g3, g4⟩ := ih (quickSortAux e (partition l low.toNat high.toNat).1 low ((partition l low.toNat high.toNat).2 - 1)) ((partition l low.toNat high.toNat).2 + 1) high (by omega) (by omega)
          (by rw [hlen2]; omega) hk2
        have hL2r : ∀ q : Nat, (q : Int) ≤ (partition l low.toNat high.toNat).2 →
            (quickSortAux e (quickSortAux e (partition l low.toNat high.toNat).1 low ((partition l low.toNat high.toNat).2 - 1)) ((partition l low.toNat high.toNat).2 + 1) high).getD q dSong = (quickSortAux e (partition l low.toNat high.toNat).1 low ((partition l low.toNat high.toNat).2 - 1)).getD q dSong :=
          fun q hq => g2 q (Or.inl (by omega))
        have hL1pos : (quickSortAux e (partition l low.toNat high.toNat).1 low ((partition l low.toNat high.toNat).2 - 1)).getD (partition l low.toNat high.toNat).2.toNat dSong = (partition l low.toNat high.toNat).1.getD (partition l low.toNat high.toNat).2.toNat dSong :=
          e2 (partition l low.toNat high.toNat).2.toNat (Or.inr (by omega))
        have hG2 : (quickSortAux e (quickSortAux e (partition l low.toNat high.toNat).1 low ((partition l low.toNat high.toNat).2 - 1)) ((partition l low.toNat high.toNat).2 + 1) high).getD (partition l low.toNat high.toNat).2.toNat dSong = l.getD high.toNat dSong := by
          rw [hL2r (partition l low.toNat high.toNat).2.toNat (by omega), hL1pos, d8]
        have hG1 : ∀ q : Nat, low ≤ (q : Int) → (q : Int) ≤ (partition l low.toNat high.toNat).2 - 1 →
            SLe ((quickSortAux e (quickSortAux e (partition l low.toNat high.toNat).1 low ((partition l low.toNat high.toNat).2 - 1)) ((partition l low.toNat high.toNat).2 + 1) high).getD q dSong) (l.getD high.toNat dSong) := by
          intro q h1 h2
          rw [hL2r q (by omega)]
          obtain ⟨p1, hp11, hp12, he⟩ := e3 q h1 h2
          rw [he]
          have hx := d5 p1 (by omega) (by omega)
          rwa [d8] at hx
        have hG3 : ∀ q : Nat, (partition l low.toNat high.toNat).2 + 1 ≤ (q : Int) → (q : Int) ≤ high →
            SLe (l.getD high.toNat dSong) ((quickSortAux e (quickSortAux e (partition l low.toNat high.toNat).1 low ((partition l low.toNat high.toNat).2 - 1)) ((partition l low.toNat high.toNat).2 + 1) high).getD q dSong) := by
          intro q h1 h2
          obtain ⟨p1, hp11, hp12, he⟩ := g3 q h1 h2
          rw [he, e2 p1 (Or.inr (by omega))]
          have hx := d6 p1 (by omega) (by omega)
          rwa [d8] at hx
        refine ⟨g1.trans (e1.trans d1), ?_, ?_, ?_⟩
        · intro q hq
          rw [g2 q (hq.imp (fun h => by omega) id), e2 q (hq.imp id (fun h => by omega))]
          rcases hq with h | h
          · exact d2 q (by omega)
          · exact d3 q (by omega)
        · intro q h1 h2
          by_cases hq1 : (q : Int) ≤ (partition l low.toNat high.toNat).2 - 1
          · rw [hL2r q (by omega)]
            obtain ⟨p1, hp11, hp12, he⟩ := e3 q h1 hq1
            rw [he]
            obtain ⟨p2, hp21, hp22, he2⟩ := d7 p1 (by omega) (by omega)
            exact ⟨p2, by omega, by omega, he2⟩
          · by_cases hq2 : (q : Int) = (partition l low.toNat high.toNat).2
            · have hqe : q = (partition l low.toNat high.toNat).2.toNat := by omega
              rw [hqe, hG2]
              exact ⟨high.toNat, by omega, by omega, rfl⟩
            · obtain ⟨p1, hp11, hp12, he⟩ := g3 q (by omega) h2
              rw [he, e2 p1 (Or.inr (by omega))]
              obtain ⟨p2, hp21, hp22, he2⟩ := d7 p1 (by omega) (by omega)
              exact ⟨p2, by omega, by omega, he2⟩
        · intro p q hp hpq hq
          by_cases hq1 : (q : Int) ≤ (partition l low.toNat high.toNat).2 - 1
          · rw [hL2r p (by omega), hL2r q (by omega)]
            exact e4 p q hp hpq hq1
          · by_cases hq2 : (q : Int) = (partition l low.toNat high.toNat).2
            · have hqe : q = (partition l low.toNat high.toNat).2.toNat := by omega
              rw [hqe, hG2]
              exact hG1 p hp (by omega)
            · by_cases hp1 : (p : Int) ≤ (partition l low.toNat high.toNat).2 - 1
              · exact SLe_trans_g (hG1 p hp hp1) (hG3 q (by omega) hq)
              · by_cases hp2 : (p : Int) = (partition l low.toNat high.toNat).2
                · have hpe : p = (partition l low.toNat high.toNat).2.toNat := by omega
                  rw [hpe, hG2]
                  exact hG3 q (by omega) hq
                · exact g4 p q (by omega) hpq hq
      · rw [if_neg hlh]
        exact ⟨List.Perm.refl l, fun q _ => rfl,
          fun q h1 h2 => ⟨q, h1, h2, rfl⟩,
          fun p q hp hpq hq => absurd hpq (by omega)⟩

/-- Supporting lemma: quick sort permutes its input and sorts any common-key
list. -/
theorem quickSort_perm_sorted (k : SongKey) (l : List Song) (hk : SameKey l k) :
    (quickSort l).Perm l ∧ List.Sorted SLe (quickSort l) := by
  rw [quickSort]
  obtain ⟨f1, _, _, f4⟩ := quickSortAux_spec k (l.length + 1) l 0
    ((l.length : Int) - 1) (by omega) (by omega) (by omega) hk
  refine ⟨f1, (sorted_iff_getD _).mpr ?_⟩
  intro p q hpq hq
  rw [f1.length_eq] at hq
  exact f4 p q (by omega) hpq (by omega)

/-- C6 (amended): for a fixed input whose entities share one comparator key,
all eight sort strategies return ascending permutations of the input; their
outputs agree elementwise up to comparator equality; when the comparator
values are pairwise distinct, the eight outputs are identical, and sorting an
already-sorted sequence is a no-op on the value sequence. Without the
distinctness proviso the original claim fails, see the counterexample. -/
theorem C6_eight_sorts_sorted_perms_agree_distinct_keys (k : SongKey)
    (l : List Song) (hk : SameKey l k) :
    (∀ f ∈ allSorts, (f l).Perm l ∧ List.Sorted SLe (f l)) ∧
    (∀ f ∈ allSorts, ∀ g ∈ allSorts, List.Forall₂ SEqv (f l) (g l)) ∧
    (DistinctKeys l → ∀ f ∈ allSorts, ∀ g ∈ allSorts, f l = g l) ∧
    (DistinctKeys l → List.Sorted SLe l → ∀ f ∈ allSorts, f l = l) := by
  have H : ∀ f ∈ allSorts, (f l).Perm l ∧ List.Sorted SLe (f l) := by
    intro f hf
    fin_cases hf
    · exact ⟨mergeSort_perm l, mergeSort_sorted k l hk⟩
    · exact quickSort_perm_sorted k l hk
    · exact selectionSort_perm_sorted k l hk
    · exact insertionSort_perm_sorted k l hk
    · exact shellSort_perm_sorted k l hk
    · exact bubbleSort_perm_sorted k l hk
    · exact optimizedBubbleSort_perm_sorted k l hk
    · exact cocktailSort_perm_sorted k l hk
  have H2 : ∀ f ∈ allSorts, ∀ g ∈ allSorts, List.Forall₂ SEqv (f l) (g l) :=
    fun f hf g hg => sorted_perms_forall2 ((H f hf).1.trans (H g hg).1.symm)
      (H f hf).2 (H g hg).2
  refine ⟨H, H2, ?_, ?_⟩
  · intro hd f hf g hg
    exact forall2_eq_of_distinct (H2 f hf g hg)
      (fun a b ha hb he => distinct_eqv_eq hd ((H f hf).1.subset ha)
        ((H g hg).1.subset hb) he)
  · intro hd hs f hf
    exact forall2_eq_of_distinct
      (sorted_perms_forall2 (H f hf).1 (H f hf).2 hs)
      (fun a b ha hb he => distinct_eqv_eq hd ((H f hf).1.subset ha) hb he)

/-- Witness for C6 on the concrete three-song playlist of the spec
scenario. -/
theorem C6_witness : SameKey c5songs SongKey.title ∧
    ((∀ f ∈ allSorts, (f c5songs).Perm c5songs ∧ List.Sorted SLe (f c5songs)) ∧
     (∀ f ∈ allSorts, ∀ g ∈ allSorts,
       List.Forall₂ SEqv (f c5songs) (g c5songs)) ∧
     (DistinctKeys c5songs → ∀ f ∈ allSorts, ∀ g ∈ allSorts,
       f c5songs = g c5songs) ∧
     (DistinctKeys c5songs → List.Sorted SLe c5songs → ∀ f ∈ allSorts,
       f c5songs = c5songs)) :=
  ⟨by intro s hs; fin_cases hs <;> rfl,
   C6_eight_sorts_sorted_perms_agree_distinct_keys SongKey.title c5songs
     (by intro s hs; fin_cases hs <;> rfl)⟩

/-- Supporting lemma: unfolding the no-red-red check at a node. -/
theorem RR_node (c : RBColor) (l : RBTree) (s : Song) (r : RBTree) :
    noRedRedB (RBTree.node c l s r) = true ↔
      (c = RBColor.red → l.colorOf = RBColor.black ∧ r.colorOf = RBColor.black) ∧
      noRedRedB l = true ∧ noRedRedB r = true := by
  cases c <;> simp [noRedRedB, and_assoc]

/-- Supporting lemma: unfolding the black-height check at a node. -/
theorem bh_node (c : RBColor) (l : RBTree) (s : Song) (r : RBTree) (n : Nat) :
    bhOpt (RBTree.node c l s r) = some n ↔
      ∃ a, bhOpt l = some a ∧ bhOpt r = some a ∧
        n = a + (if c = RBColor.black then 1 else 0) := by
  rw [bhOpt]
  cases hl : bhOpt l with
  | none => simp
  | some a =>
      cases hr : bhOpt r with
      | none => simp
      | some b =>
          show (if a = b then some (a + (if c = RBColor.black then 1 else 0))
              else none) = some n ↔ _
          by_cases hab : a = b
          · subst hab
            rw [if_pos rfl]
            simp [eq_comm]
          · rw [if_neg hab]
            simp [hab]
            intro h
            exact absurd h.symm hab

/-- Supporting lemma: blackening a root keeps the no-red-red check. -/
theorem paintBlack_RR (t : RBTree) (h : noRedRedB t = true) :
    noRedRedB t.paintBlack = true := by
  cases t with
  | nil => exact h
  | node c l s r =>
      show noRedRedB (RBTree.node RBColor.black l s r) = true
      rw [RR_node]
      rw [RR_node] at h
      exact ⟨(fun hx => by cases hx), h.2.1, h.2.2⟩

/-- Supporting lemma: blackening a root keeps the black-height check, adding
one exactly when the root was red. -/
theorem paintBlack_bh (t : RBTree) (n : Nat) (h : bhOpt t = some n) :
    bhOpt t.paintBlack
      = some (n + (if t.colorOf = RBColor.red then 1 else 0)) := by
  cases t with
  | nil =>
      have h' : (some 0 : Option Nat) = some n := h
      have h0 : n = 0 := (Option.some_inj.mp h').symm
      subst h0
      rfl
  | node c l s r =>
      show bhOpt (RBTree.node RBColor.black l s r) = _
      rw [bh_node] at h
      obtain ⟨a, ha, hb, hn⟩ := h
      rw [bh_node]
      refine ⟨a, ha, hb, ?_⟩
      cases c <;> simp [RBTree.colorOf] at hn ⊢ <;> omega

/-- Supporting lemma: blackening a root makes the root black. -/
theorem paintBlack_color (t : RBTree) : t.paintBlack.colorOf = RBColor.black := by
  cases t <;> rfl

/-- Supporting lemma: a rebuilt parent takes the frame color. -/
theorem fillOne_color (f : RBFrame) (t : RBTree) :
    (f.fillOne t).colorOf = f.color := by
  cases hf : f.dir <;> rw [RBFrame.fillOne, hf] <;> rfl

/-- Supporting lemma: the invariant tail of a chain. -/
theorem LastB_tail (f : RBFrame) (rest : RBCtx) (h : LastB (f :: rest)) :
    LastB rest := by
  cases rest with
  | nil => trivial
  | cons g rr => exact h

/-- Supporting lemma: pushing a frame keeps the outer-frame invariant when
the chain is nonempty. -/
theorem LastB_cons (f : RBFrame) (g : RBFrame) (rest : RBCtx)
    (h : LastB (g :: rest)) : LastB (f :: g :: rest) := h

/-- Supporting lemma: a filled tree has a black root when the chain's
outermost frame is black, or for the empty chain when the plug is black. -/
theorem fill_rootBlack : ∀ (ctx : RBCtx) (t : RBTree), LastB ctx →
    (ctx = [] → t.colorOf = RBColor.black) →
    (RBTree.fill t ctx).colorOf = RBColor.black := by
  intro ctx
  induction ctx with
  | nil =>
      intro t _ h
      exact h rfl
  | cons f rest ih =>
      intro t hl _
      rw [RBTree.fill]
      cases rest with
      | nil =>
          rw [RBTree.fill, fillOne_color]
          exact hl
      | cons g rr =>
          exact ih (f.fillOne t) hl (by intro hx; cases hx)

/-- Supporting lemma: filling a valid chain with a valid subtree of the
matching black-height, black-rooted or under a black frame, yields a tree
passing the no-red-red and black-height checks. -/
theorem fill_ok : ∀ (ctx : RBCtx) (n : Nat) (t : RBTree), VC ctx n →
    noRedRedB t = true → bhOpt t = some n →
    (t.colorOf = RBColor.black ∨ ctxHeadColor ctx = RBColor.black) →
    noRedRedB (RBTree.fill t ctx) = true ∧
      bhOpt (RBTree.fill t ctx) = some (ctxBH ctx n) := by
  intro ctx
  induction ctx with
  | nil =>
      intro n t _ h1 h2 _
      exact ⟨h1, h2⟩
  | cons f rest ih =>
      intro n t hvc h1 h2 hcomp
      obtain ⟨hs1, hs2, hs3, hvr⟩ := hvc
      have hcompat : t.colorOf = RBColor.black ∨ f.color = RBColor.black := by
        rcases hcomp with h | h
        · exact Or.inl h
        · exact Or.inr h
      have h1' : noRedRedB (f.fillOne t) = true := by
        cases hd : f.dir <;> rw [RBFrame.fillOne, hd] <;> rw [RR_node]
        · refine ⟨?_, h1, hs1⟩
          intro hred
          obtain ⟨hsb, _⟩ := hs3 hred
          rcases hcompat with h | h
          · exact ⟨h, hsb⟩
          · rw [hred] at h
            cases h
        · refine ⟨?_, hs1, h1⟩
          intro hred
          obtain ⟨hsb, _⟩ := hs3 hred
          rcases hcompat with h | h
          · exact ⟨hsb, h⟩
          · rw [hred] at h
            cases h
      have h2' : bhOpt (f.fillOne t)
          = some (n + (if f.color = RBColor.black then 1 else 0)) := by
        cases hd : f.dir <;> rw [RBFrame.fillOne, hd] <;> rw [bh_node]
        · exact ⟨n, h2, hs2, rfl⟩
        · exact ⟨n, hs2, h2, rfl⟩
      have hcomp' : (f.fillOne t).colorOf = RBColor.black ∨
          ctxHeadColor rest = RBColor.black := by
        rw [fillOne_color]
        cases hc : f.color with
        | black => exact Or.inl rfl
        | red => exact Or.inr (hs3 hc).2
      rw [RBTree.fill]
      exact ih _ _ hvr h1' h2' hcomp'

/-- Supporting lemma: appending chains preserves validity when the junction
is clean. -/
theorem VC_append : ∀ (a : RBCtx) (n : Nat) (b : RBCtx), VC a n →
    VC b (ctxBH a n) →
    (∀ f, a.getLast? = some f → f.color = RBColor.red →
      ctxHeadColor b = RBColor.black) →
    VC (a ++ b) n := by
  intro a
  induction a with
  | nil =>
      intro n b _ hb _
      exact hb
  | cons f rest ih =>
      intro n b hva hvb hj
      obtain ⟨hs1, hs2, hs3, hvr⟩ := hva
      refine ⟨hs1, hs2, ?_, ?_⟩
      · intro hred
        obtain ⟨hsb, hhd⟩ := hs3 hred
        refine ⟨hsb, ?_⟩
        cases rest with
        | nil =>
            have : (f :: ([] : RBCtx)).getLast? = some f := rfl
            exact hj f this hred
        | cons g rr =>
            exact hhd
      · refine ih _ b hvr hvb ?_
        intro g hg hgr
        cases rest with
        | nil => cases hg
        | cons g2 rr =>
            refine hj g ?_ hgr
            rw [List.getLast?_cons_cons]
            exact hg

/-- Supporting lemma: the outer-frame invariant of an appended chain comes
from its nonempty right part. -/
theorem LastB_append : ∀ (a b : RBCtx), b ≠ [] → LastB b → LastB (a ++ b) := by
  intro a
  induction a with
  | nil =>
      intro b _ hb
      exact hb
  | cons f rest ih =>
      intro b hne hb
      have hr := ih b hne hb
      rw [List.cons_append]
      cases hab : rest ++ b with
      | nil =>
          rcases List.append_eq_nil.mp hab with ⟨_, h2⟩
          exact absurd h2 hne
      | cons g rr =>
          rw [hab] at hr
          exact LastB_cons f g rr hr

/-- Supporting lemma: a rebuilt parent passes the no-red-red check when its
parts do and, if red, both parts are black. -/
theorem fillOne_RR (d : RBDir) (c : RBColor) (s : Song) (sib t : RBTree)
    (h1 : noRedRedB sib = true) (h2 : noRedRedB t = true)
    (h3 : c = RBColor.red →
      sib.colorOf = RBColor.black ∧ t.colorOf = RBColor.black) :
    noRedRedB ((RBFrame.mk d c s sib).fillOne t) = true := by
  cases d
  · show noRedRedB (RBTree.node c t s sib) = true
    rw [RR_node]
    exact ⟨(fun hc => ⟨(h3 hc).2, (h3 hc).1⟩), h2, h1⟩
  · show noRedRedB (RBTree.node c sib s t) = true
    rw [RR_node]
    exact ⟨(fun hc => ⟨(h3 hc).1, (h3 hc).2⟩), h1, h2⟩

/-- Supporting lemma: a rebuilt parent's black height. -/
theorem fillOne_bh (d : RBDir) (c : RBColor) (s : Song) (sib t : RBTree)
    (n : Nat) (h1 : bhOpt sib = some n) (h2 : bhOpt t = some n) :
    bhOpt ((RBFrame.mk d c s sib).fillOne t)
      = some (n + (if c = RBColor.black then 1 else 0)) := by
  cases d
  · show bhOpt (RBTree.node c t s sib) = _
    rw [bh_node]
    exact ⟨n, h2, h1, rfl⟩
  · show bhOpt (RBTree.node c sib s t) = _
    rw [bh_node]
    exact ⟨n, h1, h2, rfl⟩

/-- Supporting lemma: the insert descent produces a valid chain around a
sentinel hole. -/
theorem insPoint_spec : ∀ (t : RBTree) (s : Song) (ctx : RBCtx) (n : Nat),
    noRedRedB t = true → bhOpt t = some n → VC ctx n →
    (t.colorOf = RBColor.red → ctxHeadColor ctx = RBColor.black) →
    VC (t.insPoint s ctx) 0 := by
  intro t
  induction t with
  | nil =>
      intro s ctx n _ h2 hvc _
      have h' : (some 0 : Option Nat) = some n := h2
      have h0 : n = 0 := (Option.some_inj.mp h').symm
      subst h0
      exact hvc
  | node c l x r ihl ihr =>
      intro s ctx n h1 h2 hvc hhd
      have hstep : RBTree.insPoint (RBTree.node c l x r) s ctx
          = if songLt s x then
              RBTree.insPoint l s (RBFrame.mk RBDir.left c x r :: ctx)
            else RBTree.insPoint r s (RBFrame.mk RBDir.right c x l :: ctx) := rfl
      rw [hstep]
      rw [RR_node] at h1
      obtain ⟨hcl, hrl, hrr⟩ := h1
      rw [bh_node] at h2
      obtain ⟨a, hal, har, hn⟩ := h2
      by_cases hlt : songLt s x = true
      · rw [if_pos hlt]
        refine ihl s _ a hrl hal ⟨hrr, har, ?_, ?_⟩ ?_
        · intro hc
          exact ⟨(hcl hc).2, hhd hc⟩
        · rw [← hn]
          exact hvc
        · intro hlc
          show c = RBColor.black
          cases hc : c with
          | black => rfl
          | red => exact absurd hlc (by rw [(hcl hc).1]; intro hx; cases hx)
      · rw [if_neg hlt]
        refine ihr s _ a hrr har ⟨hrl, hal, ?_, ?_⟩ ?_
        · intro hc
          exact ⟨(hcl hc).1, hhd hc⟩
        · rw [← hn]
          exact hvc
        · intro hrc
          show c = RBColor.black
          cases hc : c with
          | black => rfl
          | red => exact absurd hrc (by rw [(hcl hc).2]; intro hx; cases hx)

/-- Supporting lemma: the terminal insert restructuring yields a black-rooted
valid subtree one black level up. -/
theorem rbInsRestructure_ok (t : RBTree) (fp fg : RBFrame) (n : Nat)
    (htc : t.colorOf = RBColor.red) (htr : noRedRedB t = true)
    (htb : bhOpt t = some n)
    (hp1 : noRedRedB fp.sib = true) (hp2 : bhOpt fp.sib = some n)
    (hp3 : fp.sib.colorOf = RBColor.black)
    (hg1 : noRedRedB fg.sib = true) (hg2 : bhOpt fg.sib = some n)
    (hg3 : fg.sib.colorOf = RBColor.black) :
    noRedRedB (rbInsRestructure t fp fg) = true ∧
    bhOpt (rbInsRestructure t fp fg) = some (n + 1) ∧
    (rbInsRestructure t fp fg).colorOf = RBColor.black := by
  obtain ⟨fpd, fpc, fps, fpsib⟩ := fp
  obtain ⟨fgd, fgc, fgs, fgsib⟩ := fg
  cases t with
  | nil => exact absurd htc (by intro hx; cases hx)
  | node tc tl ts tr =>
      have htc2 : tc = RBColor.red := htc
      subst htc2
      rw [RR_node] at htr
      obtain ⟨hch, htl, htr2⟩ := htr
      obtain ⟨hlb, hrb⟩ := hch rfl
      rw [bh_node] at htb
      obtain ⟨a, hba, hbb, hn2⟩ := htb
      have han : a = n := by simpa using hn2.symm
      subst han
      cases fgd <;> cases fpd
      · refine ⟨?_, ?_, rfl⟩
        · show noRedRedB (RBTree.node RBColor.black (RBTree.node RBColor.red tl ts tr)
            fps (RBTree.node RBColor.red fpsib fgs fgsib)) = true
          rw [RR_node]
          refine ⟨(fun hx => by cases hx), ?_, ?_⟩
          · rw [RR_node]
            exact ⟨fun _ => ⟨hlb, hrb⟩, htl, htr2⟩
          · rw [RR_node]
            exact ⟨fun _ => ⟨hp3, hg3⟩, hp1, hg1⟩
        · show bhOpt (RBTree.node RBColor.black (RBTree.node RBColor.red tl ts tr)
            fps (RBTree.node RBColor.red fpsib fgs fgsib)) = _
          rw [bh_node]
          refine ⟨a, ?_, ?_, by simp⟩
          · rw [bh_node]
            exact ⟨a, hba, hbb, by simp⟩
          · rw [bh_node]
            exact ⟨a, hp2, hg2, by simp⟩
      · refine ⟨?_, ?_, rfl⟩
        · show noRedRedB (RBTree.node RBColor.black
            (RBTree.node RBColor.red fpsib fps tl) ts
            (RBTree.node RBColor.red tr fgs fgsib)) = true
          rw [RR_node]
          refine ⟨(fun hx => by cases hx), ?_, ?_⟩
          · rw [RR_node]
            exact ⟨fun _ => ⟨hp3, hlb⟩, hp1, htl⟩
          · rw [RR_node]
            exact ⟨fun _ => ⟨hrb, hg3⟩, htr2, hg1⟩
        · show bhOpt (RBTree.node RBColor.black
            (RBTree.node RBColor.red fpsib fps tl) ts
            (RBTree.node RBColor.red tr fgs fgsib)) = _
          rw [bh_node]
          refine ⟨a, ?_, ?_, by simp⟩
          · rw [bh_node]
            exact ⟨a, hp2, hba, by simp⟩
          · rw [bh_node]
            exact ⟨a, hbb, hg2, by simp⟩
      · refine ⟨?_, ?_, rfl⟩
        · show noRedRedB (RBTree.node RBColor.black
            (RBTree.node RBColor.red fgsib fgs tl) ts
            (RBTree.node RBColor.red tr fps fpsib)) = true
          rw [RR_node]
          refine ⟨(fun hx => by cases hx), ?_, ?_⟩
          · rw [RR_node]
            exact ⟨fun _ => ⟨hg3, hlb⟩, hg1, htl⟩
          · rw [RR_node]
            exact ⟨fun _ => ⟨hrb, hp3⟩, htr2, hp1⟩
        · show bhOpt (RBTree.node RBColor.black
            (RBTree.node RBColor.red fgsib fgs tl) ts
            (RBTree.node RBColor.red tr fps fpsib)) = _
          rw [bh_node]
          refine ⟨a, ?_, ?_, by simp⟩
          · rw [bh_node]
            exact ⟨a, hg2, hba, by simp⟩
          · rw [bh_node]
            exact ⟨a, hbb, hp2, by simp⟩
      · refine ⟨?_, ?_, rfl⟩
        · show noRedRedB (RBTree.node RBColor.black
            (RBTree.node RBColor.red fgsib fgs fpsib) fps
            (RBTree.node RBColor.red tl ts tr)) = true
          rw [RR_node]
          refine ⟨(fun hx => by cases hx), ?_, ?_⟩
          · rw [RR_node]
            exact ⟨fun _ => ⟨hg3, hp3⟩, hg1, hp1⟩
          · rw [RR_node]
            exact ⟨fun _ => ⟨hlb, hrb⟩, htl, htr2⟩
        · show bhOpt (RBTree.node RBColor.black
            (RBTree.node RBColor.red fgsib fgs fpsib) fps
            (RBTree.node RBColor.red tl ts tr)) = _
          rw [bh_node]
          refine ⟨a, ?_, ?_, by simp⟩
          · rw [bh_node]
            exact ⟨a, hg2, hp2, by simp⟩
          · rw [bh_node]
            exact ⟨a, hba, hbb, by simp⟩

/-- Supporting lemma: fix_insert from a red focus with a valid chain yields a
tree satisfying all three invariants. -/
theorem rbFixIns_ok : ∀ (fuel : Nat) (ctx : RBCtx) (t : RBTree) (n : Nat),
    ctx.length ≤ fuel → t.colorOf = RBColor.red → noRedRedB t = true →
    bhOpt t = some n → VC ctx n →
    noRedRedB (rbFixIns t ctx) = true ∧ (∃ m, bhOpt (rbFixIns t ctx) = some m) ∧
    (rbFixIns t ctx).colorOf = RBColor.black := by
  intro fuel
  induction fuel with
  | zero =>
      intro ctx t n hf htc htr htb hvc
      have hctx : ctx = [] := by
        cases ctx with
        | nil => rfl
        | cons f r => simp at hf
      subst hctx
      show noRedRedB t.paintBlack = true ∧ _
      exact ⟨paintBlack_RR t htr, ⟨_, paintBlack_bh t n htb⟩, paintBlack_color t⟩
  | succ e ih =>
      intro ctx t n hf htc htr htb hvc
      cases ctx with
      | nil =>
          show noRedRedB t.paintBlack = true ∧ _
          exact ⟨paintBlack_RR t htr, ⟨_, paintBlack_bh t n htb⟩, paintBlack_color t⟩
      | cons fp rest =>
          obtain ⟨hps1, hps2, hps3, hvrest⟩ := hvc
          cases rest with
          | nil =>
              have hstep : rbFixIns t [fp]
                  = if fp.color = RBColor.red then (t.fill [fp]).paintBlack
                    else (t.fill [fp]).paintBlack := rfl
              rw [hstep, ite_self]
              have hfill : t.fill [fp] = fp.fillOne t := rfl
              rw [hfill]
              cases hd : fp.dir
              · have e1 : fp.fillOne t = RBTree.node fp.color t fp.song fp.sib := by
                  rw [RBFrame.fillOne, hd]
                rw [e1]
                refine ⟨?_, ⟨n + 1, ?_⟩, ?_⟩
                · show noRedRedB (RBTree.node RBColor.black t fp.song fp.sib) = true
                  rw [RR_node]
                  exact ⟨(fun hx => by cases hx), htr, hps1⟩
                · show bhOpt (RBTree.node RBColor.black t fp.song fp.sib) = _
                  rw [bh_node]
                  exact ⟨n, htb, hps2, by simp⟩
                · rfl
              · have e1 : fp.fillOne t = RBTree.node fp.color fp.sib fp.song t := by
                  rw [RBFrame.fillOne, hd]
                rw [e1]
                refine ⟨?_, ⟨n + 1, ?_⟩, ?_⟩
                · show noRedRedB (RBTree.node RBColor.black fp.sib fp.song t) = true
                  rw [RR_node]
                  exact ⟨(fun hx => by cases hx), hps1, htr⟩
                · show bhOpt (RBTree.node RBColor.black fp.sib fp.song t) = _
                  rw [bh_node]
                  exact ⟨n, hps2, htb, by simp⟩
                · rfl
          | cons fg rrest =>
              have hstep : rbFixIns t (fp :: fg :: rrest)
                  = if fp.color = RBColor.red then
                      (if fg.sib.colorOf = RBColor.red then
                        rbFixIns ((RBFrame.mk fg.dir RBColor.red fg.song
                            fg.sib.paintBlack).fillOne
                          ((RBFrame.mk fp.dir RBColor.black fp.song
                            fp.sib).fillOne t)) rrest
                      else ((rbInsRestructure t fp fg).fill rrest).paintBlack)
                    else (t.fill (fp :: fg :: rrest)).paintBlack := rfl
              rw [hstep]
              by_cases hfpc : fp.color = RBColor.red
              · rw [if_pos hfpc]
                have ebit : (n + if fp.color = RBColor.black then 1 else 0) = n := by
                  rw [hfpc]
                  simp
                rw [ebit] at hvrest
                obtain ⟨hgs1, hgs2, hgs3, hvrr⟩ := hvrest
                obtain ⟨hpsb, hghd⟩ := hps3 hfpc
                have hfgb : fg.color = RBColor.black := hghd
                have ebit2 : (n + if fg.color = RBColor.black then 1 else 0)
                    = n + 1 := by
                  rw [hfgb]
                  simp
                rw [ebit2] at hvrr
                by_cases hu : fg.sib.colorOf = RBColor.red
                · rw [if_pos hu]
                  have hin_rr : noRedRedB ((RBFrame.mk fp.dir RBColor.black fp.song
                      fp.sib).fillOne t) = true :=
                    fillOne_RR _ _ _ _ _ hps1 htr (fun hx => by cases hx)
                  have hin_bh : bhOpt ((RBFrame.mk fp.dir RBColor.black fp.song
                      fp.sib).fillOne t) = some (n + 1) := by
                    have hx := fillOne_bh fp.dir RBColor.black fp.song fp.sib t n
                      hps2 htb
                    simpa using hx
                  have hin_c : ((RBFrame.mk fp.dir RBColor.black fp.song
                      fp.sib).fillOne t).colorOf = RBColor.black :=
                    fillOne_color _ _
                  have ht2_rr : noRedRedB ((RBFrame.mk fg.dir RBColor.red fg.song
                      fg.sib.paintBlack).fillOne ((RBFrame.mk fp.dir RBColor.black
                      fp.song fp.sib).fillOne t)) = true :=
                    fillOne_RR _ _ _ _ _ (paintBlack_RR _ hgs1) hin_rr
                      (fun _ => ⟨paintBlack_color _, hin_c⟩)
                  have ht2_bh : bhOpt ((RBFrame.mk fg.dir RBColor.red fg.song
                      fg.sib.paintBlack).fillOne ((RBFrame.mk fp.dir RBColor.black
                      fp.song fp.sib).fillOne t)) = some (n + 1) := by
                    have hsb : bhOpt fg.sib.paintBlack = some (n + 1) := by
                      have hx := paintBlack_bh fg.sib n hgs2
                      rw [hu] at hx
                      simpa using hx
                    have hx := fillOne_bh fg.dir RBColor.red fg.song
                      fg.sib.paintBlack _ (n + 1) hsb hin_bh
                    simpa using hx
                  have ht2_c : ((RBFrame.mk fg.dir RBColor.red fg.song
                      fg.sib.paintBlack).fillOne ((RBFrame.mk fp.dir RBColor.black
                      fp.song fp.sib).fillOne t)).colorOf = RBColor.red :=
                    fillOne_color _ _
                  exact ih rrest _ (n + 1) (by simp at hf; omega) ht2_c ht2_rr
                    ht2_bh hvrr
                · rw [if_neg hu]
                  have hub : fg.sib.colorOf = RBColor.black := by
                    cases hx : fg.sib.colorOf
                    · exact absurd hx hu
                    · rfl
                  obtain ⟨hR1, hR2, hR3⟩ := rbInsRestructure_ok t fp fg n htc htr
                    htb hps1 hps2 hpsb hgs1 hgs2 hub
                  obtain ⟨hf1, hf2⟩ := fill_ok rrest (n + 1) _ hvrr hR1 hR2
                    (Or.inl hR3)
                  exact ⟨paintBlack_RR _ hf1, ⟨_, paintBlack_bh _ _ hf2⟩,
                    paintBlack_color _⟩
              · rw [if_neg hfpc]
                have hfpb : fp.color = RBColor.black := by
                  cases hx : fp.color
                  · exact absurd hx hfpc
                  · rfl
                obtain ⟨hf1, hf2⟩ := fill_ok (fp :: fg :: rrest) n t
                  ⟨hps1, hps2, hps3, hvrest⟩ htr htb (Or.inr hfpb)
                exact ⟨paintBlack_RR _ hf1, ⟨_, paintBlack_bh _ _ hf2⟩,
                  paintBlack_color _⟩

/-- Supporting lemma: insert preserves all three red-black invariants. -/
theorem rbInsert_ok (t : RBTree) (s : Song) (h : IsRB t) : IsRB (rbInsert t s) := by
  obtain ⟨h1, ⟨n, h2⟩, h3⟩ := h
  have hvc : VC (t.insPoint s []) 0 :=
    insPoint_spec t s [] n h1 h2 trivial
      (fun hc => by rw [h3] at hc; cases hc)
  obtain ⟨g1, g2, g3⟩ := rbFixIns_ok (t.insPoint s []).length (t.insPoint s [])
    (RBTree.node RBColor.red RBTree.nil s RBTree.nil) 0 (le_refl _) rfl
    (by rw [RR_node]; exact ⟨(fun _ => ⟨rfl, rfl⟩), rfl, rfl⟩)
    (by rw [bh_node]; exact ⟨0, rfl, rfl, by simp⟩) hvc
  exact ⟨g1, g2, g3⟩

/-- Supporting lemma: the delete-side search produces a valid focused node
with a valid chain. -/
theorem searchZ_spec : ∀ (t : RBTree) (s : Song) (ctx : RBCtx) (n : Nat)
    (z : RBTree) (ctx2 : RBCtx),
    noRedRedB t = true → bhOpt t = some n → VC ctx n →
    (t.colorOf = RBColor.red → ctxHeadColor ctx = RBColor.black) →
    LastB ctx → (ctx = [] → t.colorOf = RBColor.black) →
    t.searchZ s ctx = some (z, ctx2) →
    noRedRedB z = true ∧
    (∃ m, bhOpt z = some m ∧ VC ctx2 m) ∧
    (z.colorOf = RBColor.red → ctxHeadColor ctx2 = RBColor.black) ∧
    LastB ctx2 ∧ (ctx2 = [] → z.colorOf = RBColor.black) := by
  intro t
  induction t with
  | nil =>
      intro s ctx n z ctx2 _ _ _ _ _ _ heq
      simp [RBTree.searchZ] at heq
  | node c l x r ihl ihr =>
      intro s ctx n z ctx2 h1 h2 hvc hhd hlb hemp heq
      rw [RR_node] at h1
      obtain ⟨hcl, hrl, hrr⟩ := h1
      rw [bh_node] at h2
      obtain ⟨a, hal, har, hn⟩ := h2
      have hstep : RBTree.searchZ (RBTree.node c l x r) s ctx
          = if songEq x s then some (RBTree.node c l x r, ctx)
            else if songLt s x then
              RBTree.searchZ l s (RBFrame.mk RBDir.left c x r :: ctx)
            else RBTree.searchZ r s (RBFrame.mk RBDir.right c x l :: ctx) := rfl
      rw [hstep] at heq
      by_cases he1 : songEq x s = true
      · rw [if_pos he1] at heq
        have hp := Option.some_inj.mp heq
        have hz : RBTree.node c l x r = z := congrArg Prod.fst hp
        have hc2 : ctx = ctx2 := congrArg Prod.snd hp
        subst hz
        subst hc2
        refine ⟨?_, ⟨n, ?_, hvc⟩, hhd, hlb, hemp⟩
        · rw [RR_node]
          exact ⟨hcl, hrl, hrr⟩
        · rw [bh_node]
          exact ⟨a, hal, har, hn⟩
      · rw [if_neg he1] at heq
        by_cases he2 : songLt s x = true
        · rw [if_pos he2] at heq
          have hvc' : VC (RBFrame.mk RBDir.left c x r :: ctx) a := by
            refine ⟨hrr, har, ?_, ?_⟩
            · intro hc
              exact ⟨(hcl hc).2, hhd hc⟩
            · rw [← hn]
              exact hvc
          have hhd' : l.colorOf = RBColor.red →
              ctxHeadColor (RBFrame.mk RBDir.left c x r :: ctx) = RBColor.black := by
            intro hlc
            show c = RBColor.black
            cases hc : c with
            | black => rfl
            | red => exact absurd hlc (by rw [(hcl hc).1]; intro hx; cases hx)
          have hlb' : LastB (RBFrame.mk RBDir.left c x r :: ctx) := by
            cases ctx with
            | nil => exact hemp rfl
            | cons g rr => exact hlb
          exact ihl s _ a z ctx2 hrl hal hvc' hhd' hlb' (by intro hx; cases hx) heq
        · rw [if_neg he2] at heq
          have hvc' : VC (RBFrame.mk RBDir.right c x l :: ctx) a := by
            refine ⟨hrl, hal, ?_, ?_⟩
            · intro hc
              exact ⟨(hcl hc).1, hhd hc⟩
            · rw [← hn]
              exact hvc
          have hhd' : r.colorOf = RBColor.red →
              ctxHeadColor (RBFrame.mk RBDir.right c x l :: ctx) = RBColor.black := by
            intro hrc
            show c = RBColor.black
            cases hc : c with
            | black => rfl
            | red => exact absurd hrc (by rw [(hcl hc).2]; intro hx; cases hx)
          have hlb' : LastB (RBFrame.mk RBDir.right c x l :: ctx) := by
            cases ctx with
            | nil => exact hemp rfl
            | cons g rr => exact hlb
          exact ihr s _ a z ctx2 hrr har hvc' hhd' hlb' (by intro hx; cases hx) heq

/-- Supporting lemma: the minimum descent lands on a node with a sentinel
left child, with a valid chain whose filled black height is unchanged and
whose outermost frame, when the walk moved at all, is the subtree root. -/
theorem minZ_spec : ∀ (t : RBTree) (ctx : RBCtx) (n : Nat) (y : RBTree)
    (ictx : RBCtx),
    noRedRedB t = true → bhOpt t = some n → VC ctx n →
    (t.colorOf = RBColor.red → ctxHeadColor ctx = RBColor.black) →
    t ≠ RBTree.nil →
    t.minZ ctx = (y, ictx) →
    (∃ yc ys yr, y = RBTree.node yc RBTree.nil ys yr) ∧
    noRedRedB y = true ∧
    (∃ m, bhOpt y = some m ∧ VC ictx m ∧ ctxBH ictx m = ctxBH ctx n) ∧
    (y.colorOf = RBColor.red → ctxHeadColor ictx = RBColor.black) ∧
    (∀ f, ictx.getLast? = some f → ctx.getLast? = some f ∨
      (ctx = [] ∧ f.color = t.colorOf)) := by
  intro t
  induction t with
  | nil =>
      intro ctx n y ictx _ _ _ _ hne _
      exact absurd rfl hne
  | node c l x r ihl ihr =>
      intro ctx n y ictx h1 h2 hvc hhd _ heq
      rw [RR_node] at h1
      obtain ⟨hcl, hrl, hrr⟩ := h1
      rw [bh_node] at h2
      obtain ⟨a, hal, har, hn⟩ := h2
      cases l with
      | nil =>
          have hp : (RBTree.node c RBTree.nil x r, ctx) = (y, ictx) := heq
          have hy : RBTree.node c RBTree.nil x r = y := congrArg Prod.fst hp
          have hc2 : ctx = ictx := congrArg Prod.snd hp
          subst hy
          subst hc2
          refine ⟨⟨c, x, r, rfl⟩, ?_, ⟨n, ?_, hvc, rfl⟩, hhd, ?_⟩
          · rw [RR_node]
            exact ⟨hcl, hrl, hrr⟩
          · rw [bh_node]
            exact ⟨a, hal, har, hn⟩
          · intro f hf
            exact Or.inl hf
      | node lc ll lx lr =>
          have hstep : RBTree.minZ (RBTree.node c (RBTree.node lc ll lx lr) x r) ctx
              = RBTree.minZ (RBTree.node lc ll lx lr)
                  (RBFrame.mk RBDir.left c x r :: ctx) := rfl
          rw [hstep] at heq
          have hvc' : VC (RBFrame.mk RBDir.left c x r :: ctx) a := by
            refine ⟨hrr, har, ?_, ?_⟩
            · intro hc
              exact ⟨(hcl hc).2, hhd hc⟩
            · rw [← hn]
              exact hvc
          have hhd' : (RBTree.node lc ll lx lr).colorOf = RBColor.red →
              ctxHeadColor (RBFrame.mk RBDir.left c x r :: ctx) = RBColor.black := by
            intro hlc
            show c = RBColor.black
            cases hc : c with
            | black => rfl
            | red => exact absurd hlc (by rw [(hcl hc).1]; intro hx; cases hx)
          obtain ⟨g1, g2, ⟨m, gm1, gm2, gm3⟩, g4, g5⟩ := ihl _ a y ictx hrl hal
            hvc' hhd' (by intro hx; cases hx) heq
          refine ⟨g1, g2, ⟨m, gm1, gm2, ?_⟩, g4, ?_⟩
          · rw [gm3]
            show ctxBH ctx (a + _) = _
            rw [← hn]
          · intro f hf
            rcases g5 f hf with hx | hx
            · cases ctx with
              | nil =>
                  have hlast : (RBFrame.mk RBDir.left c x r :: ([] : RBCtx)).getLast?
                      = some (RBFrame.mk RBDir.left c x r) := rfl
                  rw [hlast] at hx
                  have hfx : f = RBFrame.mk RBDir.left c x r :=
                    (Option.some_inj.mp hx).symm
                  exact Or.inr ⟨rfl, by rw [hfx]; rfl⟩
              | cons g rr =>
                  rw [List.getLast?_cons_cons] at hx
                  exact Or.inl hx
            · cases hx.1

/-- Supporting lemma: the terminal left arm of fix_delete absorbs the black
deficit and yields a tree satisfying all three invariants. -/
theorem rbDelArmLeft_ok (x : RBTree) (pc : RBColor) (ps : Song) (S : RBTree)
    (rest : RBCtx) (m : Nat)
    (hx1 : noRedRedB x = true) (hx2 : bhOpt x = some m)
    (hS1 : noRedRedB S = true) (hS2 : bhOpt S = some (m + 1))
    (hS3 : S.colorOf = RBColor.black)
    (hSred : S.leftCh.colorOf = RBColor.red ∨ S.rightCh.colorOf = RBColor.red)
    (hvc : VC rest (m + 1 + (if pc = RBColor.black then 1 else 0)))
    (hpc : pc = RBColor.red → ctxHeadColor rest = RBColor.black) :
    noRedRedB (rbDelArmLeft x pc ps S rest) = true ∧
    (∃ j, bhOpt (rbDelArmLeft x pc ps S rest) = some j) ∧
    (rbDelArmLeft x pc ps S rest).colorOf = RBColor.black := by
  cases S with
  | nil =>
      have h0 : (some 0 : Option Nat) = some (m + 1) := hS2
      exact absurd (Option.some_inj.mp h0) (by omega)
  | node Sc sl ssong sr =>
      have hSc : Sc = RBColor.black := hS3
      subst hSc
      rw [RR_node] at hS1
      obtain ⟨_, hsl1, hsr1⟩ := hS1
      rw [bh_node] at hS2
      obtain ⟨a, hsla, hsra, hma⟩ := hS2
      have ham : a = m := by simpa using hma.symm
      subst ham
      by_cases hsrc : sr.colorOf = RBColor.black
      · have hslc : sl.colorOf = RBColor.red := by
          rcases hSred with h | h
          · exact h
          · exact absurd (show sr.colorOf = RBColor.red from h)
              (by rw [hsrc]; intro hx; cases hx)
        cases sl with
        | nil => exact absurd hslc (by intro hx; cases hx)
        | node slc sll sls slr =>
            have hslc2 : slc = RBColor.red := hslc
            subst hslc2
            rw [RR_node] at hsl1
            obtain ⟨_, hsll1, hslr1⟩ := hsl1
            rw [bh_node] at hsla
            obtain ⟨b, hbl, hbr, hab⟩ := hsla
            have hbm : b = a := by simpa using hab.symm
            subst hbm
            have hstep : rbDelArmLeft x pc ps
                (RBTree.node RBColor.black (RBTree.node RBColor.red sll sls slr)
                  ssong sr) rest
                = ((RBTree.node pc (RBTree.node RBColor.black x ps sll) sls
                    (RBTree.node RBColor.black slr ssong sr)).fill
                    rest).paintBlack := by
              show (if sr.colorOf = RBColor.black then _ else _) = _
              rw [if_pos hsrc]
            rw [hstep]
            have hB1 : noRedRedB (RBTree.node pc
                (RBTree.node RBColor.black x ps sll) sls
                (RBTree.node RBColor.black slr ssong sr)) = true := by
              rw [RR_node]
              refine ⟨fun _ => ⟨rfl, rfl⟩, ?_, ?_⟩
              · rw [RR_node]
                exact ⟨(fun hx => by cases hx), hx1, hsll1⟩
              · rw [RR_node]
                exact ⟨(fun hx => by cases hx), hslr1, hsr1⟩
            have hB2 : bhOpt (RBTree.node pc
                (RBTree.node RBColor.black x ps sll) sls
                (RBTree.node RBColor.black slr ssong sr))
                = some (b + 1 + (if pc = RBColor.black then 1 else 0)) := by
              rw [bh_node]
              refine ⟨b + 1, ?_, ?_, rfl⟩
              · rw [bh_node]
                exact ⟨b, hx2, hbl, by simp⟩
              · rw [bh_node]
                exact ⟨b, hbr, hsra, by simp⟩
            obtain ⟨hf1, hf2⟩ := fill_ok rest _ _ hvc hB1 hB2
              (by cases hq : pc with
                  | red => exact Or.inr (hpc hq)
                  | black => exact Or.inl rfl)
            exact ⟨paintBlack_RR _ hf1, ⟨_, paintBlack_bh _ _ hf2⟩,
              paintBlack_color _⟩
      · have hsrc2 : sr.colorOf = RBColor.red := by
          cases hq : sr.colorOf
          · rfl
          · exact absurd hq hsrc
        have hstep : rbDelArmLeft x pc ps
            (RBTree.node RBColor.black sl ssong sr) rest
            = ((RBTree.node pc (RBTree.node RBColor.black x ps sl) ssong
                sr.paintBlack).fill rest).paintBlack := by
          show (if sr.colorOf = RBColor.black then _ else _) = _
          rw [if_neg hsrc]
        rw [hstep]
        have hB1 : noRedRedB (RBTree.node pc
            (RBTree.node RBColor.black x ps sl) ssong sr.paintBlack) = true := by
          rw [RR_node]
          refine ⟨fun _ => ⟨rfl, paintBlack_color _⟩, ?_, paintBlack_RR _ hsr1⟩
          rw [RR_node]
          exact ⟨(fun hx => by cases hx), hx1, hsl1⟩
        have hB2 : bhOpt (RBTree.node pc
            (RBTree.node RBColor.black x ps sl) ssong sr.paintBlack)
            = some (a + 1 + (if pc = RBColor.black then 1 else 0)) := by
          rw [bh_node]
          refine ⟨a + 1, ?_, ?_, rfl⟩
          · rw [bh_node]
            exact ⟨a, hx2, hsla, by simp⟩
          · have hq := paintBlack_bh sr a hsra
            rw [hsrc2] at hq
            simpa using hq
        obtain ⟨hf1, hf2⟩ := fill_ok rest _ _ hvc hB1 hB2
          (by cases hq : pc with
              | red => exact Or.inr (hpc hq)
              | black => exact Or.inl rfl)
        exact ⟨paintBlack_RR _ hf1, ⟨_, paintBlack_bh _ _ hf2⟩,
          paintBlack_color _⟩

/-- Supporting lemma: the terminal right arm of fix_delete absorbs the black
deficit and yields a tree satisfying all three invariants. -/
theorem rbDelArmRight_ok (x : RBTree) (pc : RBColor) (ps : Song) (S : RBTree)
    (rest : RBCtx) (m : Nat)
    (hx1 : noRedRedB x = true) (hx2 : bhOpt x = some m)
    (hS1 : noRedRedB S = true) (hS2 : bhOpt S = some (m + 1))
    (hS3 : S.colorOf = RBColor.black)
    (hSred : S.leftCh.colorOf = RBColor.red ∨ S.rightCh.colorOf = RBColor.red)
    (hvc : VC rest (m + 1 + (if pc = RBColor.black then 1 else 0)))
    (hpc : pc = RBColor.red → ctxHeadColor rest = RBColor.black) :
    noRedRedB (rbDelArmRight x pc ps S rest) = true ∧
    (∃ j, bhOpt (rbDelArmRight x pc ps S rest) = some j) ∧
    (rbDelArmRight x pc ps S rest).colorOf = RBColor.black := by
  cases S with
  | nil =>
      have h0 : (some 0 : Option Nat) = some (m + 1) := hS2
      exact absurd (Option.some_inj.mp h0) (by omega)
  | node Sc sl ssong sr =>
      have hSc : Sc = RBColor.black := hS3
      subst hSc
      rw [RR_node] at hS1
      obtain ⟨_, hsl1, hsr1⟩ := hS1
      rw [bh_node] at hS2
      obtain ⟨a, hsla, hsra, hma⟩ := hS2
      have ham : a = m := by simpa using hma.symm
      subst ham
      by_cases hslc : sl.colorOf = RBColor.black
      · have hsrc : sr.colorOf = RBColor.red := by
          rcases hSred with h | h
          · exact absurd (show sl.colorOf = RBColor.red from h)
              (by rw [hslc]; intro hx; cases hx)
          · exact h
        cases sr with
        | nil => exact absurd hsrc (by intro hx; cases hx)
        | node src srl srs srr =>
            have hsrc2 : src = RBColor.red := hsrc
            subst hsrc2
            rw [RR_node] at hsr1
            obtain ⟨_, hsrl1, hsrr1⟩ := hsr1
            rw [bh_node] at hsra
            obtain ⟨b, hbl, hbr, hab⟩ := hsra
            have hbm : b = a := by simpa using hab.symm
            subst hbm
            have hstep : rbDelArmRight x pc ps
                (RBTree.node RBColor.black sl ssong
                  (RBTree.node RBColor.red srl srs srr)) rest
                = ((RBTree.node pc (RBTree.node RBColor.black sl ssong srl) srs
                    (RBTree.node RBColor.black srr ps x)).fill
                    rest).paintBlack := by
              show (if sl.colorOf = RBColor.black then _ else _) = _
              rw [if_pos hslc]
            rw [hstep]
            have hB1 : noRedRedB (RBTree.node pc
                (RBTree.node RBColor.black sl ssong srl) srs
                (RBTree.node RBColor.black srr ps x)) = true := by
              rw [RR_node]
              refine ⟨fun _ => ⟨rfl, rfl⟩, ?_, ?_⟩
              · rw [RR_node]
                exact ⟨(fun hx => by cases hx), hsl1, hsrl1⟩
              · rw [RR_node]
                exact ⟨(fun hx => by cases hx), hsrr1, hx1⟩
            have hB2 : bhOpt (RBTree.node pc
                (RBTree.node RBColor.black sl ssong srl) srs
                (RBTree.node RBColor.black srr ps x))
                = some (b + 1 + (if pc = RBColor.black then 1 else 0)) := by
              rw [bh_node]
              refine ⟨b + 1, ?_, ?_, rfl⟩
              · rw [bh_node]
                exact ⟨b, hsla, hbl, by simp⟩
              · rw [bh_node]
                exact ⟨b, hbr, hx2, by simp⟩
            obtain ⟨hf1, hf2⟩ := fill_ok rest _ _ hvc hB1 hB2
              (by cases hq : pc with
                  | red => exact Or.inr (hpc hq)
                  | black => exact Or.inl rfl)
            exact ⟨paintBlack_RR _ hf1, ⟨_, paintBlack_bh _ _ hf2⟩,
              paintBlack_color _⟩
      · have hslc2 : sl.colorOf = RBColor.red := by
          cases hq : sl.colorOf
          · rfl
          · exact absurd hq hslc
        have hstep : rbDelArmRight x pc ps
            (RBTree.node RBColor.black sl ssong sr) rest
            = ((RBTree.node pc sl.paintBlack ssong
                (RBTree.node RBColor.black sr ps x)).fill rest).paintBlack := by
          show (if sl.colorOf = RBColor.black then _ else _) = _
          rw [if_neg hslc]
        rw [hstep]
        have hB1 : noRedRedB (RBTree.node pc sl.paintBlack ssong
            (RBTree.node RBColor.black sr ps x)) = true := by
          rw [RR_node]
          refine ⟨fun _ => ⟨paintBlack_color _, rfl⟩, paintBlack_RR _ hsl1, ?_⟩
          rw [RR_node]
          exact ⟨(fun hx => by cases hx), hsr1, hx1⟩
        have hB2 : bhOpt (RBTree.node pc sl.paintBlack ssong
            (RBTree.node RBColor.black sr ps x))
            = some (a + 1 + (if pc = RBColor.black then 1 else 0)) := by
          rw [bh_node]
          refine ⟨a + 1, ?_, ?_, rfl⟩
          · have hq := paintBlack_bh sl a hsla
            rw [hslc2] at hq
            simpa using hq
          · rw [bh_node]
            exact ⟨a, hsra, hx2, by simp⟩
        obtain ⟨hf1, hf2⟩ := fill_ok rest _ _ hvc hB1 hB2
          (by cases hq : pc with
              | red => exact Or.inr (hpc hq)
              | black => exact Or.inl rfl)
        exact ⟨paintBlack_RR _ hf1, ⟨_, paintBlack_bh _ _ hf2⟩,
          paintBlack_color _⟩

/-- Supporting lemma: the red-focus exit of fix_delete blackens the focus,
regaining the missing black, and refills. -/
theorem rbRedFill_ok (x : RBTree) (ctx : RBCtx) (m : Nat)
    (hxr : x.colorOf = RBColor.red) (hRRb : noRedRedB x.paintBlack = true)
    (hx2 : bhOpt x = some m) (hvc : VC ctx (m + 1)) (hlb : LastB ctx)
    (hne : ctx = [] → False) :
    noRedRedB (x.paintBlack.fill ctx) = true ∧
    (∃ j, bhOpt (x.paintBlack.fill ctx) = some j) ∧
    (x.paintBlack.fill ctx).colorOf = RBColor.black := by
  have hpb_bh : bhOpt x.paintBlack = some (m + 1) := by
    have hq := paintBlack_bh x m hx2
    rw [hxr] at hq
    simpa using hq
  obtain ⟨hf1, hf2⟩ := fill_ok ctx (m + 1) x.paintBlack hvc hRRb hpb_bh
    (Or.inl (paintBlack_color x))
  exact ⟨hf1, ⟨_, hf2⟩, fill_rootBlack ctx x.paintBlack hlb
    (fun h => absurd h hne)⟩

/-- Supporting lemma: fix_delete from a deficit focus with a valid chain
yields a tree satisfying all three invariants. -/
theorem rbFixDel_ok : ∀ (fuel : Nat) (ctx : RBCtx) (x : RBTree) (m : Nat),
    ctx.length ≤ fuel →
    noRedRedB x.paintBlack = true → bhOpt x = some m →
    VC ctx (m + 1) → LastB ctx →
    noRedRedB (rbFixDel x ctx) = true ∧ (∃ j, bhOpt (rbFixDel x ctx) = some j) ∧
    (rbFixDel x ctx).colorOf = RBColor.black := by
  intro fuel
  induction fuel with
  | zero =>
      intro ctx x m hf hRRb hx2 hvc hlb
      have hctx : ctx = [] := by
        cases ctx with
        | nil => rfl
        | cons f r => simp at hf
      subst hctx
      show noRedRedB x.paintBlack = true ∧ _
      exact ⟨hRRb, ⟨_, paintBlack_bh x m hx2⟩, paintBlack_color x⟩
  | succ e ih =>
      intro ctx x m hf hRRb hx2 hvc hlb
      cases ctx with
      | nil =>
          show noRedRedB x.paintBlack = true ∧ _
          exact ⟨hRRb, ⟨_, paintBlack_bh x m hx2⟩, paintBlack_color x⟩
      | cons fp rest =>
          obtain ⟨fpd, fpc, fps, fpsib⟩ := fp
          obtain ⟨hs1, hs2, hs3, hvr⟩ := hvc
          have hlbr : LastB rest := LastB_tail _ rest hlb
          by_cases hxr : x.colorOf = RBColor.red
          · have hstep : rbFixDel x (RBFrame.mk fpd fpc fps fpsib :: rest)
                = x.paintBlack.fill (RBFrame.mk fpd fpc fps fpsib :: rest) := by
              cases fpd <;> · show (if x.colorOf = RBColor.red then _ else _) = _
                              rw [if_pos hxr]
            rw [hstep]
            exact rbRedFill_ok x _ m hxr hRRb hx2 ⟨hs1, hs2, hs3, hvr⟩ hlb
              (fun h => by cases h)
          · have hxb : x.colorOf = RBColor.black := by
              cases hq : x.colorOf
              · exact absurd hq hxr
              · rfl
            have hxRR : noRedRedB x = true := by
              cases x with
              | nil => exact hRRb
              | node xc xl xs xr =>
                  have hxc : xc = RBColor.black := hxb
                  subst hxc
                  exact hRRb
            cases fpsib with
            | nil =>
                have h0 : (some 0 : Option Nat) = some (m + 1) := hs2
                exact absurd (Option.some_inj.mp h0) (by omega)
            | node Sc sl ssong sr =>
                cases fpd
                · -- focus is a left child
                  by_cases hsr : (RBTree.node Sc sl ssong sr).colorOf = RBColor.red
                  · have hScr : Sc = RBColor.red := hsr
                    subst hScr
                    have hfpcb : fpc = RBColor.black := by
                      cases hq : fpc with
                      | black => rfl
                      | red =>
                          have := (hs3 hq).1
                          rw [hsr] at this
                          cases this
                    rw [RR_node] at hs1
                    obtain ⟨hcc, hsl1, hsr1⟩ := hs1
                    obtain ⟨hslb, hsrb⟩ := hcc rfl
                    rw [bh_node] at hs2
                    obtain ⟨a, hsla, hsra, hma⟩ := hs2
                    have ham : a = m + 1 := by simpa using hma.symm
                    subst ham
                    have hvrr : VC rest (m + 1 + 1) := by
                      have e : (m + 1 + if fpc = RBColor.black then 1 else 0)
                          = m + 1 + 1 := by
                        rw [hfpcb]
                        simp
                      rw [e] at hvr
                      exact hvr
                    have hvrest' : VC (RBFrame.mk RBDir.left RBColor.black ssong
                        sr :: rest) (m + 1) :=
                      ⟨hsr1, hsra, (fun hq => by cases hq), hvrr⟩
                    have hlbrest' : LastB (RBFrame.mk RBDir.left RBColor.black
                        ssong sr :: rest) := by
                      cases rest with
                      | nil => rfl
                      | cons g rr => exact hlbr
                    by_cases hbb : sl.leftCh.colorOf = RBColor.black ∧
                        sl.rightCh.colorOf = RBColor.black
                    · have hstep : rbFixDel x (RBFrame.mk RBDir.left fpc fps
                          (RBTree.node RBColor.red sl ssong sr) :: rest)
                          = (RBTree.node RBColor.black x fps sl.paintRed).fill
                              (RBFrame.mk RBDir.left RBColor.black ssong sr
                                :: rest) := by
                        show (if x.colorOf = RBColor.red then _ else _) = _
                        rw [if_neg hxr]
                        show (if (RBTree.node RBColor.red sl ssong sr).colorOf
                            = RBColor.red then _ else _) = _
                        rw [if_pos hsr]
                        show (if sl.leftCh.colorOf = RBColor.black ∧
                            sl.rightCh.colorOf = RBColor.black then _ else _) = _
                        rw [if_pos hbb]
                      rw [hstep]
                      cases sl with
                      | nil =>
                          have h0 : (some 0 : Option Nat) = some (m + 1) := hsla
                          exact absurd (Option.some_inj.mp h0) (by omega)
                      | node slc sll sls slr =>
                          have hslcb : slc = RBColor.black := hslb
                          subst hslcb
                          rw [RR_node] at hsl1
                          obtain ⟨_, hsll1, hslr1⟩ := hsl1
                          rw [bh_node] at hsla
                          obtain ⟨b, hbl2, hbr2, hab2⟩ := hsla
                          have hbm : b = m := by simpa using hab2.symm
                          rw [hbm] at hbl2 hbr2
                          have hT1 : noRedRedB (RBTree.node RBColor.black x fps
                              (RBTree.node RBColor.black sll sls
                                slr).paintRed) = true := by
                            show noRedRedB (RBTree.node RBColor.black x fps
                              (RBTree.node RBColor.red sll sls slr)) = true
                            rw [RR_node]
                            refine ⟨(fun hq => by cases hq), hxRR, ?_⟩
                            rw [RR_node]
                            exact ⟨fun _ => ⟨hbb.1, hbb.2⟩, hsll1, hslr1⟩
                          have hT2 : bhOpt (RBTree.node RBColor.black x fps
                              (RBTree.node RBColor.black sll sls
                                slr).paintRed) = some (m + 1) := by
                            show bhOpt (RBTree.node RBColor.black x fps
                              (RBTree.node RBColor.red sll sls slr)) = _
                            rw [bh_node]
                            refine ⟨m, hx2, ?_, by simp⟩
                            rw [bh_node]
                            exact ⟨m, hbl2, hbr2, by simp⟩
                          obtain ⟨hf1, hf2⟩ := fill_ok _ (m + 1) _ hvrest' hT1 hT2
                            (Or.inl rfl)
                          exact ⟨hf1, ⟨_, hf2⟩, fill_rootBlack _ _ hlbrest'
                            (fun h => by cases h)⟩
                    · have hstep : rbFixDel x (RBFrame.mk RBDir.left fpc fps
                          (RBTree.node RBColor.red sl ssong sr) :: rest)
                          = rbDelArmLeft x RBColor.red fps sl
                              (RBFrame.mk RBDir.left RBColor.black ssong sr
                                :: rest) := by
                        show (if x.colorOf = RBColor.red then _ else _) = _
                        rw [if_neg hxr]
                        show (if (RBTree.node RBColor.red sl ssong sr).colorOf
                            = RBColor.red then _ else _) = _
                        rw [if_pos hsr]
                        show (if sl.leftCh.colorOf = RBColor.black ∧
                            sl.rightCh.colorOf = RBColor.black then _ else _) = _
                        rw [if_neg hbb]
                      rw [hstep]
                      have hSred : sl.leftCh.colorOf = RBColor.red ∨
                          sl.rightCh.colorOf = RBColor.red := by
                        rcases Decidable.not_and_iff_or_not.mp hbb with h | h
                        · refine Or.inl ?_
                          cases hq : sl.leftCh.colorOf
                          · rfl
                          · exact absurd hq h
                        · refine Or.inr ?_
                          cases hq : sl.rightCh.colorOf
                          · rfl
                          · exact absurd hq h
                      have hvcArm : VC (RBFrame.mk RBDir.left RBColor.black ssong
                          sr :: rest) (m + 1 +
                            (if RBColor.red = RBColor.black then 1 else 0)) := by
                        simpa using hvrest'
                      exact rbDelArmLeft_ok x RBColor.red fps sl _ m hxRR hx2 hsl1
                        hsla hslb hSred hvcArm (fun _ => rfl)
                  · have hsb : (RBTree.node Sc sl ssong sr).colorOf
                        = RBColor.black := by
                      cases hq : (RBTree.node Sc sl ssong sr).colorOf
                      · exact absurd hq hsr
                      · rfl
                    by_cases hbb : (RBTree.node Sc sl ssong sr).leftCh.colorOf
                        = RBColor.black ∧
                        (RBTree.node Sc sl ssong sr).rightCh.colorOf
                        = RBColor.black
                    · have hstep : rbFixDel x (RBFrame.mk RBDir.left fpc fps
                          (RBTree.node Sc sl ssong sr) :: rest)
                          = rbFixDel (RBTree.node fpc x fps
                              (RBTree.node Sc sl ssong sr).paintRed) rest := by
                        show (if x.colorOf = RBColor.red then _ else _) = _
                        rw [if_neg hxr]
                        show (if (RBTree.node Sc sl ssong sr).colorOf
                            = RBColor.red then _ else _) = _
                        rw [if_neg hsr]
                        show (if (RBTree.node Sc sl ssong sr).leftCh.colorOf
                            = RBColor.black ∧
                            (RBTree.node Sc sl ssong sr).rightCh.colorOf
                            = RBColor.black then _ else _) = _
                        rw [if_pos hbb]
                      rw [hstep]
                      have hScb : Sc = RBColor.black := hsb
                      subst hScb
                      rw [RR_node] at hs1
                      obtain ⟨_, hsl1, hsr1⟩ := hs1
                      rw [bh_node] at hs2
                      obtain ⟨a, hsla, hsra, hma⟩ := hs2
                      have ham : a = m := by simpa using hma.symm
                      rw [ham] at hsla hsra
                      have hX1 : noRedRedB (RBTree.node fpc x fps
                          (RBTree.node RBColor.black sl ssong
                            sr).paintRed).paintBlack = true := by
                        show noRedRedB (RBTree.node RBColor.black x fps
                          (RBTree.node RBColor.red sl ssong sr)) = true
                        rw [RR_node]
                        refine ⟨(fun hq => by cases hq), hxRR, ?_⟩
                        rw [RR_node]
                        exact ⟨fun _ => ⟨hbb.1, hbb.2⟩, hsl1, hsr1⟩
                      have hX2 : bhOpt (RBTree.node fpc x fps
                          (RBTree.node RBColor.black sl ssong sr).paintRed)
                          = some (m + (if fpc = RBColor.black then 1 else 0)) := by
                        rw [bh_node]
                        refine ⟨m, hx2, ?_, rfl⟩
                        show bhOpt (RBTree.node RBColor.red sl ssong sr) = _
                        rw [bh_node]
                        exact ⟨m, hsla, hsra, by simp⟩
                      have hvr' : VC rest
                          (m + (if fpc = RBColor.black then 1 else 0) + 1) := by
                        have e : m + (if fpc = RBColor.black then 1 else 0) + 1
                            = m + 1 + (if fpc = RBColor.black then 1 else 0) := by
                          omega
                        rw [e]
                        exact hvr
                      exact ih rest _ _ (by simp at hf; omega) hX1 hX2 hvr' hlbr
                    · have hstep : rbFixDel x (RBFrame.mk RBDir.left fpc fps
                          (RBTree.node Sc sl ssong sr) :: rest)
                          = rbDelArmLeft x fpc fps
                              (RBTree.node Sc sl ssong sr) rest := by
                        show (if x.colorOf = RBColor.red then _ else _) = _
                        rw [if_neg hxr]
                        show (if (RBTree.node Sc sl ssong sr).colorOf
                            = RBColor.red then _ else _) = _
                        rw [if_neg hsr]
                        show (if (RBTree.node Sc sl ssong sr).leftCh.colorOf
                            = RBColor.black ∧
                            (RBTree.node Sc sl ssong sr).rightCh.colorOf
                            = RBColor.black then _ else _) = _
                        rw [if_neg hbb]
                      rw [hstep]
                      have hSred : (RBTree.node Sc sl ssong sr).leftCh.colorOf
                          = RBColor.red ∨
                          (RBTree.node Sc sl ssong sr).rightCh.colorOf
                          = RBColor.red := by
                        rcases Decidable.not_and_iff_or_not.mp hbb with h | h
                        · refine Or.inl ?_
                          cases hq : (RBTree.node Sc sl ssong sr).leftCh.colorOf
                          · rfl
                          · exact absurd hq h
                        · refine Or.inr ?_
                          cases hq : (RBTree.node Sc sl ssong sr).rightCh.colorOf
                          · rfl
                          · exact absurd hq h
                      exact rbDelArmLeft_ok x fpc fps _ rest m hxRR hx2 hs1 hs2
                        hsb hSred hvr (fun hq => (hs3 hq).2)
                · -- focus is a right child (mirror)
                  by_cases hsr : (RBTree.node Sc sl ssong sr).colorOf = RBColor.red
                  · have hScr : Sc = RBColor.red := hsr
                    subst hScr
                    have hfpcb : fpc = RBColor.black := by
                      cases hq : fpc with
                      | black => rfl
                      | red =>
                          have := (hs3 hq).1
                          rw [hsr] at this
                          cases this
                    rw [RR_node] at hs1
                    obtain ⟨hcc, hsl1, hsr1⟩ := hs1
                    obtain ⟨hslb, hsrb⟩ := hcc rfl
                    rw [bh_node] at hs2
                    obtain ⟨a, hsla, hsra, hma⟩ := hs2
                    have ham : a = m + 1 := by simpa using hma.symm
                    subst ham
                    have hvrr : VC rest (m + 1 + 1) := by
                      have e : (m + 1 + if fpc = RBColor.black then 1 else 0)
                          = m + 1 + 1 := by
                        rw [hfpcb]
                        simp
                      rw [e] at hvr
                      exact hvr
                    have hvrest' : VC (RBFrame.mk RBDir.right RBColor.black ssong
                        sl :: rest) (m + 1) :=
                      ⟨hsl1, hsla, (fun hq => by cases hq), hvrr⟩
                    have hlbrest' : LastB (RBFrame.mk RBDir.right RBColor.black
                        ssong sl :: rest) := by
                      cases rest with
                      | nil => rfl
                      | cons g rr => exact hlbr
                    by_cases hbb : sr.rightCh.colorOf = RBColor.black ∧
                        sr.leftCh.colorOf = RBColor.black
                    · have hstep : rbFixDel x (RBFrame.mk RBDir.right fpc fps
                          (RBTree.node RBColor.red sl ssong sr) :: rest)
                          = (RBTree.node RBColor.black sr.paintRed fps x).fill
                              (RBFrame.mk RBDir.right RBColor.black ssong sl
                                :: rest) := by
                        show (if x.colorOf = RBColor.red then _ else _) = _
                        rw [if_neg hxr]
                        show (if (RBTree.node RBColor.red sl ssong sr).colorOf
                            = RBColor.red then _ else _) = _
                        rw [if_pos hsr]
                        show (if sr.rightCh.colorOf = RBColor.black ∧
                            sr.leftCh.colorOf = RBColor.black then _ else _) = _
                        rw [if_pos hbb]
                      rw [hstep]
                      cases sr with
                      | nil =>
                          have h0 : (some 0 : Option Nat) = some (m + 1) := hsra
                          exact absurd (Option.some_inj.mp h0) (by omega)
                      | node src srl srs srr =>
                          have hsrcb : src = RBColor.black := hsrb
                          subst hsrcb
                          rw [RR_node] at hsr1
                          obtain ⟨_, hsrl1, hsrr1⟩ := hsr1
                          rw [bh_node] at hsra
                          obtain ⟨b, hbl2, hbr2, hab2⟩ := hsra
                          have hbm : b = m := by simpa using hab2.symm
                          rw [hbm] at hbl2 hbr2
                          have hT1 : noRedRedB (RBTree.node RBColor.black
                              (RBTree.node RBColor.black srl srs
                                srr).paintRed fps x) = true := by
                            show noRedRedB (RBTree.node RBColor.black
                              (RBTree.node RBColor.red srl srs srr) fps x) = true
                            rw [RR_node]
                            refine ⟨(fun hq => by cases hq), ?_, hxRR⟩
                            rw [RR_node]
                            exact ⟨fun _ => ⟨hbb.2, hbb.1⟩, hsrl1, hsrr1⟩
                          have hT2 : bhOpt (RBTree.node RBColor.black
                              (RBTree.node RBColor.black srl srs
                                srr).paintRed fps x) = some (m + 1) := by
                            show bhOpt (RBTree.node RBColor.black
                              (RBTree.node RBColor.red srl srs srr) fps x) = _
                            rw [bh_node]
                            refine ⟨m, ?_, hx2, by simp⟩
                            rw [bh_node]
                            exact ⟨m, hbl2, hbr2, by simp⟩
                          obtain ⟨hf1, hf2⟩ := fill_ok _ (m + 1) _ hvrest' hT1 hT2
                            (Or.inl rfl)
                          exact ⟨hf1, ⟨_, hf2⟩, fill_rootBlack _ _ hlbrest'
                            (fun h => by cases h)⟩
                    · have hstep : rbFixDel x (RBFrame.mk RBDir.right fpc fps
                          (RBTree.node RBColor.red sl ssong sr) :: rest)
                          = rbDelArmRight x RBColor.red fps sr
                              (RBFrame.mk RBDir.right RBColor.black ssong sl
                                :: rest) := by
                        show (if x.colorOf = RBColor.red then _ else _) = _
                        rw [if_neg hxr]
                        show (if (RBTree.node RBColor.red sl ssong sr).colorOf
                            = RBColor.red then _ else _) = _
                        rw [if_pos hsr]
                        show (if sr.rightCh.colorOf = RBColor.black ∧
                            sr.leftCh.colorOf = RBColor.black then _ else _) = _
                        rw [if_neg hbb]
                      rw [hstep]
                      have hSred : sr.leftCh.colorOf = RBColor.red ∨
                          sr.rightCh.colorOf = RBColor.red := by
                        rcases Decidable.not_and_iff_or_not.mp hbb with h | h
                        · refine Or.inr ?_
                          cases hq : sr.rightCh.colorOf
                          · rfl
                          · exact absurd hq h
                        · refine Or.inl ?_
                          cases hq : sr.leftCh.colorOf
                          · rfl
                          · exact absurd hq h
                      have hvcArm : VC (RBFrame.mk RBDir.right RBColor.black ssong
                          sl :: rest) (m + 1 +
                            (if RBColor.red = RBColor.black then 1 else 0)) := by
                        simpa using hvrest'
                      exact rbDelArmRight_ok x RBColor.red fps sr _ m hxRR hx2 hsr1
                        hsra hsrb hSred hvcArm (fun _ => rfl)
                  · have hsb : (RBTree.node Sc sl ssong sr).colorOf
                        = RBColor.black := by
                      cases hq : (RBTree.node Sc sl ssong sr).colorOf
                      · exact absurd hq hsr
                      · rfl
                    by_cases hbb : (RBTree.node Sc sl ssong sr).rightCh.colorOf
                        = RBColor.black ∧
                        (RBTree.node Sc sl ssong sr).leftCh.colorOf
                        = RBColor.black
                    · have hstep : rbFixDel x (RBFrame.mk RBDir.right fpc fps
                          (RBTree.node Sc sl ssong sr) :: rest)
                          = rbFixDel (RBTree.node fpc
                              (RBTree.node Sc sl ssong sr).paintRed fps x)
                              rest := by
                        show (if x.colorOf = RBColor.red then _ else _) = _
                        rw [if_neg hxr]
                        show (if (RBTree.node Sc sl ssong sr).colorOf
                            = RBColor.red then _ else _) = _
                        rw [if_neg hsr]
                        show (if (RBTree.node Sc sl ssong sr).rightCh.colorOf
                            = RBColor.black ∧
                            (RBTree.node Sc sl ssong sr).leftCh.colorOf
                            = RBColor.black then _ else _) = _
                        rw [if_pos hbb]
                      rw [hstep]
                      have hScb : Sc = RBColor.black := hsb
                      subst hScb
                      rw [RR_node] at hs1
                      obtain ⟨_, hsl1, hsr1⟩ := hs1
                      rw [bh_node] at hs2
                      obtain ⟨a, hsla, hsra, hma⟩ := hs2
                      have ham : a = m := by simpa using hma.symm
                      rw [ham] at hsla hsra
                      have hX1 : noRedRedB (RBTree.node fpc
                          (RBTree.node RBColor.black sl ssong sr).paintRed fps
                          x).paintBlack = true := by
                        show noRedRedB (RBTree.node RBColor.black
                          (RBTree.node RBColor.red sl ssong sr) fps x) = true
                        rw [RR_node]
                        refine ⟨(fun hq => by cases hq), ?_, hxRR⟩
                        rw [RR_node]
                        exact ⟨fun _ => ⟨hbb.2, hbb.1⟩, hsl1, hsr1⟩
                      have hX2 : bhOpt (RBTree.node fpc
                          (RBTree.node RBColor.black sl ssong sr).paintRed fps x)
                          = some (m + (if fpc = RBColor.black then 1 else 0)) := by
                        rw [bh_node]
                        refine ⟨m, ?_, hx2, rfl⟩
                        show bhOpt (RBTree.node RBColor.red sl ssong sr) = _
                        rw [bh_node]
                        exact ⟨m, hsla, hsra, by simp⟩
                      have hvr' : VC rest
                          (m + (if fpc = RBColor.black then 1 else 0) + 1) := by
                        have e : m + (if fpc = RBColor.black then 1 else 0) + 1
                            = m + 1 + (if fpc = RBColor.black then 1 else 0) := by
                          omega
                        rw [e]
                        exact hvr
                      exact ih rest _ _ (by simp at hf; omega) hX1 hX2 hvr' hlbr
                    · have hstep : rbFixDel x (RBFrame.mk RBDir.right fpc fps
                          (RBTree.node Sc sl ssong sr) :: rest)
                          = rbDelArmRight x fpc fps
                              (RBTree.node Sc sl ssong sr) rest := by
                        show (if x.colorOf = RBColor.red then _ else _) = _
                        rw [if_neg hxr]
                        show (if (RBTree.node Sc sl ssong sr).colorOf
                            = RBColor.red then _ else _) = _
                        rw [if_neg hsr]
                        show (if (RBTree.node Sc sl ssong sr).rightCh.colorOf
                            = RBColor.black ∧
                            (RBTree.node Sc sl ssong sr).leftCh.colorOf
                            = RBColor.black then _ else _) = _
                        rw [if_neg hbb]
                      rw [hstep]
                      have hSred : (RBTree.node Sc sl ssong sr).leftCh.colorOf
                          = RBColor.red ∨
                          (RBTree.node Sc sl ssong sr).rightCh.colorOf
                          = RBColor.red := by
                        rcases Decidable.not_and_iff_or_not.mp hbb with h | h
                        · refine Or.inr ?_
                          cases hq : (RBTree.node Sc sl ssong sr).rightCh.colorOf
                          · rfl
                          · exact absurd hq h
                        · refine Or.inl ?_
                          cases hq : (RBTree.node Sc sl ssong sr).leftCh.colorOf
                          · rfl
                          · exact absurd hq h
                      exact rbDelArmRight_ok x fpc fps _ rest m hxRR hx2 hs1 hs2
                        hsb hSred hvr (fun hq => (hs3 hq).2)

/-- Supporting lemma: delete preserves the red-black invariants. -/
theorem rbDelete_ok (t : RBTree) (s : Song) (h : IsRB t) :
    IsRB (rbDelete t s).2 := by
  obtain ⟨h1, ⟨n, h2⟩, h3⟩ := h
  cases hsz : t.searchZ s [] with
  | none =>
      have hstep : (rbDelete t s).2 = t := by
        unfold rbDelete
        rw [hsz]
      rw [hstep]
      exact ⟨h1, ⟨n, h2⟩, h3⟩
  | some p =>
      obtain ⟨z, ctx⟩ := p
      obtain ⟨hz1, ⟨m, hz2, hvc⟩, hzred, hlb, hz0⟩ :=
        searchZ_spec t s [] n z ctx h1 h2 trivial (fun _ => rfl) trivial
          (fun _ => h3) hsz
      cases z with
      | nil =>
          have hstep : (rbDelete t s).2 = t := by
            unfold rbDelete
            rw [hsz]
          rw [hstep]
          exact ⟨h1, ⟨n, h2⟩, h3⟩
      | node zc zl zs zr =>
          rw [RR_node] at hz1
          obtain ⟨hzc, hl1, hr1⟩ := hz1
          rw [bh_node] at hz2
          obtain ⟨a, hla, hra, hma⟩ := hz2
          cases zl with
          | nil =>
              have ha0 : a = 0 := by
                have h00 : (some 0 : Option Nat) = some a := hla
                exact (Option.some_inj.mp h00).symm
              subst ha0
              cases zc with
              | red =>
                  have hstep : (rbDelete t s).2 = zr.fill ctx := by
                    unfold rbDelete
                    rw [hsz]
                    rfl
                  rw [hstep]
                  obtain ⟨hzlb, hzrb⟩ := hzc rfl
                  have hvc' : VC ctx 0 := by
                    have e : m = 0 := by simpa using hma
                    rw [e] at hvc
                    exact hvc
                  obtain ⟨hf1, hf2⟩ := fill_ok ctx 0 zr hvc' hr1 hra (Or.inl hzrb)
                  exact ⟨hf1, ⟨_, hf2⟩, fill_rootBlack ctx zr hlb (fun _ => hzrb)⟩
              | black =>
                  have hstep : (rbDelete t s).2 = rbFixDel zr ctx := by
                    unfold rbDelete
                    rw [hsz]
                    rfl
                  rw [hstep]
                  have hm1 : m = 0 + 1 := by simpa using hma
                  exact rbFixDel_ok ctx.length ctx zr 0 (Nat.le_refl _)
                    (paintBlack_RR zr hr1) hra
                    (by rw [hm1] at hvc; exact hvc) hlb
          | node lc ll lx lr =>
              cases zr with
              | nil =>
                  have ha0 : a = 0 := by
                    have h00 : (some 0 : Option Nat) = some a := hra
                    exact (Option.some_inj.mp h00).symm
                  subst ha0
                  cases zc with
                  | red =>
                      have hstep : (rbDelete t s).2
                          = (RBTree.node lc ll lx lr).fill ctx := by
                        unfold rbDelete
                        rw [hsz]
                        rfl
                      rw [hstep]
                      obtain ⟨hzlb, hzrb⟩ := hzc rfl
                      have hvc' : VC ctx 0 := by
                        have e : m = 0 := by simpa using hma
                        rw [e] at hvc
                        exact hvc
                      obtain ⟨hf1, hf2⟩ := fill_ok ctx 0 _ hvc' hl1 hla
                        (Or.inl hzlb)
                      exact ⟨hf1, ⟨_, hf2⟩, fill_rootBlack ctx _ hlb
                        (fun _ => hzlb)⟩
                  | black =>
                      have hstep : (rbDelete t s).2
                          = rbFixDel (RBTree.node lc ll lx lr) ctx := by
                        unfold rbDelete
                        rw [hsz]
                        rfl
                      rw [hstep]
                      have hm1 : m = 0 + 1 := by simpa using hma
                      exact rbFixDel_ok ctx.length ctx _ 0 (Nat.le_refl _)
                        (paintBlack_RR _ hl1) hla
                        (by rw [hm1] at hvc; exact hvc) hlb
              | node rc rl rx rr =>
                  cases hmz : (RBTree.node rc rl rx rr).minZ [] with
                  | mk y ictx =>
                  obtain ⟨⟨yc, ys, yr, hy⟩, hy1, ⟨my, hy2, hyvc, hybh⟩, hyred,
                      hylast⟩ :=
                    minZ_spec (RBTree.node rc rl rx rr) [] a y ictx hr1 hra
                      trivial (fun _ => rfl) (by intro hq; cases hq) hmz
                  subst hy
                  have hred : rbDelete t s
                      = (match (RBTree.node rc rl rx rr).minZ [] with
                        | (RBTree.node yc2 RBTree.nil ys2 yr2, ictx2) =>
                            if yc2 = RBColor.black then
                              (DelMsg.removed, rbFixDel yr2 (ictx2 ++
                                (RBFrame.mk RBDir.right zc ys2
                                  (RBTree.node lc ll lx lr) :: ctx)))
                            else
                              (DelMsg.removed, yr2.fill (ictx2 ++
                                (RBFrame.mk RBDir.right zc ys2
                                  (RBTree.node lc ll lx lr) :: ctx)))
                        | _ => (DelMsg.removed, t)) := by
                    unfold rbDelete
                    rw [hsz]
                  have hvcF : VC (RBFrame.mk RBDir.right zc ys
                      (RBTree.node lc ll lx lr) :: ctx) a := by
                    refine ⟨hl1, hla, ?_, ?_⟩
                    · intro hq
                      exact ⟨(hzc hq).1, hzred hq⟩
                    · rw [← hma]
                      exact hvc
                  have hctxa : ctxBH ictx my = a := hybh
                  have hvcx : VC (ictx ++ (RBFrame.mk RBDir.right zc ys
                      (RBTree.node lc ll lx lr) :: ctx)) my := by
                    refine VC_append ictx my _ hyvc ?_ ?_
                    · rw [hctxa]
                      exact hvcF
                    · intro f hf hfr
                      rcases hylast f hf with hg | ⟨_, hfc⟩
                      · simp at hg
                      · show zc = RBColor.black
                        cases hq : zc with
                        | black => rfl
                        | red =>
                            have hrb := (hzc hq).2
                            have hrr : (RBTree.node rc rl rx rr).colorOf
                                = RBColor.red := by
                              rw [← hfc]
                              exact hfr
                            rw [hrb] at hrr
                            cases hrr
                  have hlbx : LastB (ictx ++ (RBFrame.mk RBDir.right zc ys
                      (RBTree.node lc ll lx lr) :: ctx)) := by
                    refine LastB_append ictx _ (by intro hq; cases hq) ?_
                    cases ctx with
                    | nil => exact hz0 rfl
                    | cons g rr2 => exact hlb
                  rw [bh_node] at hy2
                  obtain ⟨b, hb0, hbyr, hmyb⟩ := hy2
                  have hb00 : b = 0 := by
                    have h00 : (some 0 : Option Nat) = some b := hb0
                    exact (Option.some_inj.mp h00).symm
                  subst hb00
                  rw [RR_node] at hy1
                  obtain ⟨hycc, _, hyr1⟩ := hy1
                  cases yc with
                  | black =>
                      rw [hred, hmz]
                      show IsRB (rbFixDel yr (ictx ++ (RBFrame.mk RBDir.right zc
                        ys (RBTree.node lc ll lx lr) :: ctx)))
                      have hmy1 : my = 0 + 1 := by simpa using hmyb
                      exact rbFixDel_ok (ictx ++ (RBFrame.mk RBDir.right zc ys
                          (RBTree.node lc ll lx lr) :: ctx)).length _ yr 0
                        (Nat.le_refl _) (paintBlack_RR yr hyr1) hbyr
                        (by rw [hmy1] at hvcx; exact hvcx) hlbx
                  | red =>
                      rw [hred, hmz]
                      show IsRB (yr.fill (ictx ++ (RBFrame.mk RBDir.right zc ys
                        (RBTree.node lc ll lx lr) :: ctx)))
                      have hmy0 : my = 0 := by simpa using hmyb
                      obtain ⟨hf1, hf2⟩ := fill_ok _ my yr hvcx hyr1
                        (by rw [hmy0]; exact hbyr) (Or.inl (hycc rfl).2)
                      exact ⟨hf1, ⟨_, hf2⟩, fill_rootBlack _ yr hlbx
                        (fun _ => (hycc rfl).2)⟩

/-- Supporting lemma: every red-black tree reached by folding operations over
an invariant-satisfying start state satisfies the invariants. -/
theorem rbRunFrom_ok : ∀ (ops : List RBOp) (t : RBTree), IsRB t →
    IsRB (ops.foldl
      (fun t op =>
        match op with
        | RBOp.ins s => rbInsert t s
        | RBOp.del s => (rbDelete t s).2) t) := by
  intro ops
  induction ops with
  | nil => exact fun t h => h
  | cons op rest ih =>
      intro t h
      cases op with
      | ins s => exact ih _ (rbInsert_ok t s h)
      | del s => exact ih _ (rbDelete_ok t s h)

/-- C2: for every sequence of insert and delete operations on a RedBlackTree
starting from the empty tree, the resulting tree satisfies all three
red-black invariants: the root is BLACK, no RED node has a RED parent, and
every root-to-sentinel path carries the same count of BLACK nodes (the
black-height computation bhOpt succeeds). -/
theorem C2_rb_invariants_hold_after_any_ops (ops : List RBOp) :
    rootBlackB (rbRun ops) = true ∧ noRedRedB (rbRun ops) = true ∧
    ∃ n, bhOpt (rbRun ops) = some n := by
  have h : IsRB (rbRun ops) := rbRunFrom_ok ops RBTree.nil ⟨rfl, ⟨0, rfl⟩, rfl⟩
  obtain ⟨h1, ⟨n, h2⟩, h3⟩ := h
  refine ⟨?_, h1, ⟨n, h2⟩⟩
  rw [rootBlackB, h3]
  rfl
